import Mathlib

/-!
Verification development for the rowan2 lossless syntax-tree engine.

The Rust source (src/builder.rs, src/node.rs, src/lock.rs) is shallowly
embedded here:

* `Content`, `NodeRepr`, `Arena` model the arena of optional node records
  (`Vec<Option<NodeRepr<T>>>`), with `SmolStr` modelled as `String` and
  `NodeId` as `Nat`.
* `Builder` and its operations (`start_internal`, `leaf`, `finish_internal`,
  `checkpoint`, `start_internal_at`, `finishB`, `finishMutB`) are direct
  translations of `TreeBuilder`.
* The `u32` text cursor is modelled as `Nat`; in the source, cursor overflow
  aborts (a fatal contract violation in the debug profile), so every
  non-aborting execution agrees with `Nat` arithmetic.
* Reads of `Option` values that the source unwraps (panicking on `None`, a
  fatal contract violation) are modelled by total functions returning a
  default or leaving state unchanged; all theorems below only invoke them
  under hypotheses that make the panicking path provably unreachable, or
  quantify over trees built by the documented balanced protocol where it is
  proved unreachable.
* Loops that follow sibling chains (`Node::remove`'s free loop, the
  re-parenting loop of `start_internal_at`, the `NodeWalker` iterator) are
  modelled with explicit fuel; lemmas show the fuel bounds used are
  sufficient on the states reached.
-/

namespace Rowan

/-- Content of a node record: an internal branch holding an optional first
child index, or a leaf holding literal text (source: `enum Content`). -/
inductive Content : Type where
  | branch (firstChild : Option Nat) : Content
  | leaf (text : String) : Content
deriving DecidableEq, Repr

/-- A node record (source: `struct NodeRepr<T: Copy>`). -/
structure NodeRepr (T : Type) where
  kind : T
  parent : Option Nat
  prev_sibling : Option Nat
  next_sibling : Option Nat
  content : Content
deriving DecidableEq, Repr

/-- The node arena: `Vec<Option<NodeRepr<T>>>`. -/
abbrev Arena (T : Type) := List (Option (NodeRepr T))

variable {T : Type}

/-- Read an arena slot: `arena[i]` flattening the tombstone layer. -/
def getA (a : Arena T) (n : Nat) : Option (NodeRepr T) :=
  (a.get? n).join

/-- Modify the node stored in one arena slot (no-op on a missing or
tombstoned slot, which the source would have aborted on). -/
def amod : Arena T → Nat → (NodeRepr T → NodeRepr T) → Arena T
  | [], _, _ => []
  | x :: xs, 0, f => x.map f :: xs
  | x :: xs, n + 1, f => x :: amod xs n f

/-- Tombstone one arena slot (`arena[i].take()`). -/
def asetNone : Arena T → Nat → Arena T
  | [], _ => []
  | _ :: xs, 0 => none :: xs
  | x :: xs, n + 1 => x :: asetNone xs n

/-- The first-child slot of branch content (`expect_branch` read); reading a
leaf is a fatal contract violation in the source. -/
def fcOf : Content → Option Nat
  | .branch fc => fc
  | .leaf _ => none

/-- The or-update `*child = child.or(Some(id))` performed by
`insert_and_update` on the parent's branch content. -/
def branchOr : Content → Nat → Content
  | .branch fc, id => .branch (fc.or (some id))
  | .leaf s, _ => .leaf s

/-- Overwrite the first-child pointer of branch content
(`*content.expect_branch() = x`). -/
def setFC : Content → Option Nat → Content
  | .branch _, x => .branch x
  | .leaf s, _ => .leaf s

/-- Leaf text of content, `None` for branches. -/
def leafTextOf : Content → Option String
  | .branch _ => none
  | .leaf s => some s

/-- A builder checkpoint (source: `struct Checkpoint`). -/
structure Checkpoint where
  cursor : Nat
  child : Option Nat
deriving DecidableEq, Repr

/-- The tree builder state (source: `struct TreeBuilder<T: Copy>`). -/
structure Builder (T : Type) where
  arena : Arena T
  parent : Option Nat
  child : Option Nat
  ranges : List (Nat × Option Nat)
  cursor : Nat
deriving DecidableEq, Repr

/-- The initial builder (source: `TreeBuilder::new` / `Default`). -/
def Builder.init : Builder T :=
  { arena := [], parent := none, child := none, ranges := [], cursor := 0 }

/-- Source: `TreeBuilder::insert_and_update`.  Pushes a node whose parent is
the open branch and whose previous sibling is the last finished sibling,
then links the parent's first-child pointer (`or`) and the previous
sibling's `next_sibling` to it. -/
def Builder.insertAU (b : Builder T) (kind : T) (content : Content) :
    Builder T × Nat :=
  let node : NodeRepr T :=
    { kind := kind, parent := b.parent, prev_sibling := b.child,
      next_sibling := none, content := content }
  let id := b.arena.length
  let a1 := b.arena ++ [some node]
  let a2 := match b.parent with
    | some p => amod a1 p (fun r => { r with content := branchOr r.content id })
    | none => a1
  let a3 := match b.child with
    | some c => amod a2 c (fun r => { r with next_sibling := some id })
    | none => a2
  ({ b with arena := a3 }, id)

/-- Source: `TreeBuilder::start_internal`. -/
def Builder.start_internal (b : Builder T) (kind : T) : Builder T :=
  let b1 := { b with ranges := b.ranges ++ [(b.cursor, none)] }
  let p := b1.insertAU kind (.branch none)
  { p.1 with parent := some p.2, child := none }

/-- End value used by `finish_internal`: the unwrapped range end of the last
child, or the branch's own start when childless. -/
def Builder.closeEnd (b : Builder T) (p : Nat) : Nat :=
  match b.child with
  | some c =>
    match b.ranges.get? c with
    | some (_, some e) => e
    | _ => 0
  | none =>
    match b.ranges.get? p with
    | some (s, _) => s
    | none => 0

/-- Set the end component of one range-table entry. -/
def rset : List (Nat × Option Nat) → Nat → Nat → List (Nat × Option Nat)
  | [], _, _ => []
  | x :: xs, 0, e => (x.1, some e) :: xs
  | x :: xs, n + 1, e => x :: rset xs n e

/-- Source: `TreeBuilder::finish_internal`.  Resolves the open branch's range
end, then ascends: `child` becomes the branch, `parent` its parent. -/
def Builder.finish_internal (b : Builder T) : Builder T :=
  let ranges' := match b.parent with
    | some p => rset b.ranges p (b.closeEnd p)
    | none => b.ranges
  { arena := b.arena,
    parent := (b.parent.bind (getA b.arena)).bind (fun r => r.parent),
    child := b.parent,
    ranges := ranges',
    cursor := b.cursor }

/-- Source: `TreeBuilder::leaf`. -/
def Builder.leaf (b : Builder T) (kind : T) (text : String) : Builder T :=
  let b1 := { b with
    ranges := b.ranges ++ [(b.cursor, some (b.cursor + text.length))],
    cursor := b.cursor + text.length }
  let p := b1.insertAU kind (.leaf text)
  { p.1 with child := some p.2 }

/-- Source: `TreeBuilder::checkpoint`. -/
def Builder.checkpoint (b : Builder T) : Checkpoint :=
  { cursor := b.cursor, child := b.child }

/-- The re-parenting loop of `start_internal_at`: follow the `next_sibling`
chain from `oc`, setting each visited node's parent to `pid` (fuel-bounded
model of the source's `while let` loop). -/
def reparent : Nat → Arena T → Option Nat → Nat → Arena T
  | 0, a, _, _ => a
  | _ + 1, a, none, _ => a
  | fuel + 1, a, some c, pid =>
    match getA a c with
    | none => a
    | some r =>
      reparent fuel (amod a c (fun q => { q with parent := some pid })) r.next_sibling pid

/-- Source: `TreeBuilder::start_internal_at`.  Retroactively wraps everything
built since the checkpoint in a new branch of the given kind. -/
def Builder.start_internal_at (b : Builder T) (cp : Checkpoint) (kind : T) :
    Builder T :=
  let b0 := { b with ranges := b.ranges ++ [(cp.cursor, none)] }
  match cp.child with
  | none =>
    let old0 : Option Nat := (b0.parent.bind (getA b0.arena)).bind
      (fun r => fcOf r.content)
    let node : NodeRepr T :=
      { kind := kind, parent := b0.parent, prev_sibling := none,
        next_sibling := none, content := .branch old0 }
    let id := b0.arena.length
    let a1 := b0.arena ++ [some node]
    let a2 := reparent a1.length a1 old0 id
    let a3 := match b0.parent with
      | some p => amod a2 p (fun r => { r with content := .branch (some id) })
      | none => a2
    { b0 with arena := a3, parent := some id }
  | some prev =>
    let old0 : Option Nat := (getA b0.arena prev).bind (fun r => r.next_sibling)
    let node : NodeRepr T :=
      { kind := kind,
        parent := (getA b0.arena prev).bind (fun r => r.parent),
        prev_sibling := some prev, next_sibling := none,
        content := .branch old0 }
    let id := b0.arena.length
    let a1 := b0.arena ++ [some node]
    let a2 := match old0 with
      | some o => amod a1 o (fun r => { r with prev_sibling := none })
      | none => a1
    let a3 := reparent a2.length a2 old0 id
    let a4 := amod a3 prev (fun r => { r with next_sibling := some id })
    { b0 with arena := a4, parent := some id }

/-- Root data of a finished tree (source: `struct RootData<T: Copy>`). -/
structure RootData (T : Type) where
  arena : Arena T
  ranges : List (Nat × Option Nat)
deriving DecidableEq, Repr

/-- Source: `TreeBuilder::finish`.  The two `assert!`s (`child.is_some()` and
`child().prev_sibling.is_none()`) are modelled by returning `none` (a fatal
contract violation aborts the source program). -/
def Builder.finishB (b : Builder T) : Option (RootData T × Nat) :=
  match b.child with
  | none => none
  | some c =>
    match getA b.arena c with
    | none => none
    | some r =>
      if r.prev_sibling = none then
        some ({ arena := b.arena, ranges := b.ranges }, c)
      else none

/-- Source: `TreeBuilder::finish_mut` — same checks as `finish`, but the
range table is discarded (`ranges: Vec::new()`). -/
def Builder.finishMutB (b : Builder T) : Option (RootData T × Nat) :=
  match b.child with
  | none => none
  | some c =>
    match getA b.arena c with
    | none => none
    | some r =>
      if r.prev_sibling = none then
        some ({ arena := b.arena, ranges := [] }, c)
      else none

/-- One builder event: the calls a parser makes against the builder surface
(`start_internal` = open, `leaf`, `finish_internal` = close). -/
inductive Ev (T : Type) where
  | start (kind : T) : Ev T
  | leaf (kind : T) (text : String) : Ev T
  | close : Ev T

/-- Apply one builder event. -/
def Builder.stepEv (b : Builder T) : Ev T → Builder T
  | .start k => b.start_internal k
  | .leaf k s => b.leaf k s
  | .close => b.finish_internal

/-- Run a sequence of builder events. -/
def Builder.run (b : Builder T) (l : List (Ev T)) : Builder T :=
  l.foldl Builder.stepEv b

/-- The concatenation, in call order, of every `text` argument passed to
`leaf` in an event sequence. -/
def evTexts : List (Ev T) → String
  | [] => ""
  | .leaf _ s :: l => s ++ evTexts l
  | _ :: l => evTexts l

mutual

/-- A single abstract tree, describing one balanced open/leaf/close unit. -/
inductive BTree (T : Type) where
  | leaf (kind : T) (text : String) : BTree T
  | branch (kind : T) (children : Forest T) : BTree T

/-- A list of sibling abstract trees. -/
inductive Forest (T : Type) where
  | nil : Forest T
  | cons (head : BTree T) (tail : Forest T) : Forest T

end

mutual

/-- Number of nodes of a tree. -/
def sizeT : BTree T → Nat
  | .leaf _ _ => 1
  | .branch _ cs => 1 + sizeF cs

/-- Number of nodes of a forest. -/
def sizeF : Forest T → Nat
  | .nil => 0
  | .cons t f => sizeT t + sizeF f

end

mutual

/-- Number of roots of a forest (sibling-chain length). -/
def countF : Forest T → Nat
  | .nil => 0
  | .cons _ f => 1 + countF f

end

mutual

/-- Total leaf-text length of a tree. -/
def tlenT : BTree T → Nat
  | .leaf _ s => s.length
  | .branch _ cs => tlenF cs

/-- Total leaf-text length of a forest. -/
def tlenF : Forest T → Nat
  | .nil => 0
  | .cons t f => tlenT t + tlenF f

end

mutual

/-- Concatenated leaf text of a tree, in order. -/
def leafTextT : BTree T → String
  | .leaf _ s => s
  | .branch _ cs => leafTextF cs

/-- Concatenated leaf text of a forest. -/
def leafTextF : Forest T → String
  | .nil => ""
  | .cons t f => leafTextT t ++ leafTextF f

end

mutual

/-- The balanced builder-event serialization of a tree. -/
def evTree : BTree T → List (Ev T)
  | .leaf k s => [.leaf k s]
  | .branch k cs => .start k :: (evForest cs ++ [.close])

/-- The balanced builder-event serialization of a forest. -/
def evForest : Forest T → List (Ev T)
  | .nil => []
  | .cons t f => evTree t ++ evForest f

end

/-- Index of the first root a forest's nodes would occupy when laid out
starting at `base`, as `parent`'s first child (or `none` when empty). -/
def headIdx : Forest T → Nat → Option Nat
  | .nil, _ => none
  | .cons _ _, base => some base

mutual

/-- The arena region a balanced run of `evTree t` appends, laid out starting
at index `base`: the root carries the given `parent`, `prev_sibling` and
`next_sibling` fields, children follow in depth-first creation order. -/
def treeNodes : BTree T → Option Nat → Option Nat → Option Nat → Nat →
    List (Option (NodeRepr T))
  | .leaf k s, par, prv, nxt, _ =>
    [some { kind := k, parent := par, prev_sibling := prv,
            next_sibling := nxt, content := .leaf s }]
  | .branch k cs, par, prv, nxt, base =>
    some { kind := k, parent := par, prev_sibling := prv,
           next_sibling := nxt, content := .branch (headIdx cs (base + 1)) }
      :: forestNodes cs base none none (base + 1)

/-- The arena region for a forest of siblings under parent `pid`, the first
root carrying `prv` as previous sibling and the last root carrying `nxt` as
next sibling. -/
def forestNodes : Forest T → Nat → Option Nat → Option Nat → Nat →
    List (Option (NodeRepr T))
  | .nil, _, _, _, _ => []
  | .cons t f, pid, prv, nxt, base =>
    treeNodes t (some pid)
      prv
      (match f with
       | .nil => nxt
       | .cons _ _ => some (base + sizeT t))
      base
    ++ forestNodes f pid (some base) nxt (base + sizeT t)

end

mutual

/-- The range-table region a balanced run of `evTree t` appends when the
text cursor starts at `c`. -/
def treeRanges : BTree T → Nat → List (Nat × Option Nat)
  | .leaf _ s, c => [(c, some (c + s.length))]
  | .branch _ cs, c => (c, some (c + tlenF cs)) :: forestRanges cs c

/-- The range-table region for a forest. -/
def forestRanges : Forest T → Nat → List (Nat × Option Nat)
  | .nil, _ => []
  | .cons t f, c => treeRanges t c ++ forestRanges f (c + tlenT t)

end

/-- The `child` pointer after building a forest of siblings starting at
`base`, given the previous `child` value: the last root, if any. -/
def lastRootO : Forest T → Option Nat → Nat → Option Nat
  | .nil, c, _ => c
  | .cons t f, _, base => lastRootO f (some base) (base + sizeT t)

/-- The pair of old-arena patches `insert_and_update` makes when the first
node of a new region is inserted: parent's first-child `or`-link, then the
previous sibling's `next_sibling` link. -/
def patchOld : Arena T → Option Nat → Option Nat → Nat → Arena T
  | a, none, none, _ => a
  | a, none, some c, id =>
    amod a c (fun r => { r with next_sibling := some id })
  | a, some p, none, id =>
    amod a p (fun r => { r with content := branchOr r.content id })
  | a, some p, some c, id =>
    amod (amod a p (fun r => { r with content := branchOr r.content id })) c
      (fun r => { r with next_sibling := some id })

mutual

/-- An id-annotated tree: the view of one arena subtree, remembering each
node's arena index. -/
inductive ITree (T : Type) where
  | ileaf (id : Nat) (kind : T) (text : String) : ITree T
  | ibranch (id : Nat) (kind : T) (children : IForest T) : ITree T

/-- An id-annotated forest. -/
inductive IForest (T : Type) where
  | inil : IForest T
  | icons (head : ITree T) (tail : IForest T) : IForest T

end

mutual

/-- Node count of an annotated tree. -/
def isizeT : ITree T → Nat
  | .ileaf _ _ _ => 1
  | .ibranch _ _ cs => 1 + isizeF cs

/-- Node count of an annotated forest. -/
def isizeF : IForest T → Nat
  | .inil => 0
  | .icons t f => isizeT t + isizeF f

end

mutual

/-- Forget the id annotations. -/
def stripT : ITree T → BTree T
  | .ileaf _ k s => .leaf k s
  | .ibranch _ k cs => .branch k (stripF cs)

/-- Forget the id annotations of a forest. -/
def stripF : IForest T → Forest T
  | .inil => .nil
  | .icons t f => .cons (stripT t) (stripF f)

end

mutual

/-- The annotation of a tree laid out at base index `base` (matching
`treeNodes`). -/
def annT : BTree T → Nat → ITree T
  | .leaf k s, base => .ileaf base k s
  | .branch k cs, base => .ibranch base k (annF cs (base + 1))

/-- The annotation of a forest laid out at base index `base`. -/
def annF : Forest T → Nat → IForest T
  | .nil, _ => .inil
  | .cons t f, base => .icons (annT t base) (annF f (base + sizeT t))

end

/-- Append of annotated forests. -/
def appIF : IForest T → IForest T → IForest T
  | .inil, g => g
  | .icons t f, g => .icons t (appIF f g)

mutual

/-- Fuel-bounded decoding of the subtree rooted at arena index `n`: the
functional counterpart of the traversal the navigation API performs
(`first_child`, `next_sibling`, `parent`).  Succeeds only when every child
chain is well linked back to its parent. -/
def readT : Nat → Arena T → Nat → Option (ITree T)
  | 0, _, _ => none
  | fuel + 1, a, n =>
    (getA a n).bind fun r =>
      match r.content with
      | .leaf s => some (.ileaf n r.kind s)
      | .branch fc => (readF fuel a n fc).map (.ibranch n r.kind)

/-- Fuel-bounded decoding of the sibling chain starting at `oc`, checking
each node's parent pointer equals `p`. -/
def readF : Nat → Arena T → Nat → Option Nat → Option (IForest T)
  | 0, _, _, _ => none
  | _ + 1, _, _, none => some .inil
  | fuel + 1, a, p, some c =>
    (getA a c).bind fun rc =>
      if rc.parent = some p then
        (readT fuel a c).bind fun t' =>
          (readF fuel a p rc.next_sibling).map (fun g => .icons t' g)
      else none

end

/-- Walker iterator state (source: `struct NodeWalker`): the pending event
(`true` = Enter, paired with the node index) and the nesting counter. -/
structure WState where
  next : Option (Bool × Nat)
  nested : Nat
deriving DecidableEq, Repr

/-- One `Iterator::next` step of `NodeWalker`: yields the emitted
`(depth, is_enter, node)` triple, if any, and the successor state. -/
def walkerStep (a : Arena T) (s : WState) :
    Option (Nat × Bool × Nat) × WState :=
  match s.next with
  | none => (none, { next := none, nested := s.nested })
  | some (true, n) =>
    let fc := (getA a n).bind (fun r => fcOf r.content)
    ((some (s.nested, true, n)),
     { next := some (match fc with
                     | some c => (true, c)
                     | none => (false, n)),
       nested := s.nested + 1 })
  | some (false, n) =>
    let m := s.nested - 1
    ((some (m, false, n)),
     { next :=
         if m = 0 then none
         else match (getA a n).bind (fun r => r.next_sibling) with
           | some sib => some (true, sib)
           | none => ((getA a n).bind (fun r => r.parent)).map
               (fun p => (false, p)),
       nested := m })

/-- Run the walker for `fuel` iterator steps, collecting emitted events.
Once the pending event is `none` the iterator is exhausted and further steps
emit nothing. -/
def walkSteps (a : Arena T) : Nat → WState → List (Nat × Bool × Nat) × WState
  | 0, s => ([], s)
  | fuel + 1, s =>
    let p := walkerStep a s
    let q := walkSteps a fuel p.2
    (p.1.toList ++ q.1, q.2)

/-- The text `Display` prints: for every Enter event, the node's leaf text if
it is a leaf (source: `impl Display for Node`). -/
def dispText (a : Arena T) : List (Nat × Bool × Nat) → String
  | [] => ""
  | (_, true, n) :: l =>
    (match (getA a n).bind (fun r => leafTextOf r.content) with
     | some s => s
     | none => "") ++ dispText a l
  | (_, false, _) :: l => dispText a l

/-- The depth/enter-or-leave/kind projection of a walk: the node-kind
sequence of a depth-first walk. -/
def walkKinds (a : Arena T) (l : List (Nat × Bool × Nat)) :
    List (Nat × Bool × Option T) :=
  l.map (fun x => (x.1, x.2.1, (getA a x.2.2).map (fun r => r.kind)))

mutual

/-- The Euler tour of an annotated tree entered at depth `k`: the exact
event sequence the walker emits. -/
def eulerI : ITree T → Nat → List (Nat × Bool × Nat)
  | .ileaf n _ _, k => [(k, true, n), (k, false, n)]
  | .ibranch n _ cs, k => (k, true, n) :: (eulerIF cs (k + 1) ++ [(k, false, n)])

/-- The Euler tour of an annotated forest. -/
def eulerIF : IForest T → Nat → List (Nat × Bool × Nat)
  | .inil, _ => []
  | .icons t f, k => eulerI t k ++ eulerIF f k

end

mutual

/-- Preorder list of arena indices of an annotated tree. -/
def preIdsT : ITree T → List Nat
  | .ileaf n _ _ => [n]
  | .ibranch n _ cs => n :: preIdsF cs

/-- Preorder list of arena indices of an annotated forest. -/
def preIdsF : IForest T → List Nat
  | .inil => []
  | .icons t f => preIdsT t ++ preIdsF f

end

/-- Source: `Node::remove`.  Takes the node's slot, sweeps the one-level
sibling chain of its direct children tombstoning each, then relinks the
previous sibling (or the parent's first-child pointer) to the next
sibling. -/
def freeChain : Nat → Arena T → Option Nat → Arena T
  | 0, a, _ => a
  | _ + 1, a, none => a
  | fuel + 1, a, some c =>
    match getA a c with
    | none => a
    | some r => freeChain fuel (asetNone a c) r.next_sibling

/-- Source: `Node::remove` (entry point). -/
def removeN (a : Arena T) (n : Nat) : Arena T :=
  match getA a n with
  | none => a
  | some repr =>
    let a1 := asetNone a n
    let a2 := freeChain a1.length a1 (fcOf repr.content)
    match repr.prev_sibling with
    | some ps =>
      amod a2 ps (fun r => { r with next_sibling := repr.next_sibling })
    | none =>
      match repr.parent with
      | some par =>
        amod a2 par (fun r => { r with content := setFC r.content repr.next_sibling })
      | none => a2

/-- New-node content for the insertion operations: `text` present means a
leaf, absent means an empty branch. -/
def insContent : Option String → Content
  | none => .branch none
  | some s => .leaf s

/-- Source: `Node::insert_before`.  Returns the updated arena and the new
node's index. -/
def insert_before (a : Arena T) (x : Nat) (kind : T) (text : Option String) :
    Arena T × Nat :=
  match getA a x with
  | none => (a, a.length)
  | some repr =>
    let node : NodeRepr T :=
      { kind := kind, parent := repr.parent,
        prev_sibling := repr.prev_sibling, next_sibling := some x,
        content := insContent text }
    let id := a.length
    let a1 := a ++ [some node]
    let a2 := match repr.prev_sibling with
      | some ps => amod a1 ps (fun r => { r with next_sibling := some id })
      | none => a1
    let a3 := match repr.parent with
      | some par =>
        amod a2 par (fun r =>
          if r.content = .branch (some x) then
            { r with content := .branch (some id) }
          else r)
      | none => a2
    let a4 := amod a3 x (fun r => { r with prev_sibling := some id })
    (a4, id)

/-- Source: `Node::insert_after`. -/
def insert_after (a : Arena T) (x : Nat) (kind : T) (text : Option String) :
    Arena T × Nat :=
  match getA a x with
  | none => (a, a.length)
  | some repr =>
    let node : NodeRepr T :=
      { kind := kind, parent := repr.parent,
        prev_sibling := some x, next_sibling := repr.next_sibling,
        content := insContent text }
    let id := a.length
    let a1 := a ++ [some node]
    let a2 := match repr.next_sibling with
      | some ns => amod a1 ns (fun r => { r with prev_sibling := some id })
      | none => a1
    let a3 := amod a2 x (fun r => { r with next_sibling := some id })
    (a3, id)

/-- Source: `Node::try_range`.  Returns `none` when the range table is empty
(mutable trees); otherwise the node's `(start, end)` pair.  The source
unwraps the stored end (aborting on an unresolved range); that abort path is
modelled by `none` and proved unreachable on trees built by the balanced
protocol. -/
def tryRange (rd : RootData T) (n : Nat) : Option (Nat × Nat) :=
  if rd.ranges.isEmpty then none
  else match rd.ranges.get? n with
    | some (s, some e) => some (s, e)
    | _ => none

/-- Source: `Node::range` — `try_range().expect(...)`: the non-try form is a
fatal contract violation on a mutable tree. -/
def rangeE (rd : RootData T) (n : Nat) : Except String (Nat × Nat) :=
  match tryRange rd n with
  | some r => .ok r
  | none => .error "node is mutable and doesn't have a range"

/-- A node handle: a root capability paired with an arena index (source:
`struct Node<T, R>`). -/
structure NodeH (T : Type) (R : Type) where
  root : R
  node : Nat

/-- Source: `impl PartialEq for Node` — equality looks only at the arena
index. -/
def nodeEq {R : Type} (a b : NodeH T R) : Bool :=
  a.node == b.node

/-- Source: `impl Hash for Node` — only `self.node` is fed to the hasher, so
the hash is a function of the arena index alone. -/
def nodeHash {R : Type} (h : Nat → Nat) (a : NodeH T R) : Nat :=
  h a.node

/-- The event sequence of examples/basic.rs: kind 0 = Group, 1 = Number,
2 = Operation. -/
def exEvents : List (Ev Nat) :=
  [.start 0, .start 0, .leaf 1 "1", .leaf 2 "+", .start 0, .leaf 1 "2",
   .leaf 2 "*", .leaf 1 "3", .close, .close, .leaf 2 "-", .leaf 1 "4", .close]

/-- The abstract tree of examples/basic.rs:
Group[Group[Number 1, Operation +, Group[Number 2, Operation *, Number 3]],
Operation -, Number 4]. -/
def exTree : BTree Nat :=
  .branch 0 (.cons (.branch 0 (.cons (.leaf 1 "1") (.cons (.leaf 2 "+")
    (.cons (.branch 0 (.cons (.leaf 1 "2") (.cons (.leaf 2 "*")
      (.cons (.leaf 1 "3") .nil)))) .nil)))) (.cons (.leaf 2 "-")
    (.cons (.leaf 1 "4") .nil)))

/-- The root node record of the built basic.rs tree (kind Group, first
child 1), used as a concrete witness input. -/
def exRootRepr : NodeRepr Nat :=
  { kind := 0, parent := none, prev_sibling := none, next_sibling := none,
    content := Content.branch (some 1) }

/-- A three-level nesting used to exhibit the removal bug:
Group[Group[Group[Number "x"]]]; node 1 is the middle branch, node 2 its
child, node 3 the grandchild of node 1. -/
def remTree : BTree Nat :=
  .branch 0 (.cons (.branch 0 (.cons (.branch 0
    (.cons (.leaf 1 "x") .nil)) .nil)) .nil)

/-- The arena of `remTree` after a balanced build (what `finish_mut`
returns). -/
def remArena : Arena Nat := (Builder.init.run (evTree remTree)).arena

/-- A branch with two leaf children, used to exhibit the dangling
`prev_sibling` left by removal: node 1 = leaf "a", node 2 = leaf "b". -/
def sibTree : BTree Nat :=
  .branch 0 (.cons (.leaf 1 "a") (.cons (.leaf 1 "b") .nil))

/-- The arena of `sibTree` after a balanced build. -/
def sibArena : Arena Nat := (Builder.init.run (evTree sibTree)).arena

mutual

/-- Fuel sufficient for `readT` to decode a tree laid out by `treeNodes`. -/
def fuelT : BTree T → Nat
  | .leaf _ _ => 1
  | .branch _ cs => 2 + fuelF cs

/-- Fuel sufficient for `readF` over a forest region. -/
def fuelF : Forest T → Nat
  | .nil => 1
  | .cons t f => 1 + max (fuelT t) (fuelF f)

end

/-- Check that the sibling chain starting at arena index `c` carries ranges
that tile `[s, e)` exactly: the first child starts at `s`, each child's end
is the next child's start, and the last child ends at `e`. -/
def covChain : Nat → Arena T → List (Nat × Option Nat) → Nat → Nat → Nat → Bool
  | 0, _, _, _, _, _ => false
  | fuel + 1, a, rg, s, c, e =>
    match rg.get? c, getA a c with
    | some (cs, some ce), some r =>
      cs == s &&
        (match r.next_sibling with
         | none => ce == e
         | some c2 => covChain fuel a rg ce c2 e)
    | _, _ => false

/-- A well-linked sibling chain under parent `p`: starting at the optional
index in the third argument, following `next_sibling` enumerates exactly the
listed indices, each node's `parent` is `p` and each node's `prev_sibling`
names its predecessor (the second argument for the head). -/
inductive SChain (a : Arena T) (p : Nat) :
    Option Nat → Option Nat → List Nat → Prop where
  | nil (prv : Option Nat) : SChain a p prv none []
  | cons (prv : Option Nat) (c : Nat) (r : NodeRepr T) (l : List Nat)
      (hget : getA a c = some r) (hpar : r.parent = some p)
      (hprv : r.prev_sibling = prv)
      (htail : SChain a p (some c) r.next_sibling l) :
      SChain a p prv (some c) (c :: l)

/-- The root indices of a forest laid out starting at `base` (the indices of
one level of a sibling chain). -/
def rootIds : Forest T → Nat → List Nat
  | .nil, _ => []
  | .cons t f, base => base :: rootIds f (base + sizeT t)

/-- Append of abstract forests (sibling sequences). -/
def apF : Forest T → Forest T → Forest T
  | .nil, g => g
  | .cons t f, g => .cons t (apF f g)

mutual

/-- The `(depth, is_enter, kind)` sequence of a depth-first walk of an
abstract tree entered at depth `d`: what `walkKinds` projects out of the
walker's event stream. -/
def kindEulerT : BTree T → Nat → List (Nat × Bool × Option T)
  | .leaf k _, d => [(d, true, some k), (d, false, some k)]
  | .branch k cs, d =>
    (d, true, some k) :: (kindEulerF cs (d + 1) ++ [(d, false, some k)])

/-- The kind sequence of a depth-first walk of an abstract forest. -/
def kindEulerF : Forest T → Nat → List (Nat × Bool × Option T)
  | .nil, _ => []
  | .cons t f, d => kindEulerT t d ++ kindEulerF f d

end

/-- A root-branch record: no parent, no siblings, branch content with the
given first child. -/
def rootRec (K0 : T) (fc : Option Nat) : NodeRepr T :=
  { kind := K0, parent := none, prev_sibling := none, next_sibling := none,
    content := .branch fc }

/-- A wrapper-branch record as `start_internal_at` creates it under the
root: parent is the root (index 0), previous sibling as given, no next
sibling, branch content with the given first child. -/
def wrapRec (K : T) (prv fc : Option Nat) : NodeRepr T :=
  { kind := K, parent := some 0, prev_sibling := prv, next_sibling := none,
    content := .branch fc }

/-- The checkpoint variant of a build (examples/checkpoint.rs shape): open a
root branch, build the `prior` siblings, take a checkpoint, build the
`suffix` siblings, retroactively wrap everything since the checkpoint in a
branch of kind `K` via `start_internal_at`, close the wrapper, close the
root. -/
def pipeB (K0 K : T) (prior suffix : Forest T) : Builder T :=
  let b1 := Builder.init.run (Ev.start K0 :: evForest prior)
  let b2 := b1.run (evForest suffix)
  ((b2.start_internal_at b1.checkpoint K).finish_internal).finish_internal

/-- Bound predicate for optional indices: any held index is below `n`. -/
def oLt (o : Option Nat) (n : Nat) : Prop :=
  ∀ x, o = some x → x < n

section ArenaLemmas

theorem oLt_mono {o : Option Nat} {m n : Nat} (h : oLt o m) (hmn : m ≤ n) :
    oLt o n := fun x hx => lt_of_lt_of_le (h x hx) hmn

theorem oLt_none {n : Nat} : oLt none n := by
  intro x hx; cases hx

theorem amod_length (a : Arena T) (n : Nat) (f : NodeRepr T → NodeRepr T) :
    (amod a n f).length = a.length := by
  induction a generalizing n with
  | nil => simp [amod]
  | cons x xs ih => cases n <;> simp [amod, ih]

theorem asetNone_length (a : Arena T) (n : Nat) :
    (asetNone a n).length = a.length := by
  induction a generalizing n with
  | nil => simp [asetNone]
  | cons x xs ih => cases n <;> simp [asetNone, ih]

theorem rset_length (r : List (Nat × Option Nat)) (n e : Nat) :
    (rset r n e).length = r.length := by
  induction r generalizing n with
  | nil => simp [rset]
  | cons x xs ih => cases n <;> simp [rset, ih]

theorem getA_nil (n : Nat) : getA ([] : Arena T) n = none := by
  simp [getA]

theorem getA_append_left {a : Arena T} (b : Arena T) {n : Nat}
    (h : n < a.length) : getA (a ++ b) n = getA a n := by
  induction a generalizing n with
  | nil => simp at h
  | cons x xs ih =>
    cases n with
    | zero => simp [getA]
    | succ m => simpa [getA] using ih (by simpa using h)

theorem getA_append_right {a : Arena T} (b : Arena T) {n : Nat}
    (h : a.length ≤ n) : getA (a ++ b) n = getA b (n - a.length) := by
  induction a generalizing n with
  | nil => simp [getA]
  | cons x xs ih =>
    cases n with
    | zero => simp at h
    | succ m => simpa [getA] using ih (by simpa using h)

theorem getA_append_base (a b : Arena T) {n : Nat} (h : n = a.length) :
    getA (a ++ b) n = getA b 0 := by
  subst h
  rw [getA_append_right b (Nat.le_refl _), Nat.sub_self]

theorem getA_amod_self (a : Arena T) (n : Nat) (f : NodeRepr T → NodeRepr T) :
    getA (amod a n f) n = (getA a n).map f := by
  induction a generalizing n with
  | nil => simp [amod, getA]
  | cons x xs ih =>
    cases n with
    | zero => cases x <;> simp [amod, getA, List.get?]
    | succ m => simpa [amod, getA, List.get?] using ih m

theorem getA_amod_ne (a : Arena T) {m n : Nat} (f : NodeRepr T → NodeRepr T)
    (h : m ≠ n) : getA (amod a n f) m = getA a m := by
  induction a generalizing m n with
  | nil => simp [amod]
  | cons x xs ih =>
    cases n with
    | zero =>
      cases m with
      | zero => exact absurd rfl h
      | succ k => simp [amod, getA, List.get?]
    | succ j =>
      cases m with
      | zero => simp [amod, getA, List.get?]
      | succ k =>
        simpa [amod, getA, List.get?] using ih (fun hk => h (by simp [hk]))

theorem getA_asetNone_self (a : Arena T) (n : Nat) (h : n < a.length) :
    getA (asetNone a n) n = none := by
  induction a generalizing n with
  | nil => simp at h
  | cons x xs ih =>
    cases n with
    | zero => simp [asetNone, getA, List.get?]
    | succ m => simpa [asetNone, getA, List.get?] using ih m (by simpa using h)

theorem getA_asetNone_ne (a : Arena T) {m n : Nat} (h : m ≠ n) :
    getA (asetNone a n) m = getA a m := by
  induction a generalizing m n with
  | nil => simp [asetNone]
  | cons x xs ih =>
    cases n with
    | zero =>
      cases m with
      | zero => exact absurd rfl h
      | succ k => simp [asetNone, getA, List.get?]
    | succ j =>
      cases m with
      | zero => simp [asetNone, getA, List.get?]
      | succ k =>
        simpa [asetNone, getA, List.get?] using ih (fun hk => h (by simp [hk]))

theorem amod_append_left {a : Arena T} (b : Arena T) {n : Nat}
    (f : NodeRepr T → NodeRepr T) (h : n < a.length) :
    amod (a ++ b) n f = amod a n f ++ b := by
  induction a generalizing n with
  | nil => simp at h
  | cons x xs ih =>
    cases n with
    | zero => simp [amod]
    | succ m => simp [amod, ih (by simpa using h)]

theorem amod_append_right (a : Arena T) {b : Arena T} {n : Nat}
    (f : NodeRepr T → NodeRepr T) (h : a.length ≤ n) :
    amod (a ++ b) n f = a ++ amod b (n - a.length) f := by
  induction a generalizing n with
  | nil => simp [amod]
  | cons x xs ih =>
    cases n with
    | zero => simp at h
    | succ m => simp [amod, ih (by simpa using h)]

theorem amod_oob {a : Arena T} {n : Nat} (f : NodeRepr T → NodeRepr T)
    (h : a.length ≤ n) : amod a n f = a := by
  induction a generalizing n with
  | nil => simp [amod]
  | cons x xs ih =>
    cases n with
    | zero => simp at h
    | succ m => simp [amod, ih (by simpa using h)]

theorem amod_amod (a : Arena T) (n : Nat) (f g : NodeRepr T → NodeRepr T) :
    amod (amod a n f) n g = amod a n (fun r => g (f r)) := by
  induction a generalizing n with
  | nil => simp [amod]
  | cons x xs ih =>
    cases n with
    | zero => cases x <;> simp [amod]
    | succ m => simp [amod, ih]

theorem amod_comm (a : Arena T) (m n : Nat) (f g : NodeRepr T → NodeRepr T)
    (h : m ≠ n) : amod (amod a m f) n g = amod (amod a n g) m f := by
  induction a generalizing m n with
  | nil => simp [amod]
  | cons x xs ih =>
    cases m with
    | zero =>
      cases n with
      | zero => exact absurd rfl h
      | succ k => simp [amod]
    | succ j =>
      cases n with
      | zero => simp [amod]
      | succ k => simp [amod, ih j k (fun hk => h (by simp [hk]))]

theorem rget_append_left {r : List (Nat × Option Nat)}
    (s : List (Nat × Option Nat)) {n : Nat} (h : n < r.length) :
    (r ++ s).get? n = r.get? n :=
  List.get?_append h

theorem rget_append_right {r : List (Nat × Option Nat)}
    (s : List (Nat × Option Nat)) {n : Nat} (h : r.length ≤ n) :
    (r ++ s).get? n = s.get? (n - r.length) :=
  List.get?_append_right h

theorem rset_append_left {r : List (Nat × Option Nat)}
    (s : List (Nat × Option Nat)) {n : Nat} (e : Nat) (h : n < r.length) :
    rset (r ++ s) n e = rset r n e ++ s := by
  induction r generalizing n with
  | nil => simp at h
  | cons x xs ih =>
    cases n with
    | zero => simp [rset]
    | succ m => simp [rset, ih (by simpa using h)]

theorem rset_append_right (r : List (Nat × Option Nat))
    {s : List (Nat × Option Nat)} {n : Nat} (e : Nat) (h : r.length ≤ n) :
    rset (r ++ s) n e = r ++ rset s (n - r.length) e := by
  induction r generalizing n with
  | nil => simp [rset]
  | cons x xs ih =>
    cases n with
    | zero => simp at h
    | succ m => simp [rset, ih (by simpa using h)]

theorem rget_rset_self (r : List (Nat × Option Nat)) (n e : Nat)
    (h : n < r.length) :
    (rset r n e).get? n = (r.get? n).map (fun x => (x.1, some e)) := by
  induction r generalizing n with
  | nil => simp at h
  | cons x xs ih =>
    cases n with
    | zero => simp [rset, List.get?]
    | succ m => simpa [rset, List.get?] using ih m (by simpa using h)

theorem rget_rset_ne (r : List (Nat × Option Nat)) {m n : Nat} (e : Nat)
    (h : m ≠ n) : (rset r n e).get? m = r.get? m := by
  induction r generalizing m n with
  | nil => simp [rset]
  | cons x xs ih =>
    cases n with
    | zero =>
      cases m with
      | zero => exact absurd rfl h
      | succ k => simp [rset, List.get?]
    | succ j =>
      cases m with
      | zero => simp [rset, List.get?]
      | succ k => simpa [rset, List.get?] using ih (fun hk => h (by simp [hk]))

theorem run_append (b : Builder T) (l₁ l₂ : List (Ev T)) :
    b.run (l₁ ++ l₂) = (b.run l₁).run l₂ :=
  List.foldl_append _ _ _ _

theorem run_cons (b : Builder T) (e : Ev T) (l : List (Ev T)) :
    b.run (e :: l) = (b.stepEv e).run l := rfl

theorem run_nil (b : Builder T) : b.run [] = b := rfl

end ArenaLemmas

section LayoutLemmas

mutual

theorem sizeT_pos (t : BTree T) : 1 ≤ sizeT t := by
  cases t with
  | leaf k s => simp [sizeT]
  | branch k cs => simp [sizeT]

end

mutual

theorem treeNodes_length (t : BTree T) (p v nx : Option Nat) (base : Nat) :
    (treeNodes t p v nx base).length = sizeT t := by
  cases t with
  | leaf k s => simp [treeNodes, sizeT]
  | branch k cs =>
    simp [treeNodes, sizeT, forestNodes_length cs base none none (base + 1)]
    omega

theorem forestNodes_length (f : Forest T) (pid : Nat) (prv nxt : Option Nat)
    (base : Nat) : (forestNodes f pid prv nxt base).length = sizeF f := by
  cases f with
  | nil => simp [forestNodes, sizeF]
  | cons t g =>
    simp [forestNodes, sizeF, treeNodes_length,
      forestNodes_length g pid (some base) nxt (base + sizeT t)]

end

mutual

theorem treeRanges_length (t : BTree T) (c : Nat) :
    (treeRanges t c).length = sizeT t := by
  cases t with
  | leaf k s => simp [treeRanges, sizeT]
  | branch k cs =>
    simp [treeRanges, sizeT, forestRanges_length cs c]
    omega

theorem forestRanges_length (f : Forest T) (c : Nat) :
    (forestRanges f c).length = sizeF f := by
  cases f with
  | nil => simp [forestRanges, sizeF]
  | cons t g =>
    simp [forestRanges, sizeF, treeRanges_length, forestRanges_length g (c + tlenT t)]

end

theorem treeRanges_head (t : BTree T) (c : Nat) :
    ∃ tail, treeRanges t c = (c, some (c + tlenT t)) :: tail := by
  cases t with
  | leaf k s => exact ⟨[], by simp [treeRanges, tlenT]⟩
  | branch k cs => exact ⟨forestRanges cs c, by simp [treeRanges, tlenT]⟩

theorem treeNodes_set_next (t : BTree T) (p v nx : Option Nat) (base j : Nat) :
    amod (treeNodes t p v nx base) 0
        (fun r => { r with next_sibling := some j })
      = treeNodes t p v (some j) base := by
  cases t <;> simp [treeNodes, amod]

theorem treeNodes_set_parent (t : BTree T) (p v nx : Option Nat) (base w : Nat) :
    amod (treeNodes t p v nx base) 0
        (fun r => { r with parent := some w })
      = treeNodes t (some w) v nx base := by
  cases t <;> simp [treeNodes, amod]

theorem treeNodes_get_root (t : BTree T) (p v nx : Option Nat) (base : Nat) :
    ∃ r : NodeRepr T, getA (treeNodes t p v nx base) 0 = some r ∧
      r.parent = p ∧ r.prev_sibling = v ∧ r.next_sibling = nx := by
  cases t with
  | leaf k s =>
    exact ⟨{ kind := k, parent := p, prev_sibling := v, next_sibling := nx,
             content := .leaf s }, by simp [treeNodes, getA], rfl, rfl, rfl⟩
  | branch k cs =>
    exact ⟨{ kind := k, parent := p, prev_sibling := v, next_sibling := nx,
             content := .branch (headIdx cs (base + 1)) },
           by simp [treeNodes, getA], rfl, rfl, rfl⟩

theorem branchOr_absorb (c : Content) (i j : Nat) :
    branchOr (branchOr c i) j = branchOr c i := by
  cases c with
  | branch fc => cases fc <;> simp [branchOr, Option.or]
  | leaf s => simp [branchOr]

theorem patchOld_length (a : Arena T) (p c : Option Nat) (id : Nat) :
    (patchOld a p c id).length = a.length := by
  cases p <;> cases c <;> simp [patchOld, amod_length]

theorem patchOld_append {a : Arena T} (L : Arena T) {p c : Option Nat}
    (id : Nat) (hp : oLt p a.length) (hc : oLt c a.length) :
    patchOld (a ++ L) p c id = patchOld a p c id ++ L := by
  cases p with
  | none =>
    cases c with
    | none => simp [patchOld]
    | some c => simp [patchOld, amod_append_left L _ (hc c rfl)]
  | some p =>
    cases c with
    | none => simp [patchOld, amod_append_left L _ (hp p rfl)]
    | some c =>
      show amod (amod (a ++ L) p _) c _ = amod (amod a p _) c _ ++ L
      rw [amod_append_left L _ (hp p rfl)]
      rw [amod_append_left L _ (by rw [amod_length]; exact hc c rfl)]

theorem patchOld_or_absorb (a : Arena T) (p : Nat) (c : Option Nat) (i j : Nat) :
    amod (patchOld a (some p) c i) p
        (fun r => { r with content := branchOr r.content j })
      = patchOld a (some p) c i := by
  cases c with
  | none =>
    show amod (amod a p _) p _ = amod a p _
    rw [amod_amod]
    congr 1
    funext r
    simp [branchOr_absorb]
  | some c =>
    show amod (amod (amod a p _) c _) p _ = amod (amod a p _) c _
    by_cases hpc : c = p
    · subst hpc
      rw [amod_amod, amod_amod, amod_amod]
      congr 1
      funext r
      simp [branchOr_absorb]
    · rw [amod_comm _ c p _ _ hpc, amod_amod]
      congr 2
      funext r
      simp [branchOr_absorb]

theorem patchOld_patchOld (a : Arena T) (p c : Option Nat) (i j : Nat)
    (L : Arena T) (hp : oLt p a.length) :
    patchOld (patchOld a p c i ++ L) p (some a.length) j
      = patchOld a p c i
        ++ amod L 0 (fun r => { r with next_sibling := some j }) := by
  have hlen : (patchOld a p c i).length = a.length := patchOld_length a p c i
  cases p with
  | none =>
    show amod (patchOld a none c i ++ L) a.length _
        = patchOld a none c i ++ amod L 0 _
    rw [amod_append_right _ _ (le_of_eq hlen), hlen, Nat.sub_self]
  | some p =>
    show amod (amod (patchOld a (some p) c i ++ L) p _) a.length _
        = patchOld a (some p) c i ++ amod L 0 _
    rw [amod_append_left L _ (by rw [hlen]; exact hp p rfl)]
    rw [patchOld_or_absorb]
    rw [amod_append_right _ _ (le_of_eq hlen), hlen, Nat.sub_self]

end LayoutLemmas

section BuilderLemmas

theorem start_internal_eq (b : Builder T) (k : T)
    (hp : oLt b.parent b.arena.length) (hc : oLt b.child b.arena.length) :
    b.start_internal k =
      { arena := patchOld b.arena b.parent b.child b.arena.length
          ++ [some { kind := k, parent := b.parent, prev_sibling := b.child,
                     next_sibling := none, content := .branch none }],
        parent := some b.arena.length,
        child := none,
        ranges := b.ranges ++ [(b.cursor, none)],
        cursor := b.cursor } := by
  cases b with
  | mk arena parent child ranges cursor =>
    simp only [Builder.start_internal, Builder.insertAU]
    cases parent with
    | none =>
      cases child with
      | none => simp [patchOld]
      | some c =>
        simp only [patchOld]
        rw [amod_append_left _ _ (hc c rfl)]
    | some p =>
      cases child with
      | none =>
        simp only [patchOld]
        rw [amod_append_left _ _ (hp p rfl)]
      | some c =>
        simp only [patchOld]
        rw [amod_append_left _ _ (hp p rfl),
          amod_append_left _ _ (by rw [amod_length]; exact hc c rfl)]

theorem leaf_eq (b : Builder T) (k : T) (s : String)
    (hp : oLt b.parent b.arena.length) (hc : oLt b.child b.arena.length) :
    b.leaf k s =
      { arena := patchOld b.arena b.parent b.child b.arena.length
          ++ [some { kind := k, parent := b.parent, prev_sibling := b.child,
                     next_sibling := none, content := .leaf s }],
        parent := b.parent,
        child := some b.arena.length,
        ranges := b.ranges ++ [(b.cursor, some (b.cursor + s.length))],
        cursor := b.cursor + s.length } := by
  cases b with
  | mk arena parent child ranges cursor =>
    simp only [Builder.leaf, Builder.insertAU]
    cases parent with
    | none =>
      cases child with
      | none => simp [patchOld]
      | some c =>
        simp only [patchOld]
        rw [amod_append_left _ _ (hc c rfl)]
    | some p =>
      cases child with
      | none =>
        simp only [patchOld]
        rw [amod_append_left _ _ (hp p rfl)]
      | some c =>
        simp only [patchOld]
        rw [amod_append_left _ _ (hp p rfl),
          amod_append_left _ _ (by rw [amod_length]; exact hc c rfl)]

theorem forest_last_range (f : Forest T) (t0 : BTree T) (x : Option Nat)
    (c base : Nat) (R S : List (Nat × Option Nat)) (hR : R.length = base) :
    ∃ lr s, lastRootO (.cons t0 f) x base = some lr ∧
      (R ++ forestRanges (.cons t0 f) c ++ S).get? lr
        = some (s, some (c + tlenF (.cons t0 f))) := by
  cases f with
  | nil =>
    refine ⟨base, c, by simp [lastRootO], ?_⟩
    obtain ⟨tail, htail⟩ := treeRanges_head t0 c
    rw [List.append_assoc]
    rw [rget_append_right _ (le_of_eq hR)]
    rw [hR, Nat.sub_self]
    simp [forestRanges, htail, tlenF]
  | cons u g =>
    obtain ⟨lr, s, hlast, hget⟩ :=
      forest_last_range g u (some base) (c + tlenT t0) (base + sizeT t0)
        (R ++ treeRanges t0 c) S (by simp [hR, treeRanges_length])
    refine ⟨lr, s, ?_, ?_⟩
    · simpa [lastRootO] using hlast
    · have hassoc :
          R ++ treeRanges t0 c ++ forestRanges (.cons u g) (c + tlenT t0) ++ S
            = R ++ forestRanges (.cons t0 (.cons u g)) c ++ S := by
        simp [forestRanges, List.append_assoc]
      rw [← hassoc]
      rw [hget]
      have heq : c + tlenT t0 + tlenF (.cons u g)
          = c + tlenF (.cons t0 (.cons u g)) := by
        simp [tlenF]
        omega
      rw [heq]

end BuilderLemmas

theorem run_close (b : Builder T) : b.run [Ev.close] = b.finish_internal := rfl

mutual

theorem buildT (t : BTree T) (b : Builder T)
    (hp : oLt b.parent b.arena.length) (hc : oLt b.child b.arena.length)
    (hr : b.ranges.length = b.arena.length) :
    b.run (evTree t) =
      { arena := patchOld b.arena b.parent b.child b.arena.length
          ++ treeNodes t b.parent b.child none b.arena.length,
        parent := b.parent,
        child := some b.arena.length,
        ranges := b.ranges ++ treeRanges t b.cursor,
        cursor := b.cursor + tlenT t } := by
  cases t with
  | leaf k s =>
    have h1 : b.run (evTree (.leaf k s)) = b.leaf k s := rfl
    rw [h1, leaf_eq b k s hp hc]
    simp [treeNodes, treeRanges, tlenT]
  | branch k cs =>
    have h1 : b.run (evTree (.branch k cs))
        = ((b.start_internal k).run (evForest cs)).run [Ev.close] := by
      show b.run (Ev.start k :: (evForest cs ++ [Ev.close])) = _
      rw [run_cons, run_append]
      rfl
    rw [h1, start_internal_eq b k hp hc]
    have hp1 : b.arena.length <
        (patchOld b.arena b.parent b.child b.arena.length
          ++ [some ({ kind := k, parent := b.parent, prev_sibling := b.child,
                      next_sibling := none,
                      content := Content.branch none } : NodeRepr T)]).length := by
      simp [patchOld_length]
    have hr1 : (b.ranges ++ [(b.cursor, none)]).length =
        (patchOld b.arena b.parent b.child b.arena.length
          ++ [some ({ kind := k, parent := b.parent, prev_sibling := b.child,
                      next_sibling := none,
                      content := Content.branch none } : NodeRepr T)]).length := by
      simp [patchOld_length, hr]
    have h2 := buildF cs
      { arena := patchOld b.arena b.parent b.child b.arena.length
          ++ [some { kind := k, parent := b.parent, prev_sibling := b.child,
                     next_sibling := none, content := Content.branch none }],
        parent := some b.arena.length,
        child := none,
        ranges := b.ranges ++ [(b.cursor, none)],
        cursor := b.cursor }
      b.arena.length rfl hp1 oLt_none hr1
    simp only [List.length_append, patchOld_length, List.length_cons,
      List.length_nil, Nat.zero_add] at h2
    rw [h2, run_close]
    cases cs with
    | nil =>
      simp only [forestNodes, forestRanges, lastRootO, List.append_nil]
      have hget : (b.ranges ++ [(b.cursor, (none : Option Nat))]).get?
          b.arena.length = some (b.cursor, none) := by
        rw [rget_append_right _ (le_of_eq hr), hr, Nat.sub_self]
        rfl
      have hgetA : getA
          (patchOld b.arena b.parent b.child b.arena.length
            ++ [some ({ kind := k, parent := b.parent, prev_sibling := b.child,
                        next_sibling := none,
                        content := Content.branch none } : NodeRepr T)])
          b.arena.length
          = some { kind := k, parent := b.parent, prev_sibling := b.child,
                   next_sibling := none, content := Content.branch none } := by
        rw [getA_append_base _ _ (patchOld_length b.arena _ _ _).symm]
        rfl
      have hrset : rset (b.ranges ++ [(b.cursor, (none : Option Nat))])
          b.arena.length b.cursor
          = b.ranges ++ [(b.cursor, some b.cursor)] := by
        rw [rset_append_right _ _ (le_of_eq hr), hr, Nat.sub_self]
        rfl
      simp only [List.get?_eq_getElem?] at hget
      simp [Builder.finish_internal, Builder.closeEnd, hget, hgetA, hrset,
        treeNodes, treeRanges, tlenT, tlenF, headIdx, forestNodes, forestRanges]
    | cons u g =>
      obtain ⟨lr, s, hlast, hget⟩ := forest_last_range g u none b.cursor
        (b.arena.length + 1) (b.ranges ++ [(b.cursor, none)]) []
        (by simp [hr])
      simp only [List.append_nil] at hget
      have harena : patchOld
          (patchOld b.arena b.parent b.child b.arena.length
            ++ [some ({ kind := k, parent := b.parent, prev_sibling := b.child,
                        next_sibling := none,
                        content := Content.branch none } : NodeRepr T)])
          (some b.arena.length) none (b.arena.length + 1)
          = patchOld b.arena b.parent b.child b.arena.length
            ++ [some { kind := k, parent := b.parent, prev_sibling := b.child,
                       next_sibling := none,
                       content := Content.branch (some (b.arena.length + 1)) }] := by
        show amod _ b.arena.length _ = _
        rw [amod_append_right _ _ (le_of_eq (patchOld_length b.arena _ _ _)),
          patchOld_length, Nat.sub_self]
        simp [amod, branchOr, Option.or]
      have hgetA : getA
          ((patchOld b.arena b.parent b.child b.arena.length
            ++ [some ({ kind := k, parent := b.parent, prev_sibling := b.child,
                        next_sibling := none,
                        content := Content.branch (some (b.arena.length + 1)) } :
                        NodeRepr T)])
            ++ forestNodes (.cons u g) b.arena.length none none (b.arena.length + 1))
          b.arena.length
          = some { kind := k, parent := b.parent, prev_sibling := b.child,
                   next_sibling := none,
                   content := Content.branch (some (b.arena.length + 1)) } := by
        rw [List.append_assoc]
        rw [getA_append_base _ _ (patchOld_length b.arena _ _ _).symm]
        rfl
      have hrset : rset ((b.ranges ++ [(b.cursor, (none : Option Nat))])
            ++ forestRanges (.cons u g) b.cursor)
          b.arena.length (b.cursor + tlenF (.cons u g))
          = b.ranges ++ ((b.cursor, some (b.cursor + tlenF (.cons u g)))
              :: forestRanges (.cons u g) b.cursor) := by
        rw [List.append_assoc]
        rw [rset_append_right _ _ (le_of_eq hr), hr, Nat.sub_self]
        rfl
      simp only [harena]
      simp only [List.get?_eq_getElem?, List.append_assoc, List.singleton_append,
        List.cons_append, List.nil_append] at hget hgetA hrset
      simp [Builder.finish_internal, Builder.closeEnd, hlast, hget, hgetA, hrset,
        treeNodes, treeRanges, tlenT, headIdx, List.append_assoc]

theorem buildF (f : Forest T) (b : Builder T) (pid : Nat)
    (hpp : b.parent = some pid)
    (hp : pid < b.arena.length) (hc : oLt b.child b.arena.length)
    (hr : b.ranges.length = b.arena.length) :
    b.run (evForest f) =
      { arena := (match f with
          | .nil => b.arena
          | .cons _ _ => patchOld b.arena b.parent b.child b.arena.length)
          ++ forestNodes f pid b.child none b.arena.length,
        parent := b.parent,
        child := lastRootO f b.child b.arena.length,
        ranges := b.ranges ++ forestRanges f b.cursor,
        cursor := b.cursor + tlenF f } := by
  cases f with
  | nil =>
    have h1 : b.run (evForest .nil) = b := rfl
    rw [h1]
    cases b
    simp [forestNodes, forestRanges, tlenF, lastRootO]
  | cons t g =>
    have hpO : oLt b.parent b.arena.length := by
      intro x hx
      rw [hpp] at hx
      cases hx
      exact hp
    have h1 : b.run (evForest (.cons t g)) = (b.run (evTree t)).run (evForest g) := by
      show b.run (evTree t ++ evForest g) = _
      rw [run_append]
    rw [h1, buildT t b hpO hc hr]
    have hp1 : pid < (patchOld b.arena b.parent b.child b.arena.length
        ++ treeNodes t b.parent b.child none b.arena.length).length := by
      simp only [List.length_append, patchOld_length, treeNodes_length]
      omega
    have hc1 : oLt (some b.arena.length)
        (patchOld b.arena b.parent b.child b.arena.length
          ++ treeNodes t b.parent b.child none b.arena.length).length := by
      intro x hx
      cases hx
      simp only [List.length_append, patchOld_length, treeNodes_length]
      have := sizeT_pos t
      omega
    have hr1 : (b.ranges ++ treeRanges t b.cursor).length =
        (patchOld b.arena b.parent b.child b.arena.length
          ++ treeNodes t b.parent b.child none b.arena.length).length := by
      simp [patchOld_length, treeNodes_length, treeRanges_length, hr]
    have h2 := buildF g
      { arena := patchOld b.arena b.parent b.child b.arena.length
          ++ treeNodes t b.parent b.child none b.arena.length,
        parent := b.parent,
        child := some b.arena.length,
        ranges := b.ranges ++ treeRanges t b.cursor,
        cursor := b.cursor + tlenT t }
      pid hpp hp1 hc1 hr1
    simp only [List.length_append, patchOld_length, treeNodes_length] at h2
    rw [h2]
    cases g with
    | nil =>
      simp only [forestNodes, forestRanges, lastRootO, tlenF, List.append_nil,
        List.append_assoc, hpp, Nat.add_zero, Nat.add_assoc]
    | cons u g2 =>
      rw [patchOld_patchOld b.arena b.parent b.child b.arena.length
        (b.arena.length + sizeT t) (treeNodes t b.parent b.child none b.arena.length)
        hpO]
      rw [treeNodes_set_next]
      simp only [forestNodes, forestRanges, lastRootO, tlenF, List.append_assoc,
        hpp, Nat.add_assoc]

end

section FinishLemmas

theorem finish_run_tree (t : BTree T) :
    (Builder.init.run (evTree t)).finishB
      = some ({ arena := treeNodes t none none none 0,
                ranges := treeRanges t 0 }, 0) := by
  obtain ⟨r, hg, hpar, hprev, hnext⟩ := treeNodes_get_root t none none none 0
  rw [buildT t Builder.init oLt_none oLt_none rfl]
  simp [Builder.finishB, Builder.init, patchOld, hg, hprev]

theorem finishMut_run_tree (t : BTree T) :
    (Builder.init.run (evTree t)).finishMutB
      = some ({ arena := treeNodes t none none none 0, ranges := [] }, 0) := by
  obtain ⟨r, hg, hpar, hprev, hnext⟩ := treeNodes_get_root t none none none 0
  rw [buildT t Builder.init oLt_none oLt_none rfl]
  simp [Builder.finishMutB, Builder.init, patchOld, hg, hprev]

theorem run_two_trees (t₁ t₂ : BTree T) :
    Builder.init.run (evTree t₁ ++ evTree t₂)
      = { arena := patchOld (treeNodes t₁ none none none 0) none (some 0)
            (treeNodes t₁ none none none 0).length
            ++ treeNodes t₂ none (some 0) none
              (treeNodes t₁ (T := T) none none none 0).length,
          parent := none,
          child := some (treeNodes t₁ (T := T) none none none 0).length,
          ranges := treeRanges t₁ 0 ++ treeRanges t₂ (tlenT t₁),
          cursor := tlenT t₁ + tlenT t₂ } := by
  rw [run_append, buildT t₁ Builder.init oLt_none oLt_none rfl]
  simp only [Builder.init, patchOld, List.nil_append, List.length_nil,
    Nat.zero_add]
  have hc1 : oLt (some 0) (treeNodes t₁ (T := T) none none none 0).length := by
    intro x hx
    cases hx
    rw [treeNodes_length]
    exact sizeT_pos t₁
  have h2 := buildT t₂
    { arena := treeNodes t₁ none none none 0, parent := none, child := some 0,
      ranges := treeRanges t₁ 0, cursor := tlenT t₁ }
    oLt_none hc1 (by simp [treeNodes_length, treeRanges_length])
  rw [h2]
  simp [patchOld]

theorem finish_run_two (t₁ t₂ : BTree T) :
    (Builder.init.run (evTree t₁ ++ evTree t₂)).finishB = none := by
  obtain ⟨r, hg, hpar, hprev, hnext⟩ := treeNodes_get_root t₂ none (some 0) none
    (treeNodes t₁ (T := T) none none none 0).length
  rw [run_two_trees]
  have hbase : getA
      (patchOld (treeNodes t₁ (T := T) none none none 0) none (some 0)
          (treeNodes t₁ (T := T) none none none 0).length
        ++ treeNodes t₂ none (some 0) none
          (treeNodes t₁ (T := T) none none none 0).length)
      (treeNodes t₁ (T := T) none none none 0).length
      = some r := by
    rw [getA_append_base _ _ (patchOld_length _ _ _ _).symm]
    exact hg
  simp [Builder.finishB, hbase, hprev]

theorem finishMut_run_two (t₁ t₂ : BTree T) :
    (Builder.init.run (evTree t₁ ++ evTree t₂)).finishMutB = none := by
  obtain ⟨r, hg, hpar, hprev, hnext⟩ := treeNodes_get_root t₂ none (some 0) none
    (treeNodes t₁ (T := T) none none none 0).length
  rw [run_two_trees]
  have hbase : getA
      (patchOld (treeNodes t₁ (T := T) none none none 0) none (some 0)
          (treeNodes t₁ (T := T) none none none 0).length
        ++ treeNodes t₂ none (some 0) none
          (treeNodes t₁ (T := T) none none none 0).length)
      (treeNodes t₁ (T := T) none none none 0).length
      = some r := by
    rw [getA_append_base _ _ (patchOld_length _ _ _ _).symm]
    exact hg
  simp [Builder.finishMutB, hbase, hprev]

end FinishLemmas

section ReadLemmas

theorem appIF_inil (g : IForest T) : appIF g .inil = g := by
  cases g with
  | inil => rfl
  | icons t f => simp [appIF, appIF_inil f]

mutual

theorem readT_mono (fuel : Nat) (a : Arena T) (n : Nat) (it : ITree T)
    (h : readT fuel a n = some it) : readT (fuel + 1) a n = some it := by
  match fuel with
  | 0 => simp [readT] at h
  | m + 1 =>
    simp only [readT] at h ⊢
    cases hg : getA a n with
    | none => rw [hg] at h; simp at h
    | some r =>
      rw [hg] at h
      simp only [Option.some_bind] at h ⊢
      split at h
      next s heq =>
        exact h
      next fc heq =>
        cases hf : readF m a n fc with
        | none => rw [hf] at h; simp at h
        | some g =>
          rw [hf] at h
          rw [readF_mono m a n fc g hf]
          exact h

theorem readF_mono (fuel : Nat) (a : Arena T) (p : Nat) (oc : Option Nat)
    (g : IForest T) (h : readF fuel a p oc = some g) :
    readF (fuel + 1) a p oc = some g := by
  match fuel with
  | 0 => simp [readF] at h
  | m + 1 =>
    cases oc with
    | none => simpa [readF] using h
    | some c =>
      simp only [readF] at h ⊢
      cases hg : getA a c with
      | none => rw [hg] at h; simp at h
      | some r =>
        rw [hg] at h
        simp only [Option.some_bind] at h ⊢
        by_cases hpar : r.parent = some p
        · rw [if_pos hpar] at h
          rw [if_pos hpar]
          cases ht : readT m a c with
          | none => rw [ht] at h; simp at h
          | some t' =>
            rw [ht] at h
            simp only [Option.some_bind] at h
            cases hf : readF m a p r.next_sibling with
            | none => rw [hf] at h; simp at h
            | some g' =>
              rw [hf] at h
              rw [readT_mono m a c t' ht, readF_mono m a p r.next_sibling g' hf]
              simp only [Option.some_bind]
              exact h
        · rw [if_neg hpar] at h
          simp at h

end

theorem readT_mono_le {fuel fuel' : Nat} (a : Arena T) (n : Nat) (it : ITree T)
    (hle : fuel ≤ fuel') (h : readT fuel a n = some it) :
    readT fuel' a n = some it := by
  induction fuel' with
  | zero =>
    cases Nat.le_zero.mp hle
    exact h
  | succ m ih =>
    rcases Nat.lt_or_ge fuel (m + 1) with hlt | hge
    · exact readT_mono m a n it (ih (Nat.lt_succ_iff.mp hlt))
    · cases Nat.le_antisymm hle hge
      exact h

theorem readF_mono_le {fuel fuel' : Nat} (a : Arena T) (p : Nat) (oc : Option Nat)
    (g : IForest T) (hle : fuel ≤ fuel') (h : readF fuel a p oc = some g) :
    readF fuel' a p oc = some g := by
  induction fuel' with
  | zero =>
    cases Nat.le_zero.mp hle
    exact h
  | succ m ih =>
    rcases Nat.lt_or_ge fuel (m + 1) with hlt | hge
    · exact readF_mono m a p oc g (ih (Nat.lt_succ_iff.mp hlt))
    · cases Nat.le_antisymm hle hge
      exact h

theorem readT_inv (fuel : Nat) (a : Arena T) (n : Nat) (it : ITree T)
    (h : readT fuel a n = some it) :
    ∃ m r, fuel = m + 1 ∧ getA a n = some r ∧
      ((∃ s, r.content = .leaf s ∧ it = .ileaf n r.kind s) ∨
       (∃ fc cs, r.content = .branch fc ∧ readF m a n fc = some cs ∧
         it = .ibranch n r.kind cs)) := by
  match fuel with
  | 0 => simp [readT] at h
  | m + 1 =>
    refine ⟨m, ?_⟩
    simp only [readT] at h
    cases hg : getA a n with
    | none => rw [hg] at h; simp at h
    | some r =>
      rw [hg] at h
      simp only [Option.some_bind] at h
      refine ⟨r, rfl, rfl, ?_⟩
      split at h
      next s heq =>
        cases h
        exact Or.inl ⟨s, heq, rfl⟩
      next fc heq =>
        cases hf : readF m a n fc with
        | none => rw [hf] at h; simp at h
        | some cs =>
          rw [hf] at h
          simp only [Option.map_some'] at h
          cases h
          exact Or.inr ⟨fc, cs, heq, hf, rfl⟩

theorem readF_none_inv (fuel : Nat) (a : Arena T) (p : Nat) (g : IForest T)
    (h : readF fuel a p none = some g) : g = .inil := by
  match fuel with
  | 0 => simp [readF] at h
  | m + 1 =>
    simp only [readF] at h
    cases h
    rfl

theorem readF_some_inv (fuel : Nat) (a : Arena T) (p c : Nat) (g : IForest T)
    (h : readF fuel a p (some c) = some g) :
    ∃ m rc t' g', fuel = m + 1 ∧ getA a c = some rc ∧ rc.parent = some p ∧
      readT m a c = some t' ∧ readF m a p rc.next_sibling = some g' ∧
      g = .icons t' g' := by
  match fuel with
  | 0 => simp [readF] at h
  | m + 1 =>
    simp only [readF] at h
    cases hg : getA a c with
    | none => rw [hg] at h; simp at h
    | some rc =>
      rw [hg] at h
      simp only [Option.some_bind] at h
      by_cases hpar : rc.parent = some p
      · rw [if_pos hpar] at h
        cases ht : readT m a c with
        | none => rw [ht] at h; simp at h
        | some t' =>
          rw [ht] at h
          simp only [Option.some_bind] at h
          cases hf : readF m a p rc.next_sibling with
          | none => rw [hf] at h; simp at h
          | some g' =>
            rw [hf] at h
            simp only [Option.map_some'] at h
            cases h
            exact ⟨m, rc, t', g', rfl, rfl, hpar, ht, hf, rfl⟩
      · rw [if_neg hpar] at h
        simp at h

theorem getA_region_root (X A B a : Arena T) {base : Nat}
    (ha : a = A ++ X ++ B) (hA : A.length = base) (hX : 0 < X.length) :
    getA a base = getA X 0 := by
  subst ha
  rw [getA_append_left B (by simp only [List.length_append]; omega)]
  rw [getA_append_right _ (le_of_eq hA), hA, Nat.sub_self]

mutual

theorem readT_region (t : BTree T) (a A B : Arena T) (p v nx : Option Nat)
    (base : Nat) (ha : a = A ++ treeNodes t p v nx base ++ B)
    (hA : A.length = base) (fuel : Nat) (hfuel : fuelT t ≤ fuel) :
    readT fuel a base = some (annT t base) := by
  cases t with
  | leaf k s =>
    cases fuel with
    | zero => simp [fuelT] at hfuel
    | succ m =>
      have hget : getA a base
          = some { kind := k, parent := p, prev_sibling := v,
                   next_sibling := nx, content := .leaf s } := by
        rw [getA_region_root (treeNodes (.leaf k s) p v nx base) A B a ha hA
          (by simp [treeNodes_length, sizeT])]
        simp [treeNodes, getA]
      simp [readT, hget, annT]
  | branch k cs =>
    have h2 : 2 + fuelF cs ≤ fuel := by simpa [fuelT] using hfuel
    cases fuel with
    | zero => omega
    | succ m =>
      have hm : 1 + fuelF cs ≤ m := by omega
      have hget : getA a base
          = some { kind := k, parent := p, prev_sibling := v,
                   next_sibling := nx,
                   content := .branch (headIdx cs (base + 1)) } := by
        rw [getA_region_root (treeNodes (.branch k cs) p v nx base) A B a ha hA
          (by simp only [treeNodes_length]; have := sizeT_pos (.branch k cs); omega)]
        simp [treeNodes, getA]
      have hread : readF m a base (headIdx cs (base + 1))
          = some (annF cs (base + 1)) := by
        cases cs with
        | nil =>
          cases m with
          | zero => omega
          | succ m2 => simp [headIdx, readF, annF]
        | cons u g2 =>
          obtain ⟨hd, hhd⟩ : ∃ hd : Option (NodeRepr T),
              treeNodes (.branch k (Forest.cons u g2)) p v nx base
                = hd :: forestNodes (.cons u g2) base none none (base + 1) :=
            ⟨_, rfl⟩
          have ha' : a = (A ++ [hd])
              ++ forestNodes (.cons u g2) base none none (base + 1) ++ B := by
            rw [ha, hhd]
            simp [List.append_assoc]
          have hbase' : (A ++ [hd]).length = base + 1 := by
            simp [hA]
          have h0 : readF 1 a base none = some .inil := rfl
          have hreg := readF_region (.cons u g2) a _ B base none none (base + 1)
            ha' hbase' IForest.inil 1 h0
          rw [appIF_inil] at hreg
          exact readF_mono_le a base _ _ (by omega) hreg
      simp [readT, hget, hread, annT]

theorem readF_region (f : Forest T) (a A B : Arena T) (pid : Nat)
    (v nx : Option Nat) (base : Nat)
    (ha : a = A ++ forestNodes f pid v nx base ++ B) (hA : A.length = base)
    (g : IForest T) (fuel0 : Nat) (hg0 : readF fuel0 a pid nx = some g) :
    readF (fuelF f + fuel0) a pid
      (match f with | .nil => nx | .cons _ _ => some base)
      = some (appIF (annF f base) g) := by
  cases f with
  | nil =>
    simp only [annF, appIF, fuelF]
    exact readF_mono_le a pid nx g (by omega) hg0
  | cons t f2 =>
    have hfe : fuelF (.cons t f2) + fuel0
        = (max (fuelT t) (fuelF f2) + fuel0) + 1 := by
      simp [fuelF]
      omega
    cases f2 with
    | nil =>
      obtain ⟨root, hroot, hrpar, hrprev, hrnext⟩ :=
        treeNodes_get_root t (some pid) v nx base
      have hget : getA a base = some root := by
        rw [getA_region_root (treeNodes t (some pid) v nx base) A B a
          (by rw [ha]; simp [forestNodes, List.append_assoc]) hA
          (by simp only [treeNodes_length]; have := sizeT_pos t; omega)]
        exact hroot
      have hreadT : readT (max (fuelT t) (fuelF (Forest.nil (T := T))) + fuel0) a base
          = some (annT t base) := by
        refine readT_region t a A B (some pid) v nx base ?_ hA _ (by omega)
        rw [ha]
        simp [forestNodes, List.append_assoc]
      have hreadF : readF (max (fuelT t) (fuelF (Forest.nil (T := T))) + fuel0) a pid
          root.next_sibling = some g := by
        rw [hrnext]
        exact readF_mono_le a pid nx g (by omega) hg0
      rw [hfe]
      simp only [readF]
      rw [hget]
      simp only [Option.some_bind]
      rw [if_pos hrpar, hreadT]
      simp only [Option.some_bind]
      rw [hreadF]
      simp [annF, appIF]
    | cons u2 g2 =>
      obtain ⟨root, hroot, hrpar, hrprev, hrnext⟩ :=
        treeNodes_get_root t (some pid) v (some (base + sizeT t)) base
      have hget : getA a base = some root := by
        rw [getA_region_root (treeNodes t (some pid) v (some (base + sizeT t)) base)
          A (forestNodes (.cons u2 g2) pid (some base) nx (base + sizeT t) ++ B) a
          (by rw [ha]; simp [forestNodes, List.append_assoc]) hA
          (by simp only [treeNodes_length]; have := sizeT_pos t; omega)]
        exact hroot
      have hreadT : readT (max (fuelT t) (fuelF (.cons u2 g2)) + fuel0) a base
          = some (annT t base) := by
        refine readT_region t a A
          (forestNodes (.cons u2 g2) pid (some base) nx (base + sizeT t) ++ B)
          (some pid) v (some (base + sizeT t)) base ?_ hA _ (by omega)
        rw [ha]
        simp [forestNodes, List.append_assoc]
      have hreadF : readF (max (fuelT t) (fuelF (.cons u2 g2)) + fuel0) a pid
          root.next_sibling
          = some (appIF (annF (.cons u2 g2) (base + sizeT t)) g) := by
        rw [hrnext]
        have hreg := readF_region (.cons u2 g2) a
          (A ++ treeNodes t (some pid) v (some (base + sizeT t)) base) B pid
          (some base) nx (base + sizeT t)
          (by rw [ha]; simp [forestNodes, List.append_assoc])
          (by simp [hA, treeNodes_length]) g fuel0 hg0
        exact readF_mono_le a pid _ _ (by omega) hreg
      rw [hfe]
      simp only [readF]
      rw [hget]
      simp only [Option.some_bind]
      rw [if_pos hrpar, hreadT]
      simp only [Option.some_bind]
      rw [hreadF]
      simp [annF, appIF]

end

end ReadLemmas

section WalkLemmas

theorem walkSteps_none (a : Arena T) (fuel k : Nat) :
    walkSteps a fuel ⟨none, k⟩ = ([], ⟨none, k⟩) := by
  induction fuel with
  | zero => rfl
  | succ m ih => simp [walkSteps, walkerStep, ih]

theorem walkSteps_add (a : Arena T) (m n : Nat) (s : WState) :
    walkSteps a (m + n) s
      = ((walkSteps a m s).1 ++ (walkSteps a n (walkSteps a m s).2).1,
         (walkSteps a n (walkSteps a m s).2).2) := by
  induction m generalizing s with
  | zero => simp [walkSteps, Nat.zero_add]
  | succ m ih =>
    have hmn : m + 1 + n = (m + n) + 1 := by omega
    rw [hmn]
    simp only [walkSteps]
    rw [ih]
    simp [List.append_assoc]

mutual

theorem walk_euler_T (it : ITree T) (a : Arena T) (fuel n : Nat)
    (r : NodeRepr T) (k : Nat) (hg : getA a n = some r)
    (hread : readT fuel a n = some it) :
    walkSteps a (2 * isizeT it) ⟨some (true, n), k⟩
      = (eulerI it k,
         ⟨if k = 0 then none
          else match r.next_sibling with
            | some sib => some (true, sib)
            | none => r.parent.map (fun q => (false, q)),
          k⟩) := by
  obtain ⟨m, r', hm, hg', hcase⟩ := readT_inv fuel a n it hread
  rw [hg] at hg'
  injection hg' with hrr
  subst hrr
  rcases hcase with ⟨s, hcon, hit⟩ | ⟨fc, cs, hcon, hreadF, hit⟩
  · subst hit
    have h2 : 2 * isizeT (ITree.ileaf n r.kind s) = 2 := by simp [isizeT]
    rw [h2]
    simp [walkSteps, walkerStep, hg, fcOf, hcon, eulerI, Nat.add_sub_cancel]
  · subst hit
    cases cs with
    | inil =>
      have hfc : fc = none := by
        cases hfcc : fc with
        | none => rfl
        | some c0 =>
          rw [hfcc] at hreadF
          obtain ⟨_, _, _, _, _, _, _, _, _, hcontr⟩ :=
            readF_some_inv m a n c0 .inil hreadF
          cases hcontr
      subst hfc
      have h2 : 2 * isizeT (ITree.ibranch n r.kind .inil) = 2 := by
        simp [isizeT, isizeF]
      rw [h2]
      simp [walkSteps, walkerStep, hg, fcOf, hcon, eulerI, eulerIF,
        Nat.add_sub_cancel]
    | icons t' g' =>
      obtain ⟨c0, hfc⟩ : ∃ c0, fc = some c0 := by
        cases hfcc : fc with
        | none =>
          rw [hfcc] at hreadF
          cases readF_none_inv m a n _ hreadF
        | some c0 => exact ⟨c0, rfl⟩
      subst hfc
      have hWF := walk_euler_F (.icons t' g') a m n c0 (k + 1) hreadF
        (by omega)
      have hsplit : 2 * isizeT (ITree.ibranch n r.kind (.icons t' g'))
          = 1 + (2 * isizeF (.icons t' g') + 1) := by
        simp [isizeT]
        omega
      rw [hsplit, walkSteps_add]
      have h1 : walkSteps a 1 ⟨some (true, n), k⟩
          = ([(k, true, n)], ⟨some (true, c0), k + 1⟩) := by
        simp [walkSteps, walkerStep, hg, fcOf, hcon]
      rw [h1]
      simp only
      rw [walkSteps_add, hWF]
      simp only
      have h3 : walkSteps a 1 ⟨some (false, n), k + 1⟩
          = ([(k, false, n)],
             ⟨if k = 0 then none
              else match r.next_sibling with
                | some sib => some (true, sib)
                | none => r.parent.map (fun q => (false, q)),
              k⟩) := by
        simp [walkSteps, walkerStep, hg, Nat.add_sub_cancel]
      rw [h3]
      simp [eulerI, List.append_assoc]

theorem walk_euler_F (g : IForest T) (a : Arena T) (fuel p c k : Nat)
    (hread : readF fuel a p (some c) = some g) (hk : 1 ≤ k) :
    walkSteps a (2 * isizeF g) ⟨some (true, c), k⟩
      = (eulerIF g k, ⟨some (false, p), k⟩) := by
  obtain ⟨m, rc, t', g', hm, hgc, hpar, hreadT, hreadF', hgeq⟩ :=
    readF_some_inv fuel a p c g hread
  subst hgeq
  have hWT := walk_euler_T t' a m c rc k hgc hreadT
  rw [if_neg (by omega : ¬k = 0)] at hWT
  cases hnext : rc.next_sibling with
  | none =>
    rw [hnext] at hreadF'
    have hg' : g' = .inil := readF_none_inv m a p g' hreadF'
    subst hg'
    rw [hnext] at hWT
    simp only [hpar, Option.map_some'] at hWT
    have hs : 2 * isizeF (IForest.icons t' .inil) = 2 * isizeT t' := by
      simp [isizeF]
    rw [hs, hWT]
    simp [eulerIF]
  | some s0 =>
    rw [hnext] at hreadF'
    have hWF2 := walk_euler_F g' a m p s0 k hreadF' hk
    have hs : 2 * isizeF (IForest.icons t' g')
        = 2 * isizeT t' + 2 * isizeF g' := by
      simp [isizeF]
      omega
    simp only [hnext] at hWT
    rw [hs, walkSteps_add, hWT]
    simp only
    rw [hWF2]
    simp [eulerIF]

end

end WalkLemmas

section DisplayLemmas

mutual

theorem strip_ann (t : BTree T) (base : Nat) : stripT (annT t base) = t := by
  cases t with
  | leaf k s => simp [annT, stripT]
  | branch k cs => simp [annT, stripT, stripF_ann cs (base + 1)]

theorem stripF_ann (f : Forest T) (base : Nat) : stripF (annF f base) = f := by
  cases f with
  | nil => simp [annF, stripF]
  | cons t g =>
    simp [annF, stripF, strip_ann t base, stripF_ann g (base + sizeT t)]

end

mutual

theorem isize_ann (t : BTree T) (base : Nat) : isizeT (annT t base) = sizeT t := by
  cases t with
  | leaf k s => simp [annT, isizeT, sizeT]
  | branch k cs => simp [annT, isizeT, sizeT, isizeF_ann cs (base + 1)]

theorem isizeF_ann (f : Forest T) (base : Nat) :
    isizeF (annF f base) = sizeF f := by
  cases f with
  | nil => simp [annF, isizeF, sizeF]
  | cons t g =>
    simp [annF, isizeF, sizeF, isize_ann t base, isizeF_ann g (base + sizeT t)]

end

theorem evTexts_append (l₁ l₂ : List (Ev T)) :
    evTexts (l₁ ++ l₂) = evTexts l₁ ++ evTexts l₂ := by
  induction l₁ with
  | nil => simp [evTexts]
  | cons e l ih =>
    cases e with
    | start k => simpa [evTexts] using ih
    | close => simpa [evTexts] using ih
    | leaf k s => simp [evTexts, ih, String.append_assoc]

mutual

theorem evTexts_evTree (t : BTree T) : evTexts (evTree t) = leafTextT t := by
  cases t with
  | leaf k s => simp [evTree, evTexts, leafTextT, String.append_empty]
  | branch k cs =>
    show evTexts (Ev.start k :: (evForest cs ++ [Ev.close])) = leafTextF cs
    simp [evTexts, evTexts_append, evTexts_evForest cs, String.append_empty]

theorem evTexts_evForest (f : Forest T) : evTexts (evForest f) = leafTextF f := by
  cases f with
  | nil => simp [evForest, evTexts, leafTextF]
  | cons t g =>
    simp [evForest, evTexts_append, evTexts_evTree t, evTexts_evForest g,
      leafTextF]

end

theorem dispText_append (a : Arena T) (l₁ l₂ : List (Nat × Bool × Nat)) :
    dispText a (l₁ ++ l₂) = dispText a l₁ ++ dispText a l₂ := by
  induction l₁ with
  | nil => simp [dispText, String.empty_append]
  | cons x l ih =>
    obtain ⟨d, e, n⟩ := x
    cases e with
    | true => simp [dispText, ih, String.append_assoc]
    | false => simpa [dispText] using ih

mutual

theorem disp_euler_T (it : ITree T) (a : Arena T) (fuel n k : Nat)
    (hread : readT fuel a n = some it) :
    dispText a (eulerI it k) = leafTextT (stripT it) := by
  obtain ⟨m, r, hm, hg, hcase⟩ := readT_inv fuel a n it hread
  rcases hcase with ⟨s, hcon, hit⟩ | ⟨fc, cs, hcon, hreadF, hit⟩
  · subst hit
    simp [eulerI, dispText, hg, leafTextOf, hcon, stripT, leafTextT,
      String.append_empty]
  · subst hit
    have hcs := disp_euler_F cs a m n fc (k + 1) hreadF
    simp [eulerI, dispText, hg, leafTextOf, hcon, stripT, leafTextT,
      dispText_append, hcs, String.append_empty, String.empty_append]

theorem disp_euler_F (g : IForest T) (a : Arena T) (fuel p : Nat)
    (oc : Option Nat) (k : Nat) (hread : readF fuel a p oc = some g) :
    dispText a (eulerIF g k) = leafTextF (stripF g) := by
  cases g with
  | inil => simp [eulerIF, dispText, stripF, leafTextF]
  | icons t' g' =>
    cases oc with
    | none => cases readF_none_inv fuel a p _ hread
    | some c =>
      obtain ⟨m, rc, t0, g0, hm, hgc, hpar, hreadT, hreadF', heq⟩ :=
        readF_some_inv fuel a p c _ hread
      injection heq with h1 h2
      subst h1
      subst h2
      simp [eulerIF, dispText_append, disp_euler_T t' a m c k hreadT,
        disp_euler_F g' a m p rc.next_sibling k hreadF', stripF, leafTextF]

end

end DisplayLemmas

/-- C5 (amended): `finish`/`finish_mut` abort when zero nodes were built and
when the current depth holds more than one closed sibling, and succeed on a
single fully-closed top-level node; but (see the counterexample) the checks
inspect only the current-depth `child` pointer and its `prev_sibling`, so a
still-open branch is not detected and finishing can succeed on it. -/
theorem claim5_finish_checks {T : Type} :
    (Builder.init (T := T)).finishB = none ∧
    (Builder.init (T := T)).finishMutB = none ∧
    (∀ t : BTree T, ((Builder.init.run (evTree t)).finishB).isSome = true) ∧
    (∀ t : BTree T, ((Builder.init.run (evTree t)).finishMutB).isSome = true) ∧
    (∀ t₁ t₂ : BTree T,
      (Builder.init.run (evTree t₁ ++ evTree t₂)).finishB = none) ∧
    (∀ t₁ t₂ : BTree T,
      (Builder.init.run (evTree t₁ ++ evTree t₂)).finishMutB = none) := by
  refine ⟨rfl, rfl, fun t => ?_, fun t => ?_, finish_run_two, finishMut_run_two⟩
  · rw [finish_run_tree]
    rfl
  · rw [finishMut_run_tree]
    rfl

section RangeLemmas

mutual

theorem range_entries_T (t : BTree T) (c j : Nat) (hj : j < sizeT t) :
    ∃ s e, (treeRanges t c).get? j = some (s, some e) ∧ c ≤ s ∧ s ≤ e ∧
      e ≤ c + tlenT t := by
  cases t with
  | leaf k s =>
    have hj0 : j = 0 := by simp [sizeT] at hj; omega
    subst hj0
    exact ⟨c, c + s.length, by simp [treeRanges], le_rfl, by omega,
      by simp [tlenT]⟩
  | branch k cs =>
    cases j with
    | zero =>
      exact ⟨c, c + tlenF cs, by simp [treeRanges], le_rfl, by omega,
        by simp [tlenT]⟩
    | succ j' =>
      have hj' : j' < sizeF cs := by simp [sizeT] at hj; omega
      obtain ⟨s, e, hget, hcs, hse, he⟩ := range_entries_F cs c j' hj'
      exact ⟨s, e, by simpa [treeRanges] using hget, hcs, hse,
        by simp [tlenT]; omega⟩

theorem range_entries_F (f : Forest T) (c j : Nat) (hj : j < sizeF f) :
    ∃ s e, (forestRanges f c).get? j = some (s, some e) ∧ c ≤ s ∧ s ≤ e ∧
      e ≤ c + tlenF f := by
  cases f with
  | nil => simp [sizeF] at hj
  | cons t g =>
    by_cases hlt : j < sizeT t
    · obtain ⟨s, e, hget, hcs, hse, he⟩ := range_entries_T t c j hlt
      refine ⟨s, e, ?_, hcs, hse, by simp [tlenF]; omega⟩
      rw [forestRanges, rget_append_left _ (by rw [treeRanges_length]; exact hlt)]
      exact hget
    · have hj' : j - sizeT t < sizeF g := by simp [sizeF] at hj; omega
      obtain ⟨s, e, hget, hcs, hse, he⟩ :=
        range_entries_F g (c + tlenT t) (j - sizeT t) hj'
      refine ⟨s, e, ?_, by omega, hse, by simp [tlenF]; omega⟩
      rw [forestRanges, rget_append_right _ (by rw [treeRanges_length]; omega)]
      rw [treeRanges_length]
      exact hget

end

end RangeLemmas

/-- C7: range availability by capability.  Every node of a tree produced by
`finish` from a balanced build has a present `try_range` (and `range`
returns it), while on a tree produced by `finish_mut` (range table
discarded) `try_range` is `none` for every node and the non-try `range` is
the fatal `expect` failure, modelled as the `Except.error` carrying the
source's panic message — not a silently wrong answer. -/
theorem claim7_range_availability :
    (∀ (T : Type) (t : BTree T) (rd : RootData T) (root n : Nat),
      (Builder.init.run (evTree t)).finishMutB = some (rd, root) →
      tryRange rd n = none ∧
        rangeE rd n = .error "node is mutable and doesn't have a range") ∧
    (∀ (T : Type) (t : BTree T) (rd : RootData T) (root n : Nat),
      (Builder.init.run (evTree t)).finishB = some (rd, root) →
      n < rd.arena.length →
      ∃ s e, tryRange rd n = some (s, e) ∧ rangeE rd n = .ok (s, e)) := by
  constructor
  · intro T t rd root n hfin
    rw [finishMut_run_tree t] at hfin
    simp only [Option.some.injEq, Prod.mk.injEq] at hfin
    obtain ⟨hrd, hroot⟩ := hfin
    subst hrd
    constructor
    · simp [tryRange]
    · simp [rangeE, tryRange]
  · intro T t rd root n hfin hn
    rw [finish_run_tree t] at hfin
    simp only [Option.some.injEq, Prod.mk.injEq] at hfin
    obtain ⟨hrd, hroot⟩ := hfin
    subst hrd
    simp only [treeNodes_length] at hn
    obtain ⟨s, e, hget, -, -, -⟩ := range_entries_T t 0 n hn
    rw [List.get?_eq_getElem?] at hget
    refine ⟨s, e, ?_, ?_⟩
    · have hne : (treeRanges t 0).isEmpty = false := by
        have hlen : (treeRanges t 0).length = sizeT t := treeRanges_length t 0
        cases htr : treeRanges t 0 with
        | nil => rw [htr] at hlen; have := sizeT_pos t; simp at hlen; omega
        | cons x xs => simp [List.isEmpty]
      simp [tryRange, hne, hget]
    · have hne : (treeRanges t 0).isEmpty = false := by
        have hlen : (treeRanges t 0).length = sizeT t := treeRanges_length t 0
        cases htr : treeRanges t 0 with
        | nil => rw [htr] at hlen; have := sizeT_pos t; simp at hlen; omega
        | cons x xs => simp [List.isEmpty]
      simp [rangeE, tryRange, hne, hget]

/-- C7 witness: both parts applied to the basic.rs example tree at node 3. -/
theorem claim7_range_availability_witness :
    (∃ rd : RootData Nat, ∃ root : Nat,
      (Builder.init.run (evTree exTree)).finishMutB = some (rd, root) ∧
      tryRange rd 3 = none) ∧
    (∃ rd : RootData Nat, ∃ root : Nat,
      (Builder.init.run (evTree exTree)).finishB = some (rd, root) ∧
      ∃ s e, tryRange rd 3 = some (s, e) ∧ rangeE rd 3 = .ok (s, e)) := by
  constructor
  · refine ⟨{ arena := treeNodes exTree none none none 0, ranges := [] }, 0,
      by decide, ?_⟩
    exact (claim7_range_availability.1 Nat exTree
      { arena := treeNodes exTree none none none 0, ranges := [] } 0 3
      (by decide)).1
  · refine ⟨{ arena := treeNodes exTree none none none 0,
              ranges := treeRanges exTree 0 }, 0, by decide, ?_⟩
    exact claim7_range_availability.2 Nat exTree
      { arena := treeNodes exTree none none none 0,
        ranges := treeRanges exTree 0 } 0 3 (by decide) (by decide)

section EulerCountLemmas

theorem range'_append_one (s m n : Nat) :
    List.range' s m ++ List.range' (s + m) n = List.range' s (m + n) := by
  have h := List.range'_append s m n 1
  simp only [Nat.one_mul, Nat.mul_one] at h
  rw [h, Nat.add_comm]

mutual

theorem preIds_ann (t : BTree T) (base : Nat) :
    preIdsT (annT t base) = List.range' base (sizeT t) := by
  cases t with
  | leaf k s => simp [annT, preIdsT, sizeT, List.range']
  | branch k cs =>
    show base :: preIdsF (annF cs (base + 1)) = List.range' base (1 + sizeF cs)
    rw [preIdsF_ann cs (base + 1)]
    rw [show 1 + sizeF cs = sizeF cs + 1 from Nat.add_comm 1 _]
    simp [List.range'_succ]

theorem preIdsF_ann (f : Forest T) (base : Nat) :
    preIdsF (annF f base) = List.range' base (sizeF f) := by
  cases f with
  | nil => simp [annF, preIdsF, sizeF, List.range']
  | cons t g =>
    show preIdsT (annT t base) ++ preIdsF (annF g (base + sizeT t))
        = List.range' base (sizeT t + sizeF g)
    rw [preIds_ann t base, preIdsF_ann g (base + sizeT t)]
    exact range'_append_one base (sizeT t) (sizeF g)

end

mutual

theorem euler_enter_count (it : ITree T) (k i : Nat) :
    (eulerI it k).countP (fun x => x.2.1 && x.2.2 == i)
      = (preIdsT it).count i := by
  cases it with
  | ileaf n kk s =>
    by_cases h : n = i <;>
      simp [eulerI, preIdsT, List.countP_cons, List.count_cons, h]
  | ibranch n kk cs =>
    have hcs := euler_enter_countF cs (k + 1) i
    by_cases h : n = i <;>
      simp [eulerI, preIdsT, List.countP_cons, List.countP_append,
        List.count_cons, hcs, h]

theorem euler_enter_countF (g : IForest T) (k i : Nat) :
    (eulerIF g k).countP (fun x => x.2.1 && x.2.2 == i)
      = (preIdsF g).count i := by
  cases g with
  | inil => simp [eulerIF, preIdsF]
  | icons t f =>
    simp [eulerIF, preIdsF, List.countP_append, List.count_append,
      euler_enter_count t k i, euler_enter_countF f k i]

end

mutual

theorem euler_leave_count (it : ITree T) (k i : Nat) :
    (eulerI it k).countP (fun x => !x.2.1 && x.2.2 == i)
      = (preIdsT it).count i := by
  cases it with
  | ileaf n kk s =>
    by_cases h : n = i <;>
      simp [eulerI, preIdsT, List.countP_cons, List.count_cons, h]
  | ibranch n kk cs =>
    have hcs := euler_leave_countF cs (k + 1) i
    by_cases h : n = i <;>
      simp [eulerI, preIdsT, List.countP_cons, List.countP_append,
        List.count_cons, hcs, h]

theorem euler_leave_countF (g : IForest T) (k i : Nat) :
    (eulerIF g k).countP (fun x => !x.2.1 && x.2.2 == i)
      = (preIdsF g).count i := by
  cases g with
  | inil => simp [eulerIF, preIdsF]
  | icons t f =>
    simp [eulerIF, preIdsF, List.countP_append, List.count_append,
      euler_leave_count t k i, euler_leave_countF f k i]

end

mutual

theorem subtree_region_T (t : BTree T) (p v nx : Option Nat) (base : Nat)
    (A B : Arena T) (hA : A.length = base) (j : Nat) (hj : j < sizeT t) :
    ∃ (u : BTree T) (p' v' nx' : Option Nat) (A' B' : Arena T),
      A ++ treeNodes t p v nx base ++ B
        = A' ++ treeNodes u p' v' nx' (base + j) ++ B'
      ∧ A'.length = base + j := by
  cases j with
  | zero => exact ⟨t, p, v, nx, A, B, by simp, by simp [hA]⟩
  | succ j' =>
    cases t with
    | leaf k s => simp [sizeT] at hj
    | branch k cs =>
      have hj' : j' < sizeF cs := by simp [sizeT] at hj; omega
      obtain ⟨hd, hhd⟩ : ∃ hd : Option (NodeRepr T),
          treeNodes (.branch k cs) p v nx base
            = hd :: forestNodes cs base none none (base + 1) := ⟨_, rfl⟩
      obtain ⟨u, p', v', nx', A', B', heq, hlen⟩ :=
        subtree_region_F cs base none none (base + 1) (A ++ [hd]) B
          (by simp [hA]) j' hj'
      refine ⟨u, p', v', nx', A', B', ?_, by omega⟩
      rw [hhd]
      rw [show base + (j' + 1) = base + 1 + j' from by omega]
      rw [← heq]
      simp

theorem subtree_region_F (f : Forest T) (pid : Nat) (v nx : Option Nat)
    (base : Nat) (A B : Arena T) (hA : A.length = base) (j : Nat)
    (hj : j < sizeF f) :
    ∃ (u : BTree T) (p' v' nx' : Option Nat) (A' B' : Arena T),
      A ++ forestNodes f pid v nx base ++ B
        = A' ++ treeNodes u p' v' nx' (base + j) ++ B'
      ∧ A'.length = base + j := by
  cases f with
  | nil => simp [sizeF] at hj
  | cons t g =>
    cases g with
    | nil =>
      have hlt : j < sizeT t := by simp [sizeF] at hj; omega
      obtain ⟨u, p', v', nx', A', B', heq, hlen⟩ :=
        subtree_region_T t (some pid) v nx base A
          (forestNodes Forest.nil pid (some base) nx (base + sizeT t) ++ B)
          hA j hlt
      refine ⟨u, p', v', nx', A', B', ?_, hlen⟩
      rw [← heq]
      simp [forestNodes, List.append_assoc]
    | cons u2 g2 =>
      by_cases hlt : j < sizeT t
      · obtain ⟨u, p', v', nx', A', B', heq, hlen⟩ :=
          subtree_region_T t (some pid) v (some (base + sizeT t)) base A
            (forestNodes (Forest.cons u2 g2) pid (some base) nx (base + sizeT t)
              ++ B) hA j hlt
        refine ⟨u, p', v', nx', A', B', ?_, hlen⟩
        rw [← heq]
        simp [forestNodes, List.append_assoc]
      · have hj' : j - sizeT t < sizeF (Forest.cons u2 g2) := by
          simp [sizeF] at hj ⊢
          omega
        obtain ⟨u, p', v', nx', A', B', heq, hlen⟩ :=
          subtree_region_F (Forest.cons u2 g2) pid (some base) nx
            (base + sizeT t)
            (A ++ treeNodes t (some pid) v (some (base + sizeT t)) base) B
            (by simp [hA, treeNodes_length]) (j - sizeT t) hj'
        refine ⟨u, p', v', nx', A', B', ?_, by rw [hlen]; omega⟩
        rw [show base + sizeT t + (j - sizeT t) = base + j from by omega] at heq
        rw [← heq]
        simp [forestNodes, List.append_assoc]

end

end EulerCountLemmas

section CoverLemmas

theorem getA_some_lt {a : Arena T} {n : Nat} {r : NodeRepr T}
    (h : getA a n = some r) : n < a.length := by
  by_contra hge
  rw [getA, List.get?_eq_getElem?, List.getElem?_eq_none (by omega)] at h
  simp [Option.join] at h

theorem countF_le_sizeF (f : Forest T) : countF f ≤ sizeF f := by
  cases f with
  | nil => simp [countF, sizeF]
  | cons t g =>
    have h1 := countF_le_sizeF g
    have h2 := sizeT_pos t
    simp only [countF, sizeF]
    omega

theorem rget_region_head (X : List (Nat × Option Nat))
    {R S rg : List (Nat × Option Nat)} {m : Nat} (hrg : rg = R ++ X ++ S)
    (hR : R.length = m) (hX : 0 < X.length) :
    rg.get? m = X.get? 0 := by
  subst hrg
  rw [List.append_assoc, rget_append_right _ (le_of_eq hR), hR, Nat.sub_self]
  cases X with
  | nil => simp at hX
  | cons x xs => simp

theorem cov_region (f : Forest T) (t0 : BTree T) (pid : Nat) (v : Option Nat)
    (base c : Nat) (A B : Arena T) (R S : List (Nat × Option Nat))
    (a : Arena T) (rg : List (Nat × Option Nat))
    (ha : a = A ++ forestNodes (.cons t0 f) pid v none base ++ B)
    (hrg : rg = R ++ forestRanges (.cons t0 f) c ++ S)
    (hA : A.length = base) (hR : R.length = base)
    (fuel : Nat) (hfuel : countF (.cons t0 f) + 1 ≤ fuel) :
    covChain fuel a rg c base (c + tlenF (.cons t0 f)) = true := by
  cases f with
  | nil =>
    match fuel, hfuel with
    | m + 1, _ =>
      obtain ⟨tail, htail⟩ := treeRanges_head t0 c
      have hrgget : rg.get? base = some (c, some (c + tlenT t0)) := by
        rw [rget_region_head (forestRanges (.cons t0 .nil) c) hrg hR
          (by rw [forestRanges_length]; have := sizeT_pos t0; simp [sizeF]; omega)]
        simp [forestRanges, htail]
      obtain ⟨r, hr0, hrpar, hrprev, hrnext⟩ :=
        treeNodes_get_root t0 (some pid) v none base
      have haget : getA a base = some r := by
        rw [getA_region_root (treeNodes t0 (some pid) v none base) A B a
          (by rw [ha]; simp [forestNodes, List.append_assoc]) hA
          (by simp only [treeNodes_length]; have := sizeT_pos t0; omega)]
        exact hr0
      rw [List.get?_eq_getElem?] at hrgget
      simp [covChain, hrgget, haget, hrnext, tlenF]
  | cons u g =>
    match fuel, hfuel with
    | m + 1, hf =>
      obtain ⟨tail, htail⟩ := treeRanges_head t0 c
      have hrgget : rg.get? base = some (c, some (c + tlenT t0)) := by
        rw [rget_region_head (forestRanges (.cons t0 (.cons u g)) c) hrg hR
          (by rw [forestRanges_length]; have := sizeT_pos t0; simp [sizeF]; omega)]
        simp [forestRanges, htail]
      obtain ⟨r, hr0, hrpar, hrprev, hrnext⟩ :=
        treeNodes_get_root t0 (some pid) v (some (base + sizeT t0)) base
      have haget : getA a base = some r := by
        rw [getA_region_root
          (treeNodes t0 (some pid) v (some (base + sizeT t0)) base) A
          (forestNodes (.cons u g) pid (some base) none (base + sizeT t0) ++ B) a
          (by rw [ha]; simp [forestNodes, List.append_assoc]) hA
          (by simp only [treeNodes_length]; have := sizeT_pos t0; omega)]
        exact hr0
      have hrec := cov_region g u pid (some base) (base + sizeT t0)
        (c + tlenT t0) (A ++ treeNodes t0 (some pid) v (some (base + sizeT t0)) base)
        B (R ++ treeRanges t0 c) S a rg
        (by rw [ha]; simp [forestNodes, List.append_assoc])
        (by rw [hrg]; simp [forestRanges, List.append_assoc])
        (by simp [hA, treeNodes_length]) (by simp [hR, treeRanges_length])
        m (by simp [countF] at hf ⊢; omega)
      have he : c + tlenT t0 + tlenF (.cons u g)
          = c + tlenF (.cons t0 (.cons u g)) := by
        simp [tlenF]
        omega
      rw [he] at hrec
      rw [List.get?_eq_getElem?] at hrgget
      simp [covChain, hrgget, haget, hrnext, hrec]

mutual

theorem subtree_region2_T (t : BTree T) (p v nx : Option Nat) (base c : Nat)
    (A B : Arena T) (R S : List (Nat × Option Nat)) (hA : A.length = base)
    (hR : R.length = base) (j : Nat) (hj : j < sizeT t) :
    ∃ (u : BTree T) (p' v' nx' : Option Nat) (c' : Nat) (A' B' : Arena T)
      (R' S' : List (Nat × Option Nat)),
      A ++ treeNodes t p v nx base ++ B
        = A' ++ treeNodes u p' v' nx' (base + j) ++ B' ∧
      R ++ treeRanges t c ++ S = R' ++ treeRanges u c' ++ S' ∧
      A'.length = base + j ∧ R'.length = base + j := by
  cases j with
  | zero =>
    exact ⟨t, p, v, nx, c, A, B, R, S, by simp, by simp, by simp [hA],
      by simp [hR]⟩
  | succ j' =>
    cases t with
    | leaf k s => simp [sizeT] at hj
    | branch k cs =>
      have hj' : j' < sizeF cs := by simp [sizeT] at hj; omega
      obtain ⟨hd, hhd⟩ : ∃ hd : Option (NodeRepr T),
          treeNodes (.branch k cs) p v nx base
            = hd :: forestNodes cs base none none (base + 1) := ⟨_, rfl⟩
      obtain ⟨rhd, hrhd⟩ : ∃ rhd : Nat × Option Nat,
          treeRanges (.branch k cs) c = rhd :: forestRanges cs c := ⟨_, rfl⟩
      obtain ⟨u, p', v', nx', c', A', B', R', S', heqA, heqR, hlA, hlR⟩ :=
        subtree_region2_F cs base none none (base + 1) c (A ++ [hd]) B
          (R ++ [rhd]) S (by simp [hA]) (by simp [hR]) j' hj'
      refine ⟨u, p', v', nx', c', A', B', R', S', ?_, ?_, by omega, by omega⟩
      · rw [hhd]
        rw [show base + (j' + 1) = base + 1 + j' from by omega]
        rw [← heqA]
        simp
      · rw [hrhd]
        rw [← heqR]
        simp

theorem subtree_region2_F (f : Forest T) (pid : Nat) (v nx : Option Nat)
    (base c : Nat) (A B : Arena T) (R S : List (Nat × Option Nat))
    (hA : A.length = base) (hR : R.length = base) (j : Nat)
    (hj : j < sizeF f) :
    ∃ (u : BTree T) (p' v' nx' : Option Nat) (c' : Nat) (A' B' : Arena T)
      (R' S' : List (Nat × Option Nat)),
      A ++ forestNodes f pid v nx base ++ B
        = A' ++ treeNodes u p' v' nx' (base + j) ++ B' ∧
      R ++ forestRanges f c ++ S = R' ++ treeRanges u c' ++ S' ∧
      A'.length = base + j ∧ R'.length = base + j := by
  cases f with
  | nil => simp [sizeF] at hj
  | cons t g =>
    cases g with
    | nil =>
      have hlt : j < sizeT t := by simp [sizeF] at hj; omega
      obtain ⟨u, p', v', nx', c', A', B', R', S', heqA, heqR, hlA, hlR⟩ :=
        subtree_region2_T t (some pid) v nx base c A
          (forestNodes (Forest.nil (T := T)) pid (some base) nx (base + sizeT t)
            ++ B) R
          (forestRanges (Forest.nil (T := T)) (c + tlenT t) ++ S) hA hR j hlt
      refine ⟨u, p', v', nx', c', A', B', R', S', ?_, ?_, hlA, hlR⟩
      · rw [← heqA]
        simp [forestNodes, List.append_assoc]
      · rw [← heqR]
        simp [forestRanges, List.append_assoc]
    | cons u2 g2 =>
      by_cases hlt : j < sizeT t
      · obtain ⟨u, p', v', nx', c', A', B', R', S', heqA, heqR, hlA, hlR⟩ :=
          subtree_region2_T t (some pid) v (some (base + sizeT t)) base c A
            (forestNodes (Forest.cons u2 g2) pid (some base) nx (base + sizeT t)
              ++ B) R
            (forestRanges (Forest.cons u2 g2) (c + tlenT t) ++ S) hA hR j hlt
        refine ⟨u, p', v', nx', c', A', B', R', S', ?_, ?_, hlA, hlR⟩
        · rw [← heqA]
          simp [forestNodes, List.append_assoc]
        · rw [← heqR]
          simp [forestRanges, List.append_assoc]
      · have hj' : j - sizeT t < sizeF (Forest.cons u2 g2) := by
          simp [sizeF] at hj ⊢
          omega
        obtain ⟨u, p', v', nx', c', A', B', R', S', heqA, heqR, hlA, hlR⟩ :=
          subtree_region2_F (Forest.cons u2 g2) pid (some base) nx
            (base + sizeT t) (c + tlenT t)
            (A ++ treeNodes t (some pid) v (some (base + sizeT t)) base) B
            (R ++ treeRanges t c) S (by simp [hA, treeNodes_length])
            (by simp [hR, treeRanges_length]) (j - sizeT t) hj'
        refine ⟨u, p', v', nx', c', A', B', R', S', ?_, ?_,
          by rw [hlA]; omega, by rw [hlR]; omega⟩
        · rw [show base + sizeT t + (j - sizeT t) = base + j from by omega]
            at heqA
          rw [← heqA]
          simp [forestNodes, List.append_assoc]
        · rw [← heqR]
          simp [forestRanges, List.append_assoc]

end

end CoverLemmas

/-- C6: range containment.  In any immutable tree produced by `finish` from
a balanced builder sequence, every node's stored range is a resolved pair
`(s, some e)` with `s ≤ e`; a childless branch's range is the zero-width
span `(s, s)`; and for every branch with children the children's ranges are
contiguous in sibling order and jointly tile exactly `[s, e)` — checked by
`covChain`, which requires the first child to start at `s`, each child's
end to equal the next child's start, and the last child to end at `e`. -/
theorem claim6_range_containment :
    ∀ (T : Type) (t : BTree T) (rd : RootData T) (root : Nat),
      (Builder.init.run (evTree t)).finishB = some (rd, root) →
      ∀ n r, getA rd.arena n = some r →
      ∃ s e, rd.ranges.get? n = some (s, some e) ∧ s ≤ e ∧
        (r.content = .branch none → e = s) ∧
        (∀ c0, r.content = .branch (some c0) →
          covChain rd.arena.length rd.arena rd.ranges s c0 e = true) := by
  intro T t rd root hfin n r hget
  rw [finish_run_tree t] at hfin
  simp only [Option.some.injEq, Prod.mk.injEq] at hfin
  obtain ⟨hrd, hroot⟩ := hfin
  subst hrd
  have hn : n < sizeT t := by
    have := getA_some_lt hget
    rwa [treeNodes_length] at this
  obtain ⟨u, p', v', nx', c', A', B', R', S', heqA, heqR, hlA, hlR⟩ :=
    subtree_region2_T t none none none 0 0 [] [] [] [] rfl rfl n hn
  simp only [List.nil_append, List.append_nil, Nat.zero_add] at heqA heqR hlA hlR
  have hsz : sizeT t = A'.length + sizeT u + B'.length := by
    have h := congrArg List.length heqA
    simp only [List.length_append, treeNodes_length] at h
    omega
  cases u with
  | leaf ku su =>
    have hgetr : getA (treeNodes t none none none 0) n
        = some { kind := ku, parent := p', prev_sibling := v',
                 next_sibling := nx', content := .leaf su } := by
      rw [getA_region_root (treeNodes (.leaf ku su) p' v' nx' n) A' B' _ heqA
        hlA (by simp [treeNodes_length, sizeT])]
      simp [treeNodes, getA]
    rw [hget] at hgetr
    injection hgetr with hr
    subst hr
    refine ⟨c', c' + su.length, ?_, by omega, ?_, ?_⟩
    · rw [rget_region_head (treeRanges (.leaf ku su) c') heqR hlR
        (by simp [treeRanges_length, sizeT])]
      simp [treeRanges, tlenT]
    · intro hcon
      simp at hcon
    · intro c0 hcon
      simp at hcon
  | branch ku cs =>
    have hgetr : getA (treeNodes t none none none 0) n
        = some { kind := ku, parent := p', prev_sibling := v',
                 next_sibling := nx',
                 content := .branch (headIdx cs (n + 1)) } := by
      rw [getA_region_root (treeNodes (.branch ku cs) p' v' nx' n) A' B' _ heqA
        hlA (by simp only [treeNodes_length]; exact sizeT_pos (BTree.branch ku cs))]
      simp [treeNodes, getA]
    rw [hget] at hgetr
    injection hgetr with hr
    subst hr
    refine ⟨c', c' + tlenF cs, ?_, by omega, ?_, ?_⟩
    · rw [rget_region_head (treeRanges (.branch ku cs) c') heqR hlR
        (by simp only [treeRanges_length]
            have := sizeT_pos (BTree.branch ku cs)
            omega)]
      simp [treeRanges, tlenT]
    · intro hcon
      simp only [Content.branch.injEq] at hcon
      cases cs with
      | nil => simp [tlenF]
      | cons u2 g2 => simp [headIdx] at hcon
    · intro c0 hcon
      simp only [Content.branch.injEq] at hcon
      cases cs with
      | nil => simp [headIdx] at hcon
      | cons u2 g2 =>
        simp only [headIdx, Option.some.injEq] at hcon
        subst hcon
        obtain ⟨hd, hhd⟩ : ∃ hd : Option (NodeRepr T),
            treeNodes (.branch ku (Forest.cons u2 g2)) p' v' nx' n
              = hd :: forestNodes (Forest.cons u2 g2) n none none (n + 1) :=
          ⟨_, rfl⟩
        obtain ⟨rhd, hrhd⟩ : ∃ rhd : Nat × Option Nat,
            treeRanges (.branch ku (Forest.cons u2 g2)) c'
              = rhd :: forestRanges (Forest.cons u2 g2) c' := ⟨_, rfl⟩
        have hcov := cov_region g2 u2 n none (n + 1) c' (A' ++ [hd]) B'
          (R' ++ [rhd]) S'
          (treeNodes t none none none 0) (treeRanges t 0)
          (by rw [heqA, hhd]; simp [List.append_assoc])
          (by rw [heqR, hrhd]; simp [List.append_assoc])
          (by simp [hlA]) (by simp [hlR])
          (treeNodes t (T := T) none none none 0).length
          (by
            rw [treeNodes_length]
            have h1 := countF_le_sizeF (Forest.cons u2 g2)
            have h2 : sizeT (BTree.branch ku (Forest.cons u2 g2))
                = 1 + sizeF (Forest.cons u2 g2) := by simp [sizeT]
            omega)
        exact hcov

/-- C6 witness: the theorem applied to the root branch (node 0) of the
basic.rs tree, every hypothesis evaluated on that concrete input. -/
theorem claim6_range_containment_witness :
    ∃ s e, (treeRanges exTree 0).get? 0 = some (s, some e) ∧ s ≤ e ∧
      (exRootRepr.content = .branch none → e = s) ∧
      (∀ c0, exRootRepr.content = .branch (some c0) →
        covChain (treeNodes exTree none none none 0).length
          (treeNodes exTree none none none 0) (treeRanges exTree 0) s c0 e
          = true) :=
  claim6_range_containment Nat exTree
    { arena := treeNodes exTree none none none 0,
      ranges := treeRanges exTree 0 } 0 (by decide) 0 exRootRepr (by decide)

/-- C9: depth-first walk correctness.  For every node `n` of a tree finished
from a balanced build, the subtree at `n` decodes to an annotated tree
`annT u n`, and the walker started at `n` (for any sufficient fuel —
afterwards the iterator is exhausted, i.e. the sequence is finite) emits
exactly the Euler tour `eulerI (annT u n) 0`: by the defining equations of
`eulerI`, events come in pre/post-order with explicit depths — a childless
node's Enter is immediately followed by its own Leave at the same depth, a
branch's Enter is followed by its first child's Enter at depth one greater,
and a Leave is followed by the next sibling's Enter or the parent's Leave,
terminating when the start node is left (final state `none`).  Moreover
every reachable node (the subtree's preorder ids) is entered exactly once
and left exactly once. -/
theorem claim9_walk_correct :
    ∀ (T : Type) (t : BTree T) (rd : RootData T) (root n : Nat),
      (Builder.init.run (evTree t)).finishB = some (rd, root) →
      n < rd.arena.length →
      ∃ (u : BTree T) (r : NodeRepr T),
        getA rd.arena n = some r ∧
        readT (fuelT u) rd.arena n = some (annT u n) ∧
        (∀ fuel, 2 * sizeT u ≤ fuel →
          walkSteps rd.arena fuel ⟨some (true, n), 0⟩
            = (eulerI (annT u n) 0, ⟨none, 0⟩)) ∧
        (∀ i, i ∈ preIdsT (annT u n) →
          (eulerI (annT u n) 0).countP (fun x => x.2.1 && x.2.2 == i) = 1 ∧
          (eulerI (annT u n) 0).countP (fun x => !x.2.1 && x.2.2 == i) = 1) := by
  intro T t rd root n hfin hn
  rw [finish_run_tree t] at hfin
  simp only [Option.some.injEq, Prod.mk.injEq] at hfin
  obtain ⟨hrd, hroot⟩ := hfin
  subst hrd
  simp only [treeNodes_length] at hn
  obtain ⟨u, p', v', nx', A', B', heq, hlen⟩ :=
    subtree_region_T t none none none 0 [] [] rfl n hn
  simp only [List.nil_append, List.append_nil, Nat.zero_add] at heq hlen
  have hread : readT (fuelT u) (treeNodes t none none none 0) n
      = some (annT u n) :=
    readT_region u (treeNodes t none none none 0) A' B' p' v' nx' n heq hlen
      (fuelT u) le_rfl
  obtain ⟨r, hg0, -, -, -⟩ := treeNodes_get_root u p' v' nx' n
  have hg : getA (treeNodes t none none none 0) n = some r := by
    rw [getA_region_root (treeNodes u p' v' nx' n) A' B' _ heq hlen
      (by simp only [treeNodes_length]; have := sizeT_pos u; omega)]
    exact hg0
  have hwalk := walk_euler_T (annT u n) (treeNodes t none none none 0)
    (fuelT u) n r 0 hg hread
  rw [if_pos rfl] at hwalk
  refine ⟨u, r, hg, hread, ?_, ?_⟩
  · intro fuel hfuel
    have hsplit : fuel = 2 * sizeT u + (fuel - 2 * sizeT u) := by omega
    rw [hsplit, walkSteps_add]
    rw [show 2 * sizeT u = 2 * isizeT (annT u n) from (by rw [isize_ann])]
    rw [hwalk]
    simp [walkSteps_none]
  · intro i hi
    have hnodup : (preIdsT (annT u n)).Nodup := by
      rw [preIds_ann]
      exact List.nodup_range' n (sizeT u)
    constructor
    · rw [euler_enter_count]
      exact List.count_eq_one_of_mem hnodup hi
    · rw [euler_leave_count]
      exact List.count_eq_one_of_mem hnodup hi

/-- C9 witness: the theorem applied to the basic.rs tree at node 1 (the
inner Group branch), its hypotheses evaluated on that concrete input. -/
theorem claim9_walk_correct_witness :
    ∃ (u : BTree Nat) (r : NodeRepr Nat),
      getA (treeNodes exTree none none none 0) 1 = some r ∧
      readT (fuelT u) (treeNodes exTree none none none 0) 1
        = some (annT u 1) ∧
      (∀ fuel, 2 * sizeT u ≤ fuel →
        walkSteps (treeNodes exTree none none none 0) fuel
            ⟨some (true, 1), 0⟩
          = (eulerI (annT u 1) 0, ⟨none, 0⟩)) ∧
      (∀ i, i ∈ preIdsT (annT u 1) →
        (eulerI (annT u 1) 0).countP (fun x => x.2.1 && x.2.2 == i) = 1 ∧
        (eulerI (annT u 1) 0).countP (fun x => !x.2.1 && x.2.2 == i) = 1) :=
  claim9_walk_correct Nat exTree
    { arena := treeNodes exTree none none none 0,
      ranges := treeRanges exTree 0 } 0 1 (by decide) (by decide)

/-- C1: round-trip losslessness.  For every balanced open/leaf/close event
sequence (the serialization of any abstract tree), `finish` succeeds and the
Display text of the resulting tree — walking the arena and concatenating
every leaf text at each Enter event — equals the exact concatenation of
every `text` argument passed to `leaf`, in call order; in particular the
nested Group tree of examples/basic.rs displays exactly "1+2*3-4". -/
theorem claim1_round_trip :
    (∀ (T : Type) (t : BTree T) (rd : RootData T) (root fuel : Nat),
      (Builder.init.run (evTree t)).finishB = some (rd, root) →
      2 * sizeT t ≤ fuel →
      dispText rd.arena (walkSteps rd.arena fuel ⟨some (true, root), 0⟩).1
        = evTexts (evTree t)) ∧
    (∃ (rd : RootData Nat) (root : Nat),
      (Builder.init.run exEvents).finishB = some (rd, root) ∧
      dispText rd.arena (walkSteps rd.arena 30 ⟨some (true, root), 0⟩).1
        = "1+2*3-4") := by
  constructor
  · intro T t rd root fuel hfin hfuel
    rw [finish_run_tree t] at hfin
    simp only [Option.some.injEq, Prod.mk.injEq] at hfin
    obtain ⟨hrd, hroot⟩ := hfin
    subst hrd
    subst hroot
    have hread := readT_region t (treeNodes t none none none 0) [] []
      none none none 0 (by simp) rfl (fuelT t) le_rfl
    obtain ⟨r, hg, -, -, -⟩ := treeNodes_get_root t none none none 0
    have hwalk := walk_euler_T (annT t 0) (treeNodes t none none none 0)
      (fuelT t) 0 r 0 hg hread
    rw [if_pos rfl] at hwalk
    have hsplit : fuel = 2 * sizeT t + (fuel - 2 * sizeT t) := by omega
    rw [hsplit, walkSteps_add]
    rw [show 2 * sizeT t = 2 * isizeT (annT t 0) from (by rw [isize_ann])]
    rw [hwalk]
    simp only [walkSteps_none]
    rw [dispText_append]
    rw [disp_euler_T (annT t 0) _ (fuelT t) 0 0 hread, strip_ann,
      evTexts_evTree]
    simp [dispText, String.append_empty]
  · refine ⟨{ arena := treeNodes exTree none none none 0,
              ranges := treeRanges exTree 0 }, 0, by decide, by decide⟩

/-- C1 witness: the theorem applied to the concrete basic.rs tree with
fuel 30 (its hypotheses evaluated and discharged on that input). -/
theorem claim1_round_trip_witness :
    ∃ rd root, (Builder.init.run (evTree exTree)).finishB = some (rd, root) ∧
      dispText rd.arena (walkSteps rd.arena 30 ⟨some (true, root), 0⟩).1
        = evTexts (evTree exTree) :=
  ⟨{ arena := treeNodes exTree none none none 0,
     ranges := treeRanges exTree 0 }, 0, by decide,
   claim1_round_trip.1 Nat exTree
     { arena := treeNodes exTree none none none 0,
       ranges := treeRanges exTree 0 } 0 30 (by decide) (by decide)⟩

/-- C10: node-handle equality is exactly equality of the arena indices, and
the hash is a function of the index alone, for handles over arbitrary root
capabilities — in particular two handles with the same index over two
entirely different root values compare equal. -/
theorem claim10_eq_hash_by_index {T R : Type} :
    (∀ a b : NodeH T R, nodeEq a b = true ↔ a.node = b.node) ∧
    (∀ (h : Nat → Nat) (a b : NodeH T R), a.node = b.node →
      nodeHash h a = nodeHash h b) ∧
    (∀ (r₁ r₂ : R) (n : Nat),
      nodeEq (⟨r₁, n⟩ : NodeH T R) (⟨r₂, n⟩ : NodeH T R) = true) := by
  refine ⟨fun a b => ?_, fun h a b hab => ?_, fun r₁ r₂ n => ?_⟩
  · simp [nodeEq]
  · simp [nodeHash, hab]
  · simp [nodeEq]

/-- C10 witness: two handles into different roots (over distinct root
values) with equal indices compare equal and hash equal. -/
theorem claim10_eq_hash_by_index_witness :
    nodeEq (⟨true, 3⟩ : NodeH Nat Bool) (⟨false, 3⟩ : NodeH Nat Bool) = true ∧
    nodeHash Nat.succ (⟨true, 3⟩ : NodeH Nat Bool)
      = nodeHash Nat.succ (⟨false, 3⟩ : NodeH Nat Bool) :=
  ⟨(claim10_eq_hash_by_index.1 _ _).mpr rfl,
   claim10_eq_hash_by_index.2.1 _ _ _ rfl⟩

/-- C2 (code bug): in `remArena`, node 2 is the child of node 1 and node 3
(the leaf) is node 2's child, hence a grandchild-level descendant of node 1;
`remove` on node 1 tombstones node 1 and its direct child 2, but leaves the
descendant slot 3 occupied — the source's removal loop sweeps only one
level of the sibling chain and never recurses into children's children,
contradicting the claimed full-subtree tombstoning. -/
theorem claim2_remove_leaves_grandchild_slot :
    (getA remArena 2).map (fun r => r.parent) = some (some 1) ∧
    (getA remArena 3).map (fun r => r.parent) = some (some 2) ∧
    getA (removeN remArena 1) 1 = none ∧
    getA (removeN remArena 1) 2 = none ∧
    (getA (removeN remArena 1) 3).isSome = true := by
  decide

/-- C3 (code bug): in `sibArena` the branch 0 has children 1 then 2;
removing node 1 makes node 2 the first child, but node 2's `prev_sibling`
still points at the tombstoned slot 1 — `remove` never rewires the next
sibling's back-pointer, so sibling-chain integrity (a first child has no
`prev_sibling`; `prev_sibling` of a surviving node names its immediate
predecessor) is not preserved by `remove`. -/
theorem claim3_remove_dangles_prev_sibling :
    getA (removeN sibArena 1) 1 = none ∧
    (getA (removeN sibArena 1) 0).map (fun r => fcOf r.content)
      = some (some 2) ∧
    (getA (removeN sibArena 1) 2).map (fun r => r.prev_sibling)
      = some (some 1) := by
  decide

/-- C5 counterexample: after `open` then `leaf` with no matching `close`,
the builder state still has the branch open (`parent = some 0`), yet both
`finish` and `finish_mut` succeed — contradicting the claim that they fail
on any builder state that is not a single fully-closed top-level node
(including a still-open, unclosed branch). -/
theorem claim5_counterexample_finish_succeeds_on_open_branch :
    (Builder.init.run [Ev.start 0, Ev.leaf 1 "x"]).parent = some 0 ∧
    ((Builder.init.run [Ev.start 0, Ev.leaf 1 "x"]).finishB).isSome = true ∧
    ((Builder.init.run [Ev.start 0, Ev.leaf 1 "x"]).finishMutB).isSome = true := by
  decide

section InsertLemmas

theorem schain_nil_cur {a : Arena T} {p : Nat} {prv cur : Option Nat}
    (h : SChain a p prv cur []) : cur = none := by
  cases h; rfl

theorem schain_cons_cur {a : Arena T} {p y : Nat} {prv cur : Option Nat}
    {l : List Nat} (h : SChain a p prv cur (y :: l)) : cur = some y := by
  cases h; rfl

theorem schain_mem_lt {a : Arena T} {p : Nat} {prv cur : Option Nat}
    {l : List Nat} (h : SChain a p prv cur l) : ∀ c ∈ l, c < a.length := by
  induction h with
  | nil prv => intro c hc; cases hc
  | cons prv c r l hget hpar hprv htail ih =>
    intro d hd
    rcases List.mem_cons.mp hd with h1 | h2
    · exact h1 ▸ getA_some_lt hget
    · exact ih d h2

theorem schain_stable {a a' : Arena T} {p : Nat} {prv cur : Option Nat}
    {l : List Nat} (h : SChain a p prv cur l)
    (hs : ∀ c ∈ l, getA a' c = getA a c) : SChain a' p prv cur l := by
  induction h with
  | nil prv => exact .nil prv
  | cons prv c r l hget hpar hprv htail ih =>
    exact .cons prv c r l (by rw [hs c (by simp)]; exact hget) hpar hprv
      (ih (fun d hd => hs d (by simp [hd])))

/-- Structural inversion of a well-linked sibling chain at an arbitrary
position: the node there exists, has the right parent, its `next_sibling` is
the following element (if any), its `prev_sibling` the preceding one (or the
chain-head predecessor), and the suffix is again a chain. -/
theorem schain_elem {a : Arena T} {p : Nat} :
    ∀ (u : List Nat) {prv cur : Option Nat} (c : Nat) (v : List Nat),
      SChain a p prv cur (u ++ c :: v) →
      ∃ r, getA a c = some r ∧ r.parent = some p ∧
        r.next_sibling = v.head? ∧
        r.prev_sibling =
          (match u.getLast? with | none => prv | some w => some w) ∧
        SChain a p (some c) r.next_sibling v := by
  intro u
  induction u with
  | nil =>
    intro prv cur c v h
    cases h with
    | cons prv c r l hget hpar hprv htail =>
      refine ⟨r, hget, hpar, ?_, by simpa using hprv, htail⟩
      cases v with
      | nil => simpa using schain_nil_cur htail
      | cons y ys => simpa using schain_cons_cur htail
  | cons d u2 ih =>
    intro prv cur c v h
    cases h with
    | cons prv d r l hget hpar hprv htail =>
      obtain ⟨rc, h1, h2, h3, h4, h5⟩ := ih c v htail
      refine ⟨rc, h1, h2, h3, ?_, h5⟩
      cases u2 with
      | nil => simpa using h4
      | cons e u3 => rw [List.getLast?_cons_cons]; exact h4

/-- Chain splice for `insert_before`: once the arena edits are known
pointwise (the new node at `id` linked before `x`, `x` re-pointed back to
`id`, the old predecessor of `x` re-pointed forward to `id`, everything else
untouched), the chain `l1 ++ x :: l2` becomes `l1 ++ id :: x :: l2`. -/
theorem splice_before_aux {a a' : Arena T} {p x id : Nat} {rx : NodeRepr T}
    {l2 : List Nat} {kind : T} {text : Option String}
    (hrx : getA a x = some rx)
    (Hid : getA a' id =
      some (NodeRepr.mk kind (some p) rx.prev_sibling (some x)
        (insContent text)))
    (Hx : getA a' x = some { rx with prev_sibling := some id })
    (Hl2 : ∀ c ∈ l2, getA a' c = getA a c) :
    ∀ (l1 : List Nat) (prv cur : Option Nat),
      SChain a p prv cur (l1 ++ x :: l2) → x ∉ l1 →
      (∀ c r, c ∈ l1 → getA a c = some r → r.next_sibling ≠ some x →
        getA a' c = getA a c) →
      (∀ c r, c ∈ l1 → getA a c = some r → r.next_sibling = some x →
        getA a' c = some { r with next_sibling := some id }) →
      SChain a' p prv (if l1.isEmpty then some id else cur)
        (l1 ++ id :: x :: l2) := by
  intro l1
  induction l1 with
  | nil =>
    intro prv cur h hx Ho Hw
    cases h with
    | cons prv c r l hget hpar hprv htail =>
      rw [hrx] at hget
      injection hget with hr
      subst hr
      simp only [List.isEmpty_nil, if_true, List.nil_append]
      refine .cons prv id _ _ Hid rfl hprv ?_
      refine .cons (some id) x _ _ Hx hpar rfl ?_
      exact schain_stable htail Hl2
  | cons c l1tl ih =>
    intro prv cur h hx Ho Hw
    cases h with
    | cons prv c r l hget hpar hprv htail =>
      simp only [List.isEmpty_cons, if_neg, List.cons_append, Bool.false_eq_true,
        not_false_eq_true]
      cases l1tl with
      | nil =>
        have hnx : r.next_sibling = some x := schain_cons_cur htail
        have hc2 : getA a' c = some { r with next_sibling := some id } :=
          Hw c r (by simp) hget hnx
        refine .cons prv c _ _ hc2 hpar hprv ?_
        have hrec := ih (some c) r.next_sibling htail (by simp)
          (fun d rd hd _ _ => absurd hd (by simp))
          (fun d rd hd _ _ => absurd hd (by simp))
        simpa using hrec
      | cons e l1tl2 =>
        have hne : r.next_sibling = some e := schain_cons_cur htail
        have hnex : r.next_sibling ≠ some x := by
          rw [hne]
          intro hcon
          injection hcon with he
          exact hx (by simp [he])
        have hc2 : getA a' c = getA a c := Ho c r (by simp) hget hnex
        refine .cons prv c r _ (by rw [hc2]; exact hget) hpar hprv ?_
        have hrec := ih (some c) r.next_sibling htail
          (fun hmem => hx (by simp [hmem]))
          (fun d rd hd hg hn => Ho d rd (by simp [hd]) hg hn)
          (fun d rd hd hg hn => Hw d rd (by simp [hd]) hg hn)
        simpa [hne] using hrec

/-- Chain splice for `insert_after`: with the new node at `id` linked after
`x`, `x` re-pointed forward to `id`, and the suffix chain already
re-established in the new arena, the chain `l1 ++ x :: l2` becomes
`l1 ++ x :: id :: l2`. -/
theorem splice_after_aux {a a' : Arena T} {p x id : Nat} {rx : NodeRepr T}
    {l2 : List Nat} {kind : T} {text : Option String}
    (hrx : getA a x = some rx)
    (Hx : getA a' x = some { rx with next_sibling := some id })
    (Hid : getA a' id =
      some (NodeRepr.mk kind (some p) (some x) rx.next_sibling
        (insContent text)))
    (Htail : SChain a' p (some id) rx.next_sibling l2) :
    ∀ (l1 : List Nat) (prv cur : Option Nat),
      SChain a p prv cur (l1 ++ x :: l2) →
      (∀ c ∈ l1, getA a' c = getA a c) →
      SChain a' p prv cur (l1 ++ x :: id :: l2) := by
  intro l1
  induction l1 with
  | nil =>
    intro prv cur h H1
    cases h with
    | cons prv c r l hget hpar hprv htail =>
      rw [hrx] at hget
      injection hget with hr
      subst hr
      simp only [List.nil_append]
      refine .cons prv x _ _ Hx hpar hprv ?_
      exact .cons (some x) id _ _ Hid rfl rfl Htail
  | cons c l1tl ih =>
    intro prv cur h H1
    cases h with
    | cons prv c r l hget hpar hprv htail =>
      refine .cons prv c r _ (by rw [H1 c (by simp)]; exact hget) hpar hprv ?_
      exact ih (some c) r.next_sibling htail (fun d hd => H1 d (by simp [hd]))

/-- Full correctness of `insert_before` on a node `x` of a well-linked
children chain of `p`: the operation returns the fresh index, the new node
has `x`'s parent and the requested content, the parent's first-child pointer
names the head of the spliced chain, and the chain becomes
`l1 ++ new :: x :: l2`, preserving the relative order of all old
siblings. -/
theorem insert_before_spec (a : Arena T) (p x : Nat) (pr : NodeRepr T)
    (l1 l2 : List Nat) (kind : T) (text : Option String)
    (hpr : getA a p = some pr)
    (hfc : pr.content = .branch (l1 ++ x :: l2).head?)
    (hch : SChain a p none ((l1 ++ x :: l2).head?) (l1 ++ x :: l2))
    (hnd : (l1 ++ x :: l2).Nodup)
    (hp : p ∉ l1 ++ x :: l2) :
    (insert_before a x kind text).2 = a.length ∧
    (∃ nr, getA (insert_before a x kind text).1 a.length = some nr ∧
      nr.parent = some p ∧ nr.content = insContent text) ∧
    (∃ pr2, getA (insert_before a x kind text).1 p = some pr2 ∧
      pr2.content = .branch (l1 ++ a.length :: x :: l2).head?) ∧
    SChain (insert_before a x kind text).1 p none
      ((l1 ++ a.length :: x :: l2).head?) (l1 ++ a.length :: x :: l2) := by
  obtain ⟨rx, hrx, hrxp, hrxn, hrxv, hxtail⟩ := schain_elem l1 x l2 hch
  have hprev : rx.prev_sibling = l1.getLast? := by
    rw [hrxv]; cases l1.getLast? <;> rfl
  have hlt : ∀ c ∈ l1 ++ x :: l2, c < a.length := schain_mem_lt hch
  have hxlt : x < a.length := hlt x (by simp)
  have hplt : p < a.length := getA_some_lt hpr
  have hpx : p ≠ x := fun h => hp (by simp [h])
  have hnd1 : x ∉ l1 := by
    rcases List.nodup_append.mp hnd with ⟨_, _, hdisj⟩
    exact fun hmem => hdisj hmem (by simp)
  have hxl2 : x ∉ l2 := by
    rcases List.nodup_append.mp hnd with ⟨_, h2, _⟩
    exact (List.nodup_cons.mp h2).1
  have hdisj : ∀ c ∈ l1, c ∉ x :: l2 := by
    rcases List.nodup_append.mp hnd with ⟨_, _, hd⟩
    exact fun c hc hmem => hd hc hmem
  rcases List.eq_nil_or_concat l1 with hl1 | ⟨l1h, w, hl1⟩
  · subst hl1
    simp only [List.nil_append, List.head?_cons] at hfc hch hlt ⊢
    have hprev0 : rx.prev_sibling = none := by simpa using hprev
    have eA : (insert_before a x kind text).1 =
        amod (amod (a ++ [some (NodeRepr.mk kind (some p) none (some x)
            (insContent text))]) p
          (fun r => if r.content = Content.branch (some x) then
            { r with content := Content.branch (some a.length) } else r))
          x (fun r => { r with prev_sibling := some a.length }) := by
      simp only [insert_before, hrx, hprev0, hrxp]
    have e2 : (insert_before a x kind text).2 = a.length := by
      simp only [insert_before, hrx, hprev0, hrxp]
    have hidfact : getA (insert_before a x kind text).1 a.length =
        some (NodeRepr.mk kind (some p) none (some x) (insContent text)) := by
      rw [eA, getA_amod_ne _ _ (by omega), getA_amod_ne _ _ (by omega),
        getA_append_base a _ rfl]
      rfl
    have hidfact2 : getA (insert_before a x kind text).1 a.length =
        some (NodeRepr.mk kind (some p) rx.prev_sibling (some x)
          (insContent text)) := by
      rw [hprev0]; exact hidfact
    have hxfact : getA (insert_before a x kind text).1 x =
        some { rx with prev_sibling := some a.length } := by
      rw [eA, getA_amod_self, getA_amod_ne _ _ (Ne.symm hpx),
        getA_append_left _ hxlt, hrx]
      rfl
    have hpfact : getA (insert_before a x kind text).1 p =
        some { pr with content := Content.branch (some a.length) } := by
      rw [eA, getA_amod_ne _ _ hpx, getA_amod_self,
        getA_append_left _ hplt, hpr]
      simp [hfc]
    have hl2fact : ∀ c ∈ l2,
        getA (insert_before a x kind text).1 c = getA a c := by
      intro c hc
      have hcx : c ≠ x := fun h => hxl2 (h ▸ hc)
      have hcp : c ≠ p := fun h => hp (List.mem_cons_of_mem _ (h ▸ hc))
      rw [eA, getA_amod_ne _ _ hcx, getA_amod_ne _ _ hcp,
        getA_append_left _ (hlt c (by simp [hc]))]
    have hchain := splice_before_aux hrx hidfact2 hxfact hl2fact [] none
      (some x) hch (by simp)
      (fun d rd hd _ _ => absurd hd (by simp))
      (fun d rd hd _ _ => absurd hd (by simp))
    refine ⟨e2, ⟨_, hidfact, rfl, rfl⟩, ⟨_, hpfact, by simp⟩, ?_⟩
    simpa using hchain
  · rw [List.concat_eq_append] at hl1
    have hwl1 : w ∈ l1 := by simp [hl1]
    have hwlt : w < a.length := hlt w (List.mem_append_left _ hwl1)
    have hwx : w ≠ x := fun h => hnd1 (h ▸ hwl1)
    have hwp : w ≠ p := fun h => hp (List.mem_append_left _ (h ▸ hwl1))
    have hprevw : rx.prev_sibling = some w := by
      rw [hprev, hl1, List.getLast?_concat]
    have hchW := hch
    rw [show l1 ++ x :: l2 = l1h ++ w :: (x :: l2) by simp [hl1]] at hchW
    obtain ⟨wr, hgw, _, hwn, _, _⟩ := schain_elem l1h w (x :: l2) hchW
    have hwnx : wr.next_sibling = some x := by simpa using hwn
    have hne0 : l1 ≠ [] := by rw [hl1]; simp
    obtain ⟨hd1, tl1, hcons⟩ := List.exists_cons_of_ne_nil hne0
    have hhd1l1 : hd1 ∈ l1 := by simp [hcons]
    have hhd1x : hd1 ≠ x := fun h => hnd1 (h ▸ hhd1l1)
    have hhead : (l1 ++ x :: l2).head? = some hd1 := by rw [hcons]; rfl
    have eA : (insert_before a x kind text).1 =
        amod (amod (amod (a ++ [some (NodeRepr.mk kind (some p) (some w)
            (some x) (insContent text))]) w
          (fun r => { r with next_sibling := some a.length })) p
          (fun r => if r.content = Content.branch (some x) then
            { r with content := Content.branch (some a.length) } else r))
          x (fun r => { r with prev_sibling := some a.length }) := by
      simp only [insert_before, hrx, hprevw, hrxp]
    have e2 : (insert_before a x kind text).2 = a.length := by
      simp only [insert_before, hrx, hprevw, hrxp]
    have hidfact : getA (insert_before a x kind text).1 a.length =
        some (NodeRepr.mk kind (some p) (some w) (some x)
          (insContent text)) := by
      rw [eA, getA_amod_ne _ _ (by omega), getA_amod_ne _ _ (by omega),
        getA_amod_ne _ _ (by omega), getA_append_base a _ rfl]
      rfl
    have hidfact2 : getA (insert_before a x kind text).1 a.length =
        some (NodeRepr.mk kind (some p) rx.prev_sibling (some x)
          (insContent text)) := by
      rw [hprevw]; exact hidfact
    have hxfact : getA (insert_before a x kind text).1 x =
        some { rx with prev_sibling := some a.length } := by
      rw [eA, getA_amod_self, getA_amod_ne _ _ (Ne.symm hpx),
        getA_amod_ne _ _ (Ne.symm hwx), getA_append_left _ hxlt, hrx]
      rfl
    have hwfact : getA (insert_before a x kind text).1 w =
        some { wr with next_sibling := some a.length } := by
      rw [eA, getA_amod_ne _ _ hwx, getA_amod_ne _ _ hwp, getA_amod_self,
        getA_append_left _ hwlt, hgw]
      rfl
    have hpfact : getA (insert_before a x kind text).1 p = some pr := by
      rw [eA, getA_amod_ne _ _ hpx, getA_amod_self,
        getA_amod_ne _ _ (Ne.symm hwp), getA_append_left _ hplt, hpr]
      simp [hfc, hhead, hhd1x]
    have hl2fact : ∀ c ∈ l2,
        getA (insert_before a x kind text).1 c = getA a c := by
      intro c hc
      have hcx : c ≠ x := fun h => hxl2 (h ▸ hc)
      have hcp : c ≠ p := fun h => hp (List.mem_append_right _
        (List.mem_cons_of_mem _ (h ▸ hc)))
      have hcw : c ≠ w := fun h =>
        hdisj w hwl1 (List.mem_cons_of_mem _ (h ▸ hc))
      rw [eA, getA_amod_ne _ _ hcx, getA_amod_ne _ _ hcp,
        getA_amod_ne _ _ hcw,
        getA_append_left _ (hlt c (List.mem_append_right _
          (List.mem_cons_of_mem _ hc)))]
    have Ho : ∀ c r, c ∈ l1 → getA a c = some r →
        r.next_sibling ≠ some x →
        getA (insert_before a x kind text).1 c = getA a c := by
      intro c r hc hg hnx
      have hcx : c ≠ x := fun h => hnd1 (h ▸ hc)
      have hcp : c ≠ p := fun h => hp (List.mem_append_left _ (h ▸ hc))
      have hcw : c ≠ w := by
        intro h
        subst h
        rw [hgw] at hg
        injection hg with hg2
        exact hnx (hg2 ▸ hwnx)
      rw [eA, getA_amod_ne _ _ hcx, getA_amod_ne _ _ hcp,
        getA_amod_ne _ _ hcw,
        getA_append_left _ (hlt c (List.mem_append_left _ hc))]
    have Hw : ∀ c r, c ∈ l1 → getA a c = some r →
        r.next_sibling = some x →
        getA (insert_before a x kind text).1 c =
          some { r with next_sibling := some a.length } := by
      intro c r hc hg hnx
      obtain ⟨u, v, huv⟩ := List.append_of_mem hc
      have hchC := hch
      rw [show l1 ++ x :: l2 = u ++ c :: (v ++ x :: l2) by simp [huv]] at hchC
      obtain ⟨rc, hgc, _, hcn, _, _⟩ := schain_elem u c (v ++ x :: l2) hchC
      rw [hg] at hgc
      injection hgc with hrc
      subst hrc
      cases v with
      | nil =>
        have hcweq : c = w := by
          have h1 : l1.getLast? = some w := by
            rw [hl1]; exact List.getLast?_concat _
          have h2 : l1.getLast? = some c := by
            rw [huv]; exact List.getLast?_concat _
          rw [h1] at h2
          injection h2 with h3
          exact h3.symm
        subst hcweq
        rw [hgw] at hg
        injection hg with h4
        rw [← h4]
        exact hwfact
      | cons y v2 =>
        exfalso
        have h5 : r.next_sibling = some y := by simpa using hcn
        rw [h5] at hnx
        injection hnx with h6
        exact hnd1 (h6 ▸ (show y ∈ l1 by simp [huv]))
    have hchain := splice_before_aux hrx hidfact2 hxfact hl2fact l1 none
      ((l1 ++ x :: l2).head?) hch hnd1 Ho Hw
    have hempty : l1.isEmpty = false := by rw [hcons]; rfl
    have hhead2 : (l1 ++ a.length :: x :: l2).head? = some hd1 := by
      rw [hcons]; rfl
    refine ⟨e2, ⟨_, hidfact, rfl, rfl⟩,
      ⟨pr, hpfact, by rw [hfc, hhead, hhead2]⟩, ?_⟩
    rw [hhead2]
    simpa [hempty, hhead] using hchain

/-- Full correctness of `insert_after` on a node `x` of a well-linked
children chain of `p`: the operation returns the fresh index, the new node
has `x`'s parent and the requested content, the parent's first-child pointer
is untouched, and the chain becomes `l1 ++ x :: new :: l2`, preserving the
relative order of all old siblings. -/
theorem insert_after_spec (a : Arena T) (p x : Nat) (pr : NodeRepr T)
    (l1 l2 : List Nat) (kind : T) (text : Option String)
    (hpr : getA a p = some pr)
    (hfc : pr.content = .branch (l1 ++ x :: l2).head?)
    (hch : SChain a p none ((l1 ++ x :: l2).head?) (l1 ++ x :: l2))
    (hnd : (l1 ++ x :: l2).Nodup)
    (hp : p ∉ l1 ++ x :: l2) :
    (insert_after a x kind text).2 = a.length ∧
    (∃ nr, getA (insert_after a x kind text).1 a.length = some nr ∧
      nr.parent = some p ∧ nr.content = insContent text) ∧
    (∃ pr2, getA (insert_after a x kind text).1 p = some pr2 ∧
      pr2.content = .branch (l1 ++ x :: a.length :: l2).head?) ∧
    SChain (insert_after a x kind text).1 p none
      ((l1 ++ x :: a.length :: l2).head?) (l1 ++ x :: a.length :: l2) := by
  obtain ⟨rx, hrx, hrxp, hrxn, hrxv, hxtail⟩ := schain_elem l1 x l2 hch
  have hlt : ∀ c ∈ l1 ++ x :: l2, c < a.length := schain_mem_lt hch
  have hxlt : x < a.length := hlt x (by simp)
  have hplt : p < a.length := getA_some_lt hpr
  have hpx : p ≠ x := fun h => hp (by simp [h])
  have hnd1 : x ∉ l1 := by
    rcases List.nodup_append.mp hnd with ⟨_, _, hdisj⟩
    exact fun hmem => hdisj hmem (by simp)
  have hxl2 : x ∉ l2 := by
    rcases List.nodup_append.mp hnd with ⟨_, h2, _⟩
    exact (List.nodup_cons.mp h2).1
  have hdisj : ∀ c ∈ l1, c ∉ x :: l2 := by
    rcases List.nodup_append.mp hnd with ⟨_, _, hd⟩
    exact fun c hc hmem => hd hc hmem
  have hheads : (l1 ++ x :: a.length :: l2).head? = (l1 ++ x :: l2).head? := by
    cases l1 <;> rfl
  cases l2 with
  | nil =>
    have hnext : rx.next_sibling = none := by simpa using hrxn
    have eA : (insert_after a x kind text).1 =
        amod (a ++ [some (NodeRepr.mk kind (some p) (some x) none
          (insContent text))]) x
          (fun r => { r with next_sibling := some a.length }) := by
      simp only [insert_after, hrx, hnext, hrxp]
    have e2 : (insert_after a x kind text).2 = a.length := by
      simp only [insert_after, hrx, hnext, hrxp]
    have hidfact : getA (insert_after a x kind text).1 a.length =
        some (NodeRepr.mk kind (some p) (some x) none (insContent text)) := by
      rw [eA, getA_amod_ne _ _ (by omega), getA_append_base a _ rfl]
      rfl
    have hidfact2 : getA (insert_after a x kind text).1 a.length =
        some (NodeRepr.mk kind (some p) (some x) rx.next_sibling
          (insContent text)) := by
      rw [hnext]; exact hidfact
    have hxfact : getA (insert_after a x kind text).1 x =
        some { rx with next_sibling := some a.length } := by
      rw [eA, getA_amod_self, getA_append_left _ hxlt, hrx]
      rfl
    have Htail : SChain (insert_after a x kind text).1 p (some a.length)
        rx.next_sibling [] := by
      rw [hnext]; exact .nil _
    have Hl1 : ∀ c ∈ l1,
        getA (insert_after a x kind text).1 c = getA a c := by
      intro c hc
      have hcx : c ≠ x := fun h => hnd1 (h ▸ hc)
      rw [eA, getA_amod_ne _ _ hcx,
        getA_append_left _ (hlt c (List.mem_append_left _ hc))]
    have hpfact : getA (insert_after a x kind text).1 p = some pr := by
      rw [eA, getA_amod_ne _ _ hpx, getA_append_left _ hplt]
      exact hpr
    have hchain := splice_after_aux hrx hxfact hidfact2 Htail l1 none
      ((l1 ++ x :: []).head?) hch Hl1
    refine ⟨e2, ⟨_, hidfact, rfl, rfl⟩,
      ⟨pr, hpfact, by rw [hfc, hheads]⟩, ?_⟩
    rw [hheads]
    exact hchain
  | cons y l2tl =>
    have hnext : rx.next_sibling = some y := by simpa using hrxn
    have hylt : y < a.length := hlt y (by simp)
    have hyx : y ≠ x := fun h => hxl2 (by simp [h])
    have hyp2 : y ≠ p := fun h => hp (by simp [h])
    have hyl2tl : y ∉ l2tl := by
      rcases List.nodup_append.mp hnd with ⟨_, h2, _⟩
      exact (List.nodup_cons.mp (List.nodup_cons.mp h2).2).1
    obtain ⟨ry, hgy, hryp, hryn, hryv, hytail⟩ :=
      schain_elem [] y l2tl hxtail
    have hryprev : ry.prev_sibling = some x := by simpa using hryv
    have eA : (insert_after a x kind text).1 =
        amod (amod (a ++ [some (NodeRepr.mk kind (some p) (some x) (some y)
            (insContent text))]) y
          (fun r => { r with prev_sibling := some a.length })) x
          (fun r => { r with next_sibling := some a.length }) := by
      simp only [insert_after, hrx, hnext, hrxp]
    have e2 : (insert_after a x kind text).2 = a.length := by
      simp only [insert_after, hrx, hnext, hrxp]
    have hidfact : getA (insert_after a x kind text).1 a.length =
        some (NodeRepr.mk kind (some p) (some x) (some y)
          (insContent text)) := by
      rw [eA, getA_amod_ne _ _ (by omega), getA_amod_ne _ _ (by omega),
        getA_append_base a _ rfl]
      rfl
    have hidfact2 : getA (insert_after a x kind text).1 a.length =
        some (NodeRepr.mk kind (some p) (some x) rx.next_sibling
          (insContent text)) := by
      rw [hnext]; exact hidfact
    have hxfact : getA (insert_after a x kind text).1 x =
        some { rx with next_sibling := some a.length } := by
      rw [eA, getA_amod_self, getA_amod_ne _ _ (Ne.symm hyx),
        getA_append_left _ hxlt, hrx]
      rfl
    have hyfact : getA (insert_after a x kind text).1 y =
        some { ry with prev_sibling := some a.length } := by
      rw [eA, getA_amod_ne _ _ hyx, getA_amod_self,
        getA_append_left _ hylt, hgy]
      rfl
    have Htail : SChain (insert_after a x kind text).1 p (some a.length)
        rx.next_sibling (y :: l2tl) := by
      rw [hnext]
      refine .cons (some a.length) y _ _ hyfact (by simpa using hryp) rfl ?_
      refine schain_stable hytail ?_
      intro c hc
      have hcx : c ≠ x := fun h => hxl2 (List.mem_cons_of_mem _ (h ▸ hc))
      have hcy : c ≠ y := fun h => hyl2tl (h ▸ hc)
      rw [eA, getA_amod_ne _ _ hcx, getA_amod_ne _ _ hcy,
        getA_append_left _ (hlt c (by simp [hc]))]
    have Hl1 : ∀ c ∈ l1,
        getA (insert_after a x kind text).1 c = getA a c := by
      intro c hc
      have hcx : c ≠ x := fun h => hnd1 (h ▸ hc)
      have hcy : c ≠ y := fun h => hdisj c hc (by simp [h])
      rw [eA, getA_amod_ne _ _ hcx, getA_amod_ne _ _ hcy,
        getA_append_left _ (hlt c (List.mem_append_left _ hc))]
    have hpfact : getA (insert_after a x kind text).1 p = some pr := by
      rw [eA, getA_amod_ne _ _ hpx, getA_amod_ne _ _ (Ne.symm hyp2),
        getA_append_left _ hplt]
      exact hpr
    have hchain := splice_after_aux hrx hxfact hidfact2 Htail l1 none
      ((l1 ++ x :: y :: l2tl).head?) hch Hl1
    refine ⟨e2, ⟨_, hidfact, rfl, rfl⟩,
      ⟨pr, hpfact, by rw [hfc, hheads]⟩, ?_⟩
    rw [hheads]
    exact hchain

end InsertLemmas

/-- C8: insertion correctness.  For every node `x` sitting in a well-linked
children chain `l1 ++ x :: l2` of a parent `p` in a mutable tree's arena
(the parent's first-child pointer names the chain head, the chain is
well-linked and duplicate-free, and the parent is not its own child),
`insert_before` (resp. `insert_after`) returns the fresh arena index; the
new node's `parent` equals `x`'s parent `p`; its content is a leaf holding
the given text when `text` is present and an empty branch when it is
absent; and a subsequent children-iteration of `p` (first-child pointer
followed by `next_sibling` links) enumerates `l1 ++ new :: x :: l2`
(resp. `l1 ++ x :: new :: l2`): the new node appears immediately before
(resp. after) `x` and every other sibling keeps its relative order. -/
theorem claim8_insert_correct (T : Type) (a : Arena T) (p x : Nat)
    (pr : NodeRepr T) (l1 l2 : List Nat) (kind : T) (text : Option String)
    (hpr : getA a p = some pr)
    (hfc : pr.content = .branch (l1 ++ x :: l2).head?)
    (hch : SChain a p none ((l1 ++ x :: l2).head?) (l1 ++ x :: l2))
    (hnd : (l1 ++ x :: l2).Nodup)
    (hp : p ∉ l1 ++ x :: l2) :
    ((insert_before a x kind text).2 = a.length ∧
      (∃ nr, getA (insert_before a x kind text).1 a.length = some nr ∧
        nr.parent = some p ∧ nr.content = insContent text) ∧
      (∃ pr2, getA (insert_before a x kind text).1 p = some pr2 ∧
        pr2.content = .branch (l1 ++ a.length :: x :: l2).head?) ∧
      SChain (insert_before a x kind text).1 p none
        ((l1 ++ a.length :: x :: l2).head?) (l1 ++ a.length :: x :: l2)) ∧
    ((insert_after a x kind text).2 = a.length ∧
      (∃ nr, getA (insert_after a x kind text).1 a.length = some nr ∧
        nr.parent = some p ∧ nr.content = insContent text) ∧
      (∃ pr2, getA (insert_after a x kind text).1 p = some pr2 ∧
        pr2.content = .branch (l1 ++ x :: a.length :: l2).head?) ∧
      SChain (insert_after a x kind text).1 p none
        ((l1 ++ x :: a.length :: l2).head?) (l1 ++ x :: a.length :: l2)) :=
  ⟨insert_before_spec a p x pr l1 l2 kind text hpr hfc hch hnd hp,
   insert_after_spec a p x pr l1 l2 kind text hpr hfc hch hnd hp⟩

/-- C8 witness: both insertions applied to node 2 (leaf "b") of the built
two-leaf tree Group[leaf "a", leaf "b"], inserting a leaf "c". -/
theorem claim8_insert_correct_witness :
    ((insert_before sibArena 2 2 (some "c")).2 = sibArena.length ∧
      (∃ nr, getA (insert_before sibArena 2 2 (some "c")).1 sibArena.length
          = some nr ∧ nr.parent = some 0 ∧
          nr.content = insContent (some "c")) ∧
      (∃ pr2, getA (insert_before sibArena 2 2 (some "c")).1 0 = some pr2 ∧
        pr2.content = .branch ([1] ++ sibArena.length :: 2 :: []).head?) ∧
      SChain (insert_before sibArena 2 2 (some "c")).1 0 none
        (([1] ++ sibArena.length :: 2 :: []).head?)
        ([1] ++ sibArena.length :: 2 :: [])) ∧
    ((insert_after sibArena 2 2 (some "c")).2 = sibArena.length ∧
      (∃ nr, getA (insert_after sibArena 2 2 (some "c")).1 sibArena.length
          = some nr ∧ nr.parent = some 0 ∧
          nr.content = insContent (some "c")) ∧
      (∃ pr2, getA (insert_after sibArena 2 2 (some "c")).1 0 = some pr2 ∧
        pr2.content = .branch ([1] ++ 2 :: sibArena.length :: []).head?) ∧
      SChain (insert_after sibArena 2 2 (some "c")).1 0 none
        (([1] ++ 2 :: sibArena.length :: []).head?)
        ([1] ++ 2 :: sibArena.length :: [])) :=
  claim8_insert_correct Nat sibArena 0 2
    (NodeRepr.mk 0 none none none (Content.branch (some 1))) [1] [] 2
    (some "c") (by decide) (by decide)
    (SChain.cons none 1 (NodeRepr.mk 1 (some 0) none (some 2)
        (Content.leaf "a")) [2] (by decide) rfl rfl
      (SChain.cons (some 1) 2 (NodeRepr.mk 1 (some 0) (some 1) none
          (Content.leaf "b")) [] (by decide) rfl rfl
        (SChain.nil (some 2))))
    (by decide) (by decide)

section CheckpointLemmas

theorem stripF_appIF (x y : IForest T) :
    stripF (appIF x y) = apF (stripF x) (stripF y) := by
  cases x with
  | inil => simp [appIF, stripF, apF]
  | icons t f => simp [appIF, stripF, apF, stripF_appIF f y]

theorem lastRootO_lt (f : Forest T) (v : Option Nat) (base : Nat)
    (hv : oLt v base) : oLt (lastRootO f v base) (base + sizeF f) := by
  cases f with
  | nil => exact fun x hx => lt_of_lt_of_le (hv x hx) (by simp [sizeF])
  | cons t g =>
    have h1 : oLt (some base) (base + sizeT t) := by
      intro x hx
      cases hx
      have := sizeT_pos t
      omega
    have h2 := lastRootO_lt g (some base) (base + sizeT t) h1
    refine fun x hx => lt_of_lt_of_le (h2 x ?_) (by simp [sizeF]; omega)
    simpa [lastRootO] using hx

theorem treeNodes_set_prev (t : BTree T) (p v nx w : Option Nat) (base : Nat) :
    amod (treeNodes t p v nx base) 0
        (fun r => { r with prev_sibling := w })
      = treeNodes t p w nx base := by
  cases t <;> simp [treeNodes, amod]

theorem walkKinds_append (a : Arena T) (l₁ l₂ : List (Nat × Bool × Nat)) :
    walkKinds a (l₁ ++ l₂) = walkKinds a l₁ ++ walkKinds a l₂ :=
  List.map_append _ _ _

mutual

theorem kind_euler_T (it : ITree T) (a : Arena T) (fuel n k : Nat)
    (hread : readT fuel a n = some it) :
    walkKinds a (eulerI it k) = kindEulerT (stripT it) k := by
  obtain ⟨m, r, hm, hg, hcase⟩ := readT_inv fuel a n it hread
  rcases hcase with ⟨s, hcon, hit⟩ | ⟨fc, cs, hcon, hreadF, hit⟩
  · subst hit
    simp [eulerI, walkKinds, hg, stripT, kindEulerT]
  · subst hit
    have hcs := kind_euler_F cs a m n fc (k + 1) hreadF
    simp only [walkKinds] at hcs
    simp [eulerI, walkKinds, hg, stripT, kindEulerT, hcs]

theorem kind_euler_F (g : IForest T) (a : Arena T) (fuel p : Nat)
    (oc : Option Nat) (k : Nat) (hread : readF fuel a p oc = some g) :
    walkKinds a (eulerIF g k) = kindEulerF (stripF g) k := by
  cases g with
  | inil => simp [eulerIF, walkKinds, stripF, kindEulerF]
  | icons t' g' =>
    cases oc with
    | none => cases readF_none_inv fuel a p _ hread
    | some c =>
      obtain ⟨m, rc, t0, g0, hm, hgc, hpar, hreadT, hreadF', heq⟩ :=
        readF_some_inv fuel a p c _ hread
      injection heq with h1 h2
      subst h1
      subst h2
      have ht := kind_euler_T t' a m c k hreadT
      have hg2 := kind_euler_F g' a m p rc.next_sibling k hreadF'
      simp only [walkKinds] at ht hg2
      simp [eulerIF, walkKinds, stripF, kindEulerF, ht, hg2]

end

theorem amod_region (X L Y : Arena T) {base : Nat} (hX : X.length = base)
    (hL : 0 < L.length) (f : NodeRepr T → NodeRepr T) :
    amod (X ++ L ++ Y) base f = X ++ amod L 0 f ++ Y := by
  rw [List.append_assoc, amod_append_right X f (le_of_eq hX)]
  have h0 : base - X.length = 0 := by omega
  rw [h0, amod_append_left Y f hL, List.append_assoc]

theorem reparent_none (fuel : Nat) (a : Arena T) (w : Nat) :
    reparent fuel a none w = a := by
  cases fuel <;> rfl

/-- The last root of a non-empty sibling region: where it sits
(`lastRootO`), its record (parent is the region's parent, `next_sibling` is
the region's trailing link), and the effect of re-pointing its
`next_sibling`. -/
theorem forest_last_props (f : Forest T) (t0 : BTree T) (pid : Nat)
    (prv nxt : Option Nat) (base : Nat) (X Y : Arena T)
    (hX : X.length = base) :
    ∃ lr r, lastRootO (.cons t0 f) none base = some lr ∧
      getA (X ++ forestNodes (.cons t0 f) pid prv nxt base ++ Y) lr
        = some r ∧
      r.parent = some pid ∧ r.next_sibling = nxt ∧
      ∀ j, amod (X ++ forestNodes (.cons t0 f) pid prv nxt base ++ Y) lr
          (fun q => { q with next_sibling := some j })
        = X ++ forestNodes (.cons t0 f) pid prv (some j) base ++ Y := by
  cases f with
  | nil =>
    obtain ⟨r, hg, hrpar, hrprev, hrnext⟩ :=
      treeNodes_get_root t0 (some pid) prv nxt base
    refine ⟨base, r, by simp [lastRootO], ?_, hrpar, hrnext, ?_⟩
    · rw [getA_region_root (treeNodes t0 (some pid) prv nxt base) X Y _
        (by simp [forestNodes]) hX
        (by simp only [treeNodes_length]; exact sizeT_pos t0)]
      exact hg
    · intro j
      have h1 : X ++ forestNodes (.cons t0 .nil) pid prv nxt base ++ Y
          = X ++ treeNodes t0 (some pid) prv nxt base ++ Y := by
        simp [forestNodes]
      rw [h1, amod_region X _ Y hX
        (by simp only [treeNodes_length]; exact sizeT_pos t0) _,
        treeNodes_set_next]
      simp [forestNodes]
  | cons u g =>
    obtain ⟨lr, r, hlast, hget, hpar, hnext, hamod⟩ :=
      forest_last_props g u pid (some base) nxt (base + sizeT t0)
        (X ++ treeNodes t0 (some pid) prv (some (base + sizeT t0)) base) Y
        (by simp [hX, treeNodes_length])
    have hre : X ++ forestNodes (.cons t0 (.cons u g)) pid prv nxt base ++ Y
        = (X ++ treeNodes t0 (some pid) prv (some (base + sizeT t0)) base)
          ++ forestNodes (.cons u g) pid (some base) nxt (base + sizeT t0)
          ++ Y := by
      simp [forestNodes, List.append_assoc]
    refine ⟨lr, r, ?_, ?_, hpar, hnext, ?_⟩
    · simpa [lastRootO] using hlast
    · rw [hre]; exact hget
    · intro j
      rw [hre, hamod j]
      simp [forestNodes, List.append_assoc]

/-- The re-parenting loop of `start_internal_at` walked over a complete
sibling region whose trailing link is `none`: every root's `parent` becomes
`w` and nothing else changes. -/
theorem reparent_region (f : Forest T) (pid w : Nat) (prv : Option Nat)
    (base : Nat) (X Y : Arena T) (hX : X.length = base)
    (fuel : Nat) (hfuel : countF f ≤ fuel) :
    reparent fuel (X ++ forestNodes f pid prv none base ++ Y)
        (headIdx f base) w
      = X ++ forestNodes f w prv none base ++ Y := by
  cases f with
  | nil => cases fuel <;> simp [forestNodes, headIdx, reparent]
  | cons t g =>
    cases fuel with
    | zero => simp [countF] at hfuel
    | succ m =>
      cases g with
      | nil =>
        obtain ⟨r, hg0, hrpar, hrprev, hrnext⟩ :=
          treeNodes_get_root t (some pid) prv none base
        have hre : ∀ pp : Nat,
            X ++ forestNodes (.cons t .nil) pp prv none base ++ Y
              = X ++ treeNodes t (some pp) prv none base ++ Y := by
          intro pp; simp [forestNodes]
        have hget : getA
            (X ++ forestNodes (.cons t .nil) pid prv none base ++ Y) base
            = some r := by
          rw [hre pid, getA_region_root (treeNodes t (some pid) prv none base)
            X Y _ rfl hX (by simp only [treeNodes_length]; exact sizeT_pos t)]
          exact hg0
        have hamod : amod
            (X ++ forestNodes (.cons t .nil) pid prv none base ++ Y) base
            (fun q => { q with parent := some w })
            = X ++ forestNodes (.cons t (T := T) .nil) w prv none base
              ++ Y := by
          rw [hre pid, amod_region X _ Y hX
            (by simp only [treeNodes_length]; exact sizeT_pos t) _,
            treeNodes_set_parent, ← hre w]
        simp only [headIdx, reparent, hget, hamod, hrnext]
        cases m <;> simp [reparent]
      | cons u g2 =>
        obtain ⟨r, hg0, hrpar, hrprev, hrnext⟩ :=
          treeNodes_get_root t (some pid) prv (some (base + sizeT t)) base
        have hre1 : X ++ forestNodes (.cons t (.cons u g2)) pid prv none base
              ++ Y
            = X ++ treeNodes t (some pid) prv (some (base + sizeT t)) base
              ++ (forestNodes (.cons u g2) pid (some base) none
                (base + sizeT t) ++ Y) := by
          simp [forestNodes, List.append_assoc]
        have hget : getA
            (X ++ forestNodes (.cons t (.cons u g2)) pid prv none base ++ Y)
            base = some r := by
          rw [hre1, getA_region_root
            (treeNodes t (some pid) prv (some (base + sizeT t)) base) X _ _
            rfl hX (by simp only [treeNodes_length]; exact sizeT_pos t)]
          exact hg0
        have hamod : amod
            (X ++ forestNodes (.cons t (.cons u g2)) pid prv none base ++ Y)
            base (fun q => { q with parent := some w })
            = (X ++ treeNodes t (some w) prv (some (base + sizeT t)) base)
              ++ forestNodes (.cons u g2) pid (some base) none
                (base + sizeT t) ++ Y := by
          rw [hre1, amod_region X _ _ hX
            (by simp only [treeNodes_length]; exact sizeT_pos t) _,
            treeNodes_set_parent]
          simp [List.append_assoc]
        have hrec := reparent_region (.cons u g2) pid w (some base)
          (base + sizeT t)
          (X ++ treeNodes t (some w) prv (some (base + sizeT t)) base) Y
          (by simp [hX, treeNodes_length]) m
          (by simp only [countF] at hfuel ⊢; omega)
        simp only [headIdx, reparent, hget, hamod, hrnext]
        rw [show headIdx (Forest.cons (T := T) u g2) (base + sizeT t)
          = some (base + sizeT t) from rfl] at hrec
        rw [hrec]
        simp [forestNodes, List.append_assoc]

/-- Re-pointing the first root's `prev_sibling` of a non-empty sibling
region. -/
theorem forest_set_first_prev (u : BTree T) (uf : Forest T) (pid : Nat)
    (v w nxt : Option Nat) (base : Nat) (X Y : Arena T)
    (hX : X.length = base) :
    amod (X ++ forestNodes (.cons u uf) pid v nxt base ++ Y) base
        (fun r => { r with prev_sibling := w })
      = X ++ forestNodes (.cons u uf) pid w nxt base ++ Y := by
  cases uf with
  | nil =>
    have hre : ∀ vv : Option Nat,
        X ++ forestNodes (.cons u .nil) pid vv nxt base ++ Y
          = X ++ treeNodes u (some pid) vv nxt base ++ Y := by
      intro vv; simp [forestNodes]
    rw [hre v, amod_region X _ Y hX
      (by simp only [treeNodes_length]; exact sizeT_pos u) _,
      treeNodes_set_prev, ← hre w]
  | cons u2 uf2 =>
    have hre : ∀ vv : Option Nat,
        X ++ forestNodes (.cons u (.cons u2 uf2)) pid vv nxt base ++ Y
          = X ++ treeNodes u (some pid) vv (some (base + sizeT u)) base
            ++ (forestNodes (.cons u2 uf2) pid (some base) nxt
              (base + sizeT u) ++ Y) := by
      intro vv; simp [forestNodes, List.append_assoc]
    rw [hre v, amod_region X _ _ hX
      (by simp only [treeNodes_length]; exact sizeT_pos u) _,
      treeNodes_set_prev, ← hre w]

theorem finish_internal_arena (b : Builder T) :
    b.finish_internal.arena = b.arena := rfl

theorem finish_internal_child (b : Builder T) :
    b.finish_internal.child = b.parent := rfl

theorem finish_internal_parent (b : Builder T) :
    b.finish_internal.parent
      = (b.parent.bind (getA b.arena)).bind (fun r => r.parent) := rfl

theorem finishB_root (b : Builder T) (c : Nat) (r : NodeRepr T)
    (hc : b.child = some c) (hg : getA b.arena c = some r)
    (hprev : r.prev_sibling = none) :
    b.finishB = some ({ arena := b.arena, ranges := b.ranges }, c) := by
  simp [Builder.finishB, hc, hg, hprev]

/-- The checkpoint pipeline with no prior siblings: the final builder holds
the root (first child: the wrapper), the suffix roots re-parented under the
wrapper at index `1 + sizeF suffix`, and the wrapper node whose first child
is the first suffix root; the current node is the root. -/
theorem pipeB_nil (K0 K : T) (suffix : Forest T) :
    ∃ R cur par0,
      pipeB K0 K .nil suffix =
        { arena := [some (rootRec K0 (some (1 + sizeF suffix)))]
            ++ forestNodes suffix (1 + sizeF suffix) none none 1
            ++ [some (wrapRec K none (headIdx suffix 1))],
          parent := par0, child := some 0, ranges := R, cursor := cur } := by
  have hb1 : Builder.init.run (Ev.start K0 :: evForest (.nil (T := T)))
      = { arena := [some (rootRec K0 none)], parent := some 0, child := none,
          ranges := [(0, none)], cursor := 0 } := rfl
  have hb2 :
      ({ arena := [some (rootRec K0 none)], parent := some 0, child := none,
         ranges := [(0, none)], cursor := 0 : Builder T }).run
        (evForest suffix)
      = { arena := [some (rootRec K0 (headIdx suffix 1))]
            ++ forestNodes suffix 0 none none 1,
          parent := some 0, child := lastRootO suffix none 1,
          ranges := [(0, none)] ++ forestRanges suffix 0,
          cursor := 0 + tlenF suffix } := by
    have h := buildF suffix
      { arena := [some (rootRec K0 none)], parent := some 0, child := none,
        ranges := [(0, none)], cursor := 0 }
      0 rfl (by simp) oLt_none (by simp)
    cases suffix with
    | nil => simpa [patchOld, headIdx, rootRec] using h
    | cons u g =>
      simpa [patchOld, amod, branchOr, Option.or, headIdx, rootRec] using h
  have hpipe : pipeB K0 K .nil suffix =
      (({ arena := [some (rootRec K0 (headIdx suffix 1))]
             ++ forestNodes suffix 0 none none 1,
           parent := some 0, child := lastRootO suffix none 1,
           ranges := [(0, none)] ++ forestRanges suffix 0,
           cursor := 0 + tlenF suffix
           : Builder T }.start_internal_at
        { cursor := 0, child := none } K).finish_internal).finish_internal := by
    simp only [pipeB]
    rw [hb1, hb2]
    rfl
  have e3 :
      ({ arena := [some (rootRec K0 (headIdx suffix 1))]
           ++ forestNodes suffix 0 none none 1,
         parent := some 0, child := lastRootO suffix none 1,
         ranges := [(0, none)] ++ forestRanges suffix 0,
         cursor := 0 + tlenF suffix
         : Builder T }).start_internal_at { cursor := 0, child := none } K
      = { arena := [some (rootRec K0 (some (1 + sizeF suffix)))]
            ++ forestNodes suffix (1 + sizeF suffix) none none 1
            ++ [some (wrapRec K none (headIdx suffix 1))],
          parent := some (1 + sizeF suffix), child := lastRootO suffix none 1,
          ranges := ([(0, none)] ++ forestRanges suffix 0) ++ [(0, none)],
          cursor := 0 + tlenF suffix } := by
    simp only [Builder.start_internal_at]
    have hold : ((some 0).bind fun a =>
        getA ([some (rootRec K0 (headIdx suffix 1))]
          ++ forestNodes suffix 0 none none 1) a).bind
        (fun a => fcOf a.content) = headIdx suffix 1 := rfl
    rw [hold]
    have hwrap : ({ kind := K, parent := some 0, prev_sibling := none, next_sibling := none, content := Content.branch (headIdx suffix 1) } : NodeRepr T) = wrapRec K none (headIdx suffix 1) := rfl
    rw [hwrap]
    have hlen : ([some (rootRec K0 (headIdx suffix 1))]
        ++ forestNodes suffix 0 none none 1).length = 1 + sizeF suffix := by
      simp [forestNodes_length]
      omega
    rw [hlen]
    have hrep := reparent_region suffix 0 (1 + sizeF suffix) none 1
      [some (rootRec K0 (headIdx suffix 1))]
      [some (wrapRec K none (headIdx suffix 1))] rfl
      (([some (rootRec K0 (headIdx suffix 1))]
        ++ forestNodes suffix 0 none none 1
        ++ [some (wrapRec K none (headIdx suffix 1))]).length)
      (by
        simp only [List.length_append, forestNodes_length]
        have := countF_le_sizeF suffix
        omega)
    rw [hrep]
    simp [amod, rootRec, wrapRec, List.singleton_append]
  rw [e3] at hpipe
  have hN : getA ([some (rootRec K0 (some (1 + sizeF suffix)))]
        ++ forestNodes suffix (1 + sizeF suffix) none none 1
        ++ [some (wrapRec K none (headIdx suffix 1))]) (1 + sizeF suffix)
      = some (wrapRec K none (headIdx suffix 1)) := by
    rw [getA_append_base _ _ (by simp [forestNodes_length]; omega)]
    rfl
  have harena : (pipeB K0 K .nil suffix).arena
      = [some (rootRec K0 (some (1 + sizeF suffix)))]
        ++ forestNodes suffix (1 + sizeF suffix) none none 1
        ++ [some (wrapRec K none (headIdx suffix 1))] := by
    rw [hpipe, finish_internal_arena, finish_internal_arena]
  have hchild : (pipeB K0 K .nil suffix).child = some 0 := by
    rw [hpipe, finish_internal_child, finish_internal_parent]
    dsimp only
    simp only [Option.some_bind]
    rw [hN]
    rfl
  refine ⟨(pipeB K0 K .nil suffix).ranges, (pipeB K0 K .nil suffix).cursor,
    (pipeB K0 K .nil suffix).parent, ?_⟩
  rw [← harena, ← hchild]

/-- The checkpoint pipeline with prior siblings `p0 :: pf`: the final
builder holds the root (first child: the first prior root), the prior
region whose last root's `next_sibling` is the wrapper, the suffix roots
re-parented under the wrapper, and the wrapper itself, previous sibling the
last prior root, first child the first suffix root; the current node is the
root. -/
theorem pipeB_cons (K0 K : T) (p0 : BTree T) (pf suffix : Forest T) :
    ∃ prev R cur par0,
      lastRootO (.cons p0 pf) none 1 = some prev ∧
      pipeB K0 K (.cons p0 pf) suffix =
        { arena := [some (rootRec K0 (some 1))]
            ++ forestNodes (.cons p0 pf) 0 none
              (some (1 + sizeF (.cons p0 pf) + sizeF suffix)) 1
            ++ forestNodes suffix (1 + sizeF (.cons p0 pf) + sizeF suffix)
              none none (1 + sizeF (.cons p0 pf))
            ++ [some (wrapRec K (some prev)
              (headIdx suffix (1 + sizeF (.cons p0 pf))))],
          parent := par0, child := some 0, ranges := R, cursor := cur } := by
  obtain ⟨prev, rdum, hlast, _, _, _, _⟩ :=
    forest_last_props pf p0 0 none none 1 [some (rootRec K0 (some 1))] []
      rfl
  have hb1 : Builder.init.run (Ev.start K0 :: evForest (.cons p0 pf))
      = { arena := [some (rootRec K0 (some 1))]
            ++ forestNodes (.cons p0 pf) 0 none none 1,
          parent := some 0, child := some prev,
          ranges := [(0, none)] ++ forestRanges (.cons p0 pf) 0,
          cursor := 0 + tlenF (.cons p0 pf) } := by
    have h := buildF (.cons p0 pf)
      { arena := [some (rootRec K0 none)], parent := some 0, child := none,
        ranges := [(0, none)], cursor := 0 }
      0 rfl (by simp) oLt_none (by simp)
    rw [show Builder.init.run (Ev.start K0 :: evForest (.cons p0 pf))
      = ({ arena := [some (rootRec K0 none)], parent := some 0,
           child := none, ranges := [(0, none)], cursor := 0
           : Builder T }).run (evForest (.cons p0 pf)) from rfl]
    rw [h]
    simp [patchOld, amod, branchOr, rootRec, Option.or, hlast]
  have hq : ([some (rootRec K0 (some 1))]
      ++ forestNodes (.cons p0 pf) 0 none none 1).length
      = 1 + sizeF (.cons p0 pf) := by
    simp [forestNodes_length]
    omega
  have hcb : oLt (some prev) ([some (rootRec K0 (some 1))]
      ++ forestNodes (.cons p0 pf) 0 none none 1).length := by
    rw [hq]
    intro x hx
    cases hx
    exact lastRootO_lt (.cons p0 pf) none 1 oLt_none prev hlast
  have hb2 :
      ({ arena := [some (rootRec K0 (some 1))]
           ++ forestNodes (.cons p0 pf) 0 none none 1,
         parent := some 0, child := some prev,
         ranges := [(0, none)] ++ forestRanges (.cons p0 pf) 0,
         cursor := 0 + tlenF (.cons p0 pf) : Builder T }).run
        (evForest suffix)
      = { arena := [some (rootRec K0 (some 1))]
            ++ forestNodes (.cons p0 pf) 0 none
              (headIdx suffix (1 + sizeF (.cons p0 pf))) 1
            ++ forestNodes suffix 0 (some prev) none
              (1 + sizeF (.cons p0 pf)),
          parent := some 0,
          child := lastRootO suffix (some prev) (1 + sizeF (.cons p0 pf)),
          ranges := ([(0, none)] ++ forestRanges (.cons p0 pf) 0)
            ++ forestRanges suffix (0 + tlenF (.cons p0 pf)),
          cursor := 0 + tlenF (.cons p0 pf) + tlenF suffix } := by
    have h := buildF suffix
      { arena := [some (rootRec K0 (some 1))]
          ++ forestNodes (.cons p0 pf) 0 none none 1,
        parent := some 0, child := some prev,
        ranges := [(0, none)] ++ forestRanges (.cons p0 pf) 0,
        cursor := 0 + tlenF (.cons p0 pf) }
      0 rfl (by simp) hcb
      (by simp [forestNodes_length, forestRanges_length])
    rw [h]
    rw [show List.length ([some (rootRec K0 (some 1))]
      ++ forestNodes (.cons p0 pf) 0 none none 1) = 1 + sizeF (.cons p0 pf)
      from hq]
    cases suffix with
    | nil => simp [patchOld, headIdx]
    | cons u uf =>
      obtain ⟨prev2, rp2, hlast2, _, _, _, hamod2⟩ :=
        forest_last_props pf p0 0 none none 1 [some (rootRec K0 (some 1))]
          [] rfl
      rw [hlast] at hlast2
      injection hlast2 with hpe
      subst hpe
      simp only [patchOld]
      have hfix : amod ([some (rootRec K0 (some 1))]
          ++ forestNodes (.cons p0 pf) 0 none none 1) 0
          (fun r => { r with
            content := branchOr r.content (1 + sizeF (.cons p0 pf)) })
          = [some (rootRec K0 (some 1))]
            ++ forestNodes (.cons p0 pf) 0 none none 1 := by
        simp [amod, List.singleton_append, rootRec, branchOr, Option.or]
      rw [hfix]
      have h2 := hamod2 (1 + sizeF (.cons p0 pf))
      simp only [List.append_nil] at h2
      rw [h2]
      simp [headIdx]
  have hpipe : pipeB K0 K (.cons p0 pf) suffix =
      ((({ arena := [some (rootRec K0 (some 1))]
             ++ forestNodes (.cons p0 pf) 0 none
               (headIdx suffix (1 + sizeF (.cons p0 pf))) 1
             ++ forestNodes suffix 0 (some prev) none
               (1 + sizeF (.cons p0 pf)),
           parent := some 0,
           child := lastRootO suffix (some prev) (1 + sizeF (.cons p0 pf)),
           ranges := ([(0, none)] ++ forestRanges (.cons p0 pf) 0)
             ++ forestRanges suffix (0 + tlenF (.cons p0 pf)),
           cursor := 0 + tlenF (.cons p0 pf) + tlenF suffix
           : Builder T }).start_internal_at
        { cursor := 0 + tlenF (.cons p0 pf), child := some prev }
        K).finish_internal).finish_internal := by
    simp only [pipeB]
    rw [hb1, hb2]
    rfl
  obtain ⟨prev3, rp3, hlast3, hg3, hpar3, hnext3, hamod3⟩ :=
    forest_last_props pf p0 0 none
      (headIdx suffix (1 + sizeF (.cons p0 pf))) 1
      [some (rootRec K0 (some 1))]
      (forestNodes suffix 0 (some prev) none (1 + sizeF (.cons p0 pf))) rfl
  rw [hlast] at hlast3
  injection hlast3 with hpe3
  subst hpe3
  have e3 :
      ({ arena := [some (rootRec K0 (some 1))]
           ++ forestNodes (.cons p0 pf) 0 none
             (headIdx suffix (1 + sizeF (.cons p0 pf))) 1
           ++ forestNodes suffix 0 (some prev) none
             (1 + sizeF (.cons p0 pf)),
         parent := some 0,
         child := lastRootO suffix (some prev) (1 + sizeF (.cons p0 pf)),
         ranges := ([(0, none)] ++ forestRanges (.cons p0 pf) 0)
           ++ forestRanges suffix (0 + tlenF (.cons p0 pf)),
         cursor := 0 + tlenF (.cons p0 pf) + tlenF suffix
         : Builder T }).start_internal_at
        { cursor := 0 + tlenF (.cons p0 pf), child := some prev } K
      = { arena := [some (rootRec K0 (some 1))]
            ++ forestNodes (.cons p0 pf) 0 none
              (some (1 + sizeF (.cons p0 pf) + sizeF suffix)) 1
            ++ forestNodes suffix (1 + sizeF (.cons p0 pf) + sizeF suffix)
              none none (1 + sizeF (.cons p0 pf))
            ++ [some (wrapRec K (some prev)
              (headIdx suffix (1 + sizeF (.cons p0 pf))))],
          parent := some (1 + sizeF (.cons p0 pf) + sizeF suffix),
          child := lastRootO suffix (some prev) (1 + sizeF (.cons p0 pf)),
          ranges := (([(0, none)] ++ forestRanges (.cons p0 pf) 0)
            ++ forestRanges suffix (0 + tlenF (.cons p0 pf)))
            ++ [(0 + tlenF (.cons p0 pf), none)],
          cursor := 0 + tlenF (.cons p0 pf) + tlenF suffix } := by
    simp only [Builder.start_internal_at]
    have hold : (getA ([some (rootRec K0 (some 1))]
        ++ forestNodes (.cons p0 pf) 0 none
          (headIdx suffix (1 + sizeF (.cons p0 pf))) 1
        ++ forestNodes suffix 0 (some prev) none
          (1 + sizeF (.cons p0 pf))) prev).bind
        (fun r => r.next_sibling)
        = headIdx suffix (1 + sizeF (.cons p0 pf)) := by
      rw [hg3]
      simp only [Option.some_bind]
      exact hnext3
    have hparw : (getA ([some (rootRec K0 (some 1))]
        ++ forestNodes (.cons p0 pf) 0 none
          (headIdx suffix (1 + sizeF (.cons p0 pf))) 1
        ++ forestNodes suffix 0 (some prev) none
          (1 + sizeF (.cons p0 pf))) prev).bind
        (fun r => r.parent) = some 0 := by
      rw [hg3]
      simp only [Option.some_bind]
      exact hpar3
    rw [hold, hparw]
    have hlenB2 : ([some (rootRec K0 (some 1))]
        ++ forestNodes (.cons p0 pf) 0 none
          (headIdx suffix (1 + sizeF (.cons p0 pf))) 1
        ++ forestNodes suffix 0 (some prev) none
          (1 + sizeF (.cons p0 pf))).length
        = 1 + sizeF (.cons p0 pf) + sizeF suffix := by
      simp [forestNodes_length]
      omega
    rw [hlenB2]
    cases suffix with
    | nil =>
      have hfn : ∀ (pid : Nat) (v nx : Option Nat) (b : Nat),
          forestNodes (Forest.nil (T := T)) pid v nx b = [] :=
        fun _ _ _ _ => rfl
      simp only [headIdx, hfn, List.append_nil, reparent_none]
      obtain ⟨prev4, rp4, hlast4, _, _, _, hamod4⟩ :=
        forest_last_props pf p0 0 none none 1 [some (rootRec K0 (some 1))]
          [some (wrapRec K (some prev) none)] rfl
      rw [hlast] at hlast4
      injection hlast4 with hpe4
      subst hpe4
      rw [show ({ kind := K, parent := some 0, prev_sibling := some prev, next_sibling := none, content := Content.branch (none : Option Nat) } : NodeRepr T) = wrapRec K (some prev) none from rfl]
      rw [hamod4 (1 + sizeF (.cons p0 pf) + sizeF (Forest.nil (T := T)))]
    | cons u uf =>
      simp only [headIdx]
      rw [show ({ kind := K, parent := some 0, prev_sibling := some prev, next_sibling := none, content := Content.branch (some (1 + sizeF (.cons p0 pf))) } : NodeRepr T) = wrapRec K (some prev) (some (1 + sizeF (.cons p0 pf))) from rfl]
      have hX2 : ([some (rootRec K0 (some 1))]
          ++ forestNodes (.cons p0 pf) 0 none
            (some (1 + sizeF (.cons p0 pf))) 1).length
          = 1 + sizeF (.cons p0 pf) := by
        simp [forestNodes_length]
        omega
      have hsfp := forest_set_first_prev u uf 0 (some prev) none none
        (1 + sizeF (.cons p0 pf))
        ([some (rootRec K0 (some 1))]
          ++ forestNodes (.cons p0 pf) 0 none
            (some (1 + sizeF (.cons p0 pf))) 1)
        [some (wrapRec K (some prev) (some (1 + sizeF (.cons p0 pf))))] hX2
      rw [hsfp]
      have hrep := reparent_region (.cons u uf) 0
        (1 + sizeF (.cons p0 pf) + sizeF (.cons u uf)) none
        (1 + sizeF (.cons p0 pf))
        ([some (rootRec K0 (some 1))]
          ++ forestNodes (.cons p0 pf) 0 none
            (some (1 + sizeF (.cons p0 pf))) 1)
        [some (wrapRec K (some prev) (some (1 + sizeF (.cons p0 pf))))] hX2
        (([some (rootRec K0 (some 1))]
          ++ forestNodes (.cons p0 pf) 0 none
            (some (1 + sizeF (.cons p0 pf))) 1
          ++ forestNodes (.cons u uf) 0 none none
            (1 + sizeF (.cons p0 pf)))
          ++ [some (wrapRec K (some prev)
            (some (1 + sizeF (.cons p0 pf))))]).length
        (by
          simp only [List.length_append, forestNodes_length,
            List.length_cons, List.length_nil]
          have := countF_le_sizeF (Forest.cons u uf)
          omega)
      simp only [headIdx] at hrep
      rw [hrep]
      obtain ⟨prev5, rp5, hlast5, _, _, _, hamod5⟩ :=
        forest_last_props pf p0 0 none (some (1 + sizeF (.cons p0 pf))) 1
          [some (rootRec K0 (some 1))]
          (forestNodes (.cons u uf)
            (1 + sizeF (.cons p0 pf) + sizeF (.cons u uf)) none none
            (1 + sizeF (.cons p0 pf))
          ++ [some (wrapRec K (some prev)
            (some (1 + sizeF (.cons p0 pf))))]) rfl
      rw [hlast] at hlast5
      injection hlast5 with hpe5
      subst hpe5
      rw [List.append_assoc
        ([some (rootRec K0 (some 1))]
          ++ forestNodes (.cons p0 pf) 0 none
            (some (1 + sizeF (.cons p0 pf))) 1)
        (forestNodes (.cons u uf)
          (1 + sizeF (.cons p0 pf) + sizeF (.cons u uf)) none none
          (1 + sizeF (.cons p0 pf)))
        [some (wrapRec K (some prev) (some (1 + sizeF (.cons p0 pf))))]]
      rw [hamod5 (1 + sizeF (.cons p0 pf) + sizeF (.cons u uf))]
      simp [List.append_assoc]
  rw [e3] at hpipe
  have hN : getA ([some (rootRec K0 (some 1))]
        ++ forestNodes (.cons p0 pf) 0 none
          (some (1 + sizeF (.cons p0 pf) + sizeF suffix)) 1
        ++ forestNodes suffix (1 + sizeF (.cons p0 pf) + sizeF suffix)
          none none (1 + sizeF (.cons p0 pf))
        ++ [some (wrapRec K (some prev)
          (headIdx suffix (1 + sizeF (.cons p0 pf))))])
        (1 + sizeF (.cons p0 pf) + sizeF suffix)
      = some (wrapRec K (some prev)
        (headIdx suffix (1 + sizeF (.cons p0 pf)))) := by
    rw [getA_append_base _ _ (by simp [forestNodes_length]; omega)]
    rfl
  have harena : (pipeB K0 K (.cons p0 pf) suffix).arena
      = [some (rootRec K0 (some 1))]
        ++ forestNodes (.cons p0 pf) 0 none
          (some (1 + sizeF (.cons p0 pf) + sizeF suffix)) 1
        ++ forestNodes suffix (1 + sizeF (.cons p0 pf) + sizeF suffix)
          none none (1 + sizeF (.cons p0 pf))
        ++ [some (wrapRec K (some prev)
          (headIdx suffix (1 + sizeF (.cons p0 pf))))] := by
    rw [hpipe, finish_internal_arena, finish_internal_arena]
  have hchild : (pipeB K0 K (.cons p0 pf) suffix).child = some 0 := by
    rw [hpipe, finish_internal_child, finish_internal_parent]
    dsimp only
    simp only [Option.some_bind]
    rw [hN]
    rfl
  refine ⟨prev, (pipeB K0 K (.cons p0 pf) suffix).ranges,
    (pipeB K0 K (.cons p0 pf) suffix).cursor,
    (pipeB K0 K (.cons p0 pf) suffix).parent, hlast, ?_⟩
  rw [← harena, ← hchild]

/-- `readF_region` with the chain head phrased via `headIdx` and a trailing
link of `none`. -/
theorem readF_region_head (f : Forest T) (a A B : Arena T) (pid : Nat)
    (v : Option Nat) (base : Nat)
    (ha : a = A ++ forestNodes f pid v none base ++ B) (hA : A.length = base)
    (g : IForest T) (fuel0 : Nat) (hg0 : readF fuel0 a pid none = some g) :
    readF (fuelF f + fuel0) a pid (headIdx f base)
      = some (appIF (annF f base) g) := by
  have h := readF_region f a A B pid v none base ha hA g fuel0 hg0
  cases f with
  | nil => exact h
  | cons u g2 => exact h

/-- The checkpoint pipeline finishes successfully with the root at index 0,
and the finished arena decodes to: root `K0` whose children are the prior
roots followed by one wrapper branch `K` holding exactly the suffix roots.
-/
theorem pipeB_decode (K0 K : T) (prior suffix : Forest T) :
    ∃ rd rB fuel,
      (pipeB K0 K prior suffix).finishB = some (rd, 0) ∧
      getA rd.arena 0 = some rB ∧
      readT fuel rd.arena 0
        = some (.ibranch 0 K0 (appIF (annF prior 1)
            (.icons (.ibranch (1 + sizeF prior + sizeF suffix) K
              (annF suffix (1 + sizeF prior))) .inil))) := by
  cases prior with
  | nil =>
    obtain ⟨R, cur, par0, hp⟩ := pipeB_nil K0 K suffix
    have hfin : (pipeB K0 K .nil suffix).finishB
        = some ({ arena := [some (rootRec K0 (some (1 + sizeF suffix)))]
                    ++ forestNodes suffix (1 + sizeF suffix) none none 1
                    ++ [some (wrapRec K none (headIdx suffix 1))],
                  ranges := R }, 0) := by
      rw [hp]
      exact finishB_root _ 0 _ rfl rfl rfl
    have hsuf := readF_region_head suffix
      ([some (rootRec K0 (some (1 + sizeF suffix)))]
        ++ forestNodes suffix (1 + sizeF suffix) none none 1
        ++ [some (wrapRec K none (headIdx suffix 1))])
      [some (rootRec K0 (some (1 + sizeF suffix)))]
      [some (wrapRec K none (headIdx suffix 1))]
      (1 + sizeF suffix) none 1 rfl rfl .inil 1 rfl
    rw [appIF_inil] at hsuf
    have hgN : getA ([some (rootRec K0 (some (1 + sizeF suffix)))]
        ++ forestNodes suffix (1 + sizeF suffix) none none 1
        ++ [some (wrapRec K none (headIdx suffix 1))]) (1 + sizeF suffix)
        = some (wrapRec K none (headIdx suffix 1)) := by
      rw [getA_append_base _ _ (by simp [forestNodes_length]; omega)]
      rfl
    have hwrapT : readT (fuelF suffix + 2)
        ([some (rootRec K0 (some (1 + sizeF suffix)))]
          ++ forestNodes suffix (1 + sizeF suffix) none none 1
          ++ [some (wrapRec K none (headIdx suffix 1))]) (1 + sizeF suffix)
        = some (.ibranch (1 + sizeF suffix) K (annF suffix 1)) := by
      simp only [readT]
      rw [hgN]
      simp only [Option.some_bind,
        show (wrapRec K none (headIdx suffix 1)).content
          = Content.branch (headIdx suffix 1) from rfl,
        show (wrapRec K none (headIdx suffix 1)).kind = K from rfl]
      rw [hsuf]
      rfl
    have hchain : readF (fuelF suffix + 3)
        ([some (rootRec K0 (some (1 + sizeF suffix)))]
          ++ forestNodes suffix (1 + sizeF suffix) none none 1
          ++ [some (wrapRec K none (headIdx suffix 1))]) 0
        (some (1 + sizeF suffix))
        = some (.icons (.ibranch (1 + sizeF suffix) K (annF suffix 1))
            .inil) := by
      simp only [readF]
      rw [hgN]
      simp only [Option.some_bind,
        show (wrapRec K none (headIdx suffix 1)).parent = some 0 from rfl,
        show (wrapRec K none (headIdx suffix 1)).next_sibling = none
          from rfl]
      simp only [if_true]
      rw [hwrapT]
      simp only [Option.some_bind]
      rfl
    have hroot : readT (fuelF suffix + 4)
        ([some (rootRec K0 (some (1 + sizeF suffix)))]
          ++ forestNodes suffix (1 + sizeF suffix) none none 1
          ++ [some (wrapRec K none (headIdx suffix 1))]) 0
        = some (.ibranch 0 K0
            (.icons (.ibranch (1 + sizeF suffix) K (annF suffix 1))
              .inil)) := by
      simp only [readT]
      rw [show getA ([some (rootRec K0 (some (1 + sizeF suffix)))]
        ++ forestNodes suffix (1 + sizeF suffix) none none 1
        ++ [some (wrapRec K none (headIdx suffix 1))]) 0
        = some (rootRec K0 (some (1 + sizeF suffix))) from rfl]
      simp only [Option.some_bind,
        show (rootRec K0 (some (1 + sizeF suffix))).content
          = Content.branch (some (1 + sizeF suffix)) from rfl,
        show (rootRec K0 (some (1 + sizeF suffix))).kind = K0 from rfl]
      rw [hchain]
      rfl
    exact ⟨_, _, fuelF suffix + 4, hfin, rfl, hroot⟩
  | cons p0 pf =>
    obtain ⟨prev, R, cur, par0, hlast, hp⟩ := pipeB_cons K0 K p0 pf suffix
    have hfin : (pipeB K0 K (.cons p0 pf) suffix).finishB
        = some ({ arena := [some (rootRec K0 (some 1))]
                    ++ forestNodes (.cons p0 pf) 0 none
                      (some (1 + sizeF (.cons p0 pf) + sizeF suffix)) 1
                    ++ forestNodes suffix
                      (1 + sizeF (.cons p0 pf) + sizeF suffix)
                      none none (1 + sizeF (.cons p0 pf))
                    ++ [some (wrapRec K (some prev)
                      (headIdx suffix (1 + sizeF (.cons p0 pf))))],
                  ranges := R }, 0) := by
      rw [hp]
      exact finishB_root _ 0 _ rfl rfl rfl
    have hsuf := readF_region_head suffix
      ([some (rootRec K0 (some 1))]
        ++ forestNodes (.cons p0 pf) 0 none
          (some (1 + sizeF (.cons p0 pf) + sizeF suffix)) 1
        ++ forestNodes suffix (1 + sizeF (.cons p0 pf) + sizeF suffix)
          none none (1 + sizeF (.cons p0 pf))
        ++ [some (wrapRec K (some prev)
          (headIdx suffix (1 + sizeF (.cons p0 pf))))])
      ([some (rootRec K0 (some 1))]
        ++ forestNodes (.cons p0 pf) 0 none
          (some (1 + sizeF (.cons p0 pf) + sizeF suffix)) 1)
      [some (wrapRec K (some prev)
        (headIdx suffix (1 + sizeF (.cons p0 pf))))]
      (1 + sizeF (.cons p0 pf) + sizeF suffix) none
      (1 + sizeF (.cons p0 pf)) rfl
      (by simp [forestNodes_length]; omega) .inil 1 rfl
    rw [appIF_inil] at hsuf
    have hgN : getA ([some (rootRec K0 (some 1))]
        ++ forestNodes (.cons p0 pf) 0 none
          (some (1 + sizeF (.cons p0 pf) + sizeF suffix)) 1
        ++ forestNodes suffix (1 + sizeF (.cons p0 pf) + sizeF suffix)
          none none (1 + sizeF (.cons p0 pf))
        ++ [some (wrapRec K (some prev)
          (headIdx suffix (1 + sizeF (.cons p0 pf))))])
        (1 + sizeF (.cons p0 pf) + sizeF suffix)
        = some (wrapRec K (some prev)
          (headIdx suffix (1 + sizeF (.cons p0 pf)))) := by
      rw [getA_append_base _ _ (by simp [forestNodes_length]; omega)]
      rfl
    have hwrapT : readT (fuelF suffix + 2)
        ([some (rootRec K0 (some 1))]
          ++ forestNodes (.cons p0 pf) 0 none
            (some (1 + sizeF (.cons p0 pf) + sizeF suffix)) 1
          ++ forestNodes suffix (1 + sizeF (.cons p0 pf) + sizeF suffix)
            none none (1 + sizeF (.cons p0 pf))
          ++ [some (wrapRec K (some prev)
            (headIdx suffix (1 + sizeF (.cons p0 pf))))])
        (1 + sizeF (.cons p0 pf) + sizeF suffix)
        = some (.ibranch (1 + sizeF (.cons p0 pf) + sizeF suffix) K
            (annF suffix (1 + sizeF (.cons p0 pf)))) := by
      simp only [readT]
      rw [hgN]
      simp only [Option.some_bind,
        show (wrapRec K (some prev) (headIdx suffix (1 + sizeF (.cons p0 pf)))).content
          = Content.branch (headIdx suffix (1 + sizeF (.cons p0 pf)))
          from rfl,
        show (wrapRec K (some prev) (headIdx suffix (1 + sizeF (.cons p0 pf)))).kind = K from rfl]
      rw [hsuf]
      rfl
    have hcont : readF (fuelF suffix + 3)
        ([some (rootRec K0 (some 1))]
          ++ forestNodes (.cons p0 pf) 0 none
            (some (1 + sizeF (.cons p0 pf) + sizeF suffix)) 1
          ++ forestNodes suffix (1 + sizeF (.cons p0 pf) + sizeF suffix)
            none none (1 + sizeF (.cons p0 pf))
          ++ [some (wrapRec K (some prev)
            (headIdx suffix (1 + sizeF (.cons p0 pf))))]) 0
        (some (1 + sizeF (.cons p0 pf) + sizeF suffix))
        = some (.icons (.ibranch (1 + sizeF (.cons p0 pf) + sizeF suffix) K
            (annF suffix (1 + sizeF (.cons p0 pf)))) .inil) := by
      simp only [readF]
      rw [hgN]
      simp only [Option.some_bind,
        show (wrapRec K (some prev) (headIdx suffix (1 + sizeF (.cons p0 pf)))).parent = some 0 from rfl,
        show (wrapRec K (some prev) (headIdx suffix (1 + sizeF (.cons p0 pf)))).next_sibling = none from rfl]
      simp only [if_true]
      rw [hwrapT]
      simp only [Option.some_bind]
      rfl
    have hprior : readF (fuelF (Forest.cons p0 pf) + (fuelF suffix + 3))
        ([some (rootRec K0 (some 1))]
          ++ forestNodes (.cons p0 pf) 0 none
            (some (1 + sizeF (.cons p0 pf) + sizeF suffix)) 1
          ++ forestNodes suffix (1 + sizeF (.cons p0 pf) + sizeF suffix)
            none none (1 + sizeF (.cons p0 pf))
          ++ [some (wrapRec K (some prev)
            (headIdx suffix (1 + sizeF (.cons p0 pf))))]) 0 (some 1)
        = some (appIF (annF (.cons p0 pf) 1)
            (.icons (.ibranch (1 + sizeF (.cons p0 pf) + sizeF suffix) K
              (annF suffix (1 + sizeF (.cons p0 pf)))) .inil)) :=
      readF_region (.cons p0 pf)
      ([some (rootRec K0 (some 1))]
        ++ forestNodes (.cons p0 pf) 0 none
          (some (1 + sizeF (.cons p0 pf) + sizeF suffix)) 1
        ++ forestNodes suffix (1 + sizeF (.cons p0 pf) + sizeF suffix)
          none none (1 + sizeF (.cons p0 pf))
        ++ [some (wrapRec K (some prev)
          (headIdx suffix (1 + sizeF (.cons p0 pf))))])
      [some (rootRec K0 (some 1))]
      (forestNodes suffix (1 + sizeF (.cons p0 pf) + sizeF suffix)
        none none (1 + sizeF (.cons p0 pf))
        ++ [some (wrapRec K (some prev)
          (headIdx suffix (1 + sizeF (.cons p0 pf))))])
      0 none (some (1 + sizeF (.cons p0 pf) + sizeF suffix)) 1
      (by simp [List.append_assoc]) rfl
      (.icons (.ibranch (1 + sizeF (.cons p0 pf) + sizeF suffix) K
        (annF suffix (1 + sizeF (.cons p0 pf)))) .inil)
      (fuelF suffix + 3) hcont
    have hroot : readT (fuelF (.cons p0 pf) + (fuelF suffix + 3) + 1)
        ([some (rootRec K0 (some 1))]
          ++ forestNodes (.cons p0 pf) 0 none
            (some (1 + sizeF (.cons p0 pf) + sizeF suffix)) 1
          ++ forestNodes suffix (1 + sizeF (.cons p0 pf) + sizeF suffix)
            none none (1 + sizeF (.cons p0 pf))
          ++ [some (wrapRec K (some prev)
            (headIdx suffix (1 + sizeF (.cons p0 pf))))]) 0
        = some (.ibranch 0 K0 (appIF (annF (.cons p0 pf) 1)
            (.icons (.ibranch (1 + sizeF (.cons p0 pf) + sizeF suffix) K
              (annF suffix (1 + sizeF (.cons p0 pf)))) .inil))) := by
      simp only [readT]
      rw [show getA ([some (rootRec K0 (some 1))]
        ++ forestNodes (.cons p0 pf) 0 none
          (some (1 + sizeF (.cons p0 pf) + sizeF suffix)) 1
        ++ forestNodes suffix (1 + sizeF (.cons p0 pf) + sizeF suffix)
          none none (1 + sizeF (.cons p0 pf))
        ++ [some (wrapRec K (some prev)
          (headIdx suffix (1 + sizeF (.cons p0 pf))))]) 0
        = some (rootRec K0 (some 1)) from rfl]
      simp only [Option.some_bind,
        show (rootRec K0 (some 1)).content = Content.branch (some 1)
          from rfl,
        show (rootRec K0 (some 1)).kind = K0 from rfl]
      rw [hprior]
      rfl
    exact ⟨_, _, fuelF (.cons p0 pf) + (fuelF suffix + 3) + 1, hfin,
      rfl, hroot⟩

end CheckpointLemmas

/-- C4: checkpoint equivalence.  For any kinds `K0` (enclosing root) and
`K`, any prior siblings and any suffix siblings, the tree built with an
explicit `start_internal K` before the suffix (variant a, serialized as one
balanced tree) and the tree built by building the prior siblings, taking a
checkpoint, building the suffix and calling `start_internal_at` (variant b,
the `pipeB` pipeline) both finish successfully, their depth-first walkers
emit complete Euler tours, and the two trees produce identical Display text
and identical node-kind sequences in the depth-first walk.  `prior = nil`
covers the no-prior-sibling case of `start_internal_at` and `prior ≠ nil`
the prior-sibling case. -/
theorem claim4_checkpoint_equivalence (T : Type) (K0 K : T)
    (prior suffix : Forest T) :
    ∃ (rdA rdB : RootData T) (itA itB : ITree T),
      (Builder.init.run (evTree (.branch K0
          (apF prior (.cons (.branch K suffix) .nil))))).finishB
        = some (rdA, 0) ∧
      (pipeB K0 K prior suffix).finishB = some (rdB, 0) ∧
      walkSteps rdA.arena (2 * isizeT itA) ⟨some (true, 0), 0⟩
        = (eulerI itA 0, ⟨none, 0⟩) ∧
      walkSteps rdB.arena (2 * isizeT itB) ⟨some (true, 0), 0⟩
        = (eulerI itB 0, ⟨none, 0⟩) ∧
      dispText rdA.arena (eulerI itA 0)
        = dispText rdB.arena (eulerI itB 0) ∧
      walkKinds rdA.arena (eulerI itA 0)
        = walkKinds rdB.arena (eulerI itB 0) := by
  obtain ⟨rA, hgA, hparA, hprevA, hnextA⟩ :=
    treeNodes_get_root (.branch K0
      (apF prior (.cons (.branch K suffix) .nil))) (T := T) none none none 0
  have hreadA : readT (fuelT (.branch K0
      (apF prior (.cons (.branch K suffix) .nil))))
      (treeNodes (.branch K0
        (apF prior (.cons (.branch K suffix) .nil))) none none none 0) 0
      = some (annT (.branch K0
        (apF prior (.cons (.branch K suffix) .nil))) 0) :=
    readT_region _ _ [] [] none none none 0 (by simp) rfl _ le_rfl
  have hwalkA := walk_euler_T _ _ _ 0 rA 0 hgA hreadA
  rw [if_pos rfl] at hwalkA
  have hdispA := disp_euler_T _ _ _ 0 0 hreadA
  have hkindA := kind_euler_T _ _ _ 0 0 hreadA
  rw [strip_ann] at hdispA hkindA
  obtain ⟨rdB, rB, fuelB, hfinB, hgB, hreadB⟩ := pipeB_decode K0 K prior
    suffix
  have hwalkB := walk_euler_T _ _ _ 0 rB 0 hgB hreadB
  rw [if_pos rfl] at hwalkB
  have hdispB := disp_euler_T _ _ _ 0 0 hreadB
  have hkindB := kind_euler_T _ _ _ 0 0 hreadB
  have hstrip : stripT (ITree.ibranch 0 K0 (appIF (annF prior 1)
      (.icons (.ibranch (1 + sizeF prior + sizeF suffix) K
        (annF suffix (1 + sizeF prior))) .inil)))
      = .branch K0 (apF prior (.cons (.branch K suffix) .nil)) := by
    simp [stripT, stripF, stripF_appIF, stripF_ann]
  rw [hstrip] at hdispB hkindB
  exact ⟨_, rdB, _, _, finish_run_tree _, hfinB, hwalkA, hwalkB,
    hdispA.trans hdispB.symm, hkindA.trans hkindB.symm⟩


end Rowan
